import Mathlib

/-!
# A versioned in-memory file store (`src/main.cpp`)

Shallow embedding of `TreeNode`, `HashMap`, `File` and `System`.

Modelling conventions.
* Objects allocated with `new` live in two arenas, `System.nodeHeap` (every
  `TreeNode`) and `System.fileHeap` (every `File`).  A non-null pointer is the index of
  the object in its arena; `new` appends to the arena, so the fresh pointer is the old
  length.  A nullable pointer (`TreeNode::parent`, the `File*` stored in and returned
  by the `HashMap`) is an `Option Nat`, `none` being `nullptr`.
* Dereferencing a pointer that is not in the arena is undefined behaviour in C++; the
  operations return `none` there.
* `int` is modelled by `Int` (no revision counter or bucket count comes near `2^31`),
  `unsigned long` by `Nat` reduced modulo `2^64`, `char` is signed.
* `std::string` is modelled by `String`; the hash runs over its UTF-8 bytes.
* Each call of `time(nullptr)` is an explicit argument of the operation that makes it.
* What an operation writes to `cout` is returned as a `String` (`endl` is `"\n"`).
-/

namespace Vfs

/-! ## TreeNode -/

/-- Embedding of `struct TreeNode`. -/
structure TreeNode where
  version_id : Int
  content : String
  message : String
  created_timestamp : Int
  snapshot_timestamp : Int
  parent : Option Nat
  children : List Nat
  is_snapshot : Bool
deriving DecidableEq, Repr

/-- Constructor `TreeNode(id, con, p)`; `now` is the value of `time(nullptr)`. -/
def TreeNode.new (id : Int) (con : String) (p : Option Nat) (now : Int) : TreeNode :=
  { version_id := id, content := con, message := "", created_timestamp := now,
    snapshot_timestamp := 0, parent := p, children := [], is_snapshot := false }

/-! ## HashMap -/

/-- Embedding of `class HashMap`: `table` is the vector of buckets, each a vector of
`pair<string, File*>`. -/
structure HashMap where
  table : List (List (String × Option Nat))
  numElements : Int
deriving DecidableEq, Repr

namespace HashMap

/-- Value of a (signed) `char` converted to `unsigned long`. -/
def charToULong (b : UInt8) : Nat :=
  if b.toNat < 128 then b.toNat else 2 ^ 64 - 256 + b.toNat

/-- One round of the loop `h = ((h << 5) + h) + c` on `unsigned long`. -/
def hashStep (h : Nat) (b : UInt8) : Nat :=
  (((h * 2 ^ 5) % 2 ^ 64 + h) % 2 ^ 64 + charToULong b) % 2 ^ 64

/-- The accumulator of `HashMap::hash` before the reduction modulo the bucket count:
`unsigned long h = 5381; for (char c : key) h = ((h << 5) + h) + c;`. -/
def hashCode (key : String) : Nat :=
  key.toUTF8.data.toList.foldl hashStep 5381

/-- Embedding of `HashMap::hash`: `h % table.size()`. -/
def hash (m : HashMap) (key : String) : Nat :=
  hashCode key % m.table.length

/-- The push of one pair in the inner loop of `HashMap::rehash`:
`newTable[h % newCapacity].push_back(p)`. -/
def rehashPush (newCapacity : Nat) (newTable : List (List (String × Option Nat)))
    (p : String × Option Nat) : List (List (String × Option Nat)) :=
  let idx := hashCode p.1 % newCapacity
  newTable.set idx (newTable.getD idx [] ++ [p])

/-- Embedding of `HashMap::rehash`. -/
def rehash (m : HashMap) : HashMap :=
  let newCapacity := m.table.length * 2
  let newTable : List (List (String × Option Nat)) := List.replicate newCapacity []
  { table := m.table.foldl (fun nt bucket => bucket.foldl (rehashPush newCapacity) nt) newTable,
    numElements := m.numElements }

/-- Constructor `HashMap()`: `INIT_CAPACITY = 8` empty buckets. -/
def empty : HashMap :=
  { table := List.replicate 8 [], numElements := 0 }

/-- Embedding of `HashMap::insert`; the second component is the returned `bool`.
The test `(double)numElements / table.size() > 0.75` is the exact comparison
`4 * numElements > 3 * table.size()`. -/
def insert (m : HashMap) (key : String) (value : Option Nat) : HashMap × Bool :=
  let idx := m.hash key
  if (m.table.getD idx []).any (fun p => p.1 == key) then (m, false)
  else
    let m1 : HashMap :=
      { table := m.table.set idx (m.table.getD idx [] ++ [(key, value)]),
        numElements := m.numElements + 1 }
    if 4 * m1.numElements > 3 * (m1.table.length : Int) then (m1.rehash, true)
    else (m1, true)

/-- Embedding of `HashMap::find`; `none` is `nullptr`. -/
def find (m : HashMap) (key : String) : Option Nat :=
  let idx := m.hash key
  match (m.table.getD idx []).find? (fun p => p.1 == key) with
  | some p => p.2
  | none => none

end HashMap

/-! ## File -/

/-- Embedding of `struct File`. -/
structure File where
  root : Nat
  active_version : Nat
  version_map : List Nat
  total_versions : Int
  filename : String
  last_modified : Int
deriving DecidableEq, Repr

/-- Constructor `File(name)`: `rootPtr` is the pointer returned by `new TreeNode(0)`,
`now` the value of `time(nullptr)` stored in `last_modified`. -/
def File.new (name : String) (rootPtr : Nat) (now : Int) : File :=
  { root := rootPtr, active_version := rootPtr, version_map := [rootPtr],
    total_versions := 1, filename := name, last_modified := now }

/-! ## System -/

/-- Embedding of `class System` together with the two arenas of objects it allocated. -/
structure System where
  files : HashMap
  fileHeap : List File
  nodeHeap : List TreeNode
deriving DecidableEq, Repr

namespace System

/-- Constructor `System()`. -/
def init : System :=
  { files := HashMap.empty, fileHeap := [], nodeHeap := [] }

def msgNotFound (filename : String) : String :=
  "Error: File '" ++ filename ++ "' not found.\n"

def msgExists (filename : String) : String :=
  "Error: File '" ++ filename ++ "' already exists.\n"

def msgCreated (filename : String) : String :=
  "File '" ++ filename ++ "' created successfully.\n"

def msgInserted : String := "Content inserted successfully.\n"

def msgUpdated : String := "Content updated successfully.\n"

def msgAlreadySnapshot : String := "Error: Current version is already a snapshot.\n"

def msgSnapshot (message : String) : String :=
  "Snapshot created with message: '" ++ message ++ "'\n"

def msgNoParent : String := "Error: No parent version to rollback to.\n"

def msgRolledParent : String := "Rolled back to parent version.\n"

def msgInvalidId : String := "Error: Invalid version ID.\n"

def msgVersionNotFound (version_id : Int) : String :=
  "Error: Version " ++ toString version_id ++ " not found.\n"

def msgRolledTo (version_id : Int) : String :=
  "Rolled back to version " ++ toString version_id ++ "\n"

/-- Embedding of `System::create`.  `tNode` is the clock read by the `TreeNode`
constructor, `tFile` the clock read by the `File` constructor. -/
def create (s : System) (filename : String) (tNode tFile : Int) : Option (System × String) :=
  match s.files.find filename with
  | some _ => some (s, msgExists filename)
  | none =>
    let rootPtr := s.nodeHeap.length
    let new_file := s.fileHeap.length
    some ({ files := (s.files.insert filename (some new_file)).1,
            fileHeap := s.fileHeap ++ [File.new filename rootPtr tFile],
            nodeHeap := s.nodeHeap ++ [TreeNode.new 0 "" none tNode] },
          msgCreated filename)

/-- Embedding of `System::read`. -/
def read (s : System) (filename : String) : Option (System × String) :=
  match s.files.find filename with
  | none => some (s, msgNotFound filename)
  | some fp =>
    match s.fileHeap[fp]? with
    | none => none
    | some file =>
      match s.nodeHeap[file.active_version]? with
      | none => none
      | some act => some (s, act.content ++ "\n")

/-- Embedding of `System::insert`.  `tNode` is the clock read by the `TreeNode`
constructor (fork branch only), `tMod` the clock stored in `last_modified`. -/
def insert (s : System) (filename content : String) (tNode tMod : Int) :
    Option (System × String) :=
  match s.files.find filename with
  | none => some (s, msgNotFound filename)
  | some fp =>
    match s.fileHeap[fp]? with
    | none => none
    | some file =>
      match s.nodeHeap[file.active_version]? with
      | none => none
      | some act =>
        if act.is_snapshot then
          let new_version := s.nodeHeap.length
          let heap1 := s.nodeHeap ++
            [TreeNode.new file.total_versions (act.content ++ content)
              (some file.active_version) tNode]
          let heap2 := heap1.set file.active_version
            { act with children := act.children ++ [new_version] }
          let file1 : File :=
            { file with version_map := file.version_map ++ [new_version],
                        active_version := new_version,
                        total_versions := file.total_versions + 1,
                        last_modified := tMod }
          some ({ s with fileHeap := s.fileHeap.set fp file1, nodeHeap := heap2 }, msgInserted)
        else
          let heap1 := s.nodeHeap.set file.active_version
            { act with content := act.content ++ content }
          let file1 : File := { file with last_modified := tMod }
          some ({ s with fileHeap := s.fileHeap.set fp file1, nodeHeap := heap1 }, msgInserted)

/-- Embedding of `System::update`; the clock arguments are as in `insert`. -/
def update (s : System) (filename content : String) (tNode tMod : Int) :
    Option (System × String) :=
  match s.files.find filename with
  | none => some (s, msgNotFound filename)
  | some fp =>
    match s.fileHeap[fp]? with
    | none => none
    | some file =>
      match s.nodeHeap[file.active_version]? with
      | none => none
      | some act =>
        if act.is_snapshot then
          let new_version := s.nodeHeap.length
          let heap1 := s.nodeHeap ++
            [TreeNode.new file.total_versions content (some file.active_version) tNode]
          let heap2 := heap1.set file.active_version
            { act with children := act.children ++ [new_version] }
          let file1 : File :=
            { file with version_map := file.version_map ++ [new_version],
                        active_version := new_version,
                        total_versions := file.total_versions + 1,
                        last_modified := tMod }
          some ({ s with fileHeap := s.fileHeap.set fp file1, nodeHeap := heap2 }, msgUpdated)
        else
          let heap1 := s.nodeHeap.set file.active_version { act with content := content }
          let file1 : File := { file with last_modified := tMod }
          some ({ s with fileHeap := s.fileHeap.set fp file1, nodeHeap := heap1 }, msgUpdated)

/-- Embedding of `System::snapshot`.  `tSnap` is the clock stored in
`snapshot_timestamp`, `tMod` the clock stored in `last_modified`. -/
def snapshot (s : System) (filename message : String) (tSnap tMod : Int) :
    Option (System × String) :=
  match s.files.find filename with
  | none => some (s, msgNotFound filename)
  | some fp =>
    match s.fileHeap[fp]? with
    | none => none
    | some file =>
      match s.nodeHeap[file.active_version]? with
      | none => none
      | some act =>
        if act.is_snapshot then some (s, msgAlreadySnapshot)
        else
          let heap1 := s.nodeHeap.set file.active_version
            { act with message := message, is_snapshot := true, snapshot_timestamp := tSnap }
          let file1 : File := { file with last_modified := tMod }
          some ({ s with fileHeap := s.fileHeap.set fp file1, nodeHeap := heap1 },
                msgSnapshot message)

/-- The loop of `System::rollback` over `version_map`: the first pointer whose node has
the wanted `version_id`, `some none` when there is none (`target` stays `nullptr`). -/
def scanVersion (heap : List TreeNode) (version_id : Int) : List Nat → Option (Option Nat)
  | [] => some none
  | v :: rest =>
    match heap[v]? with
    | none => none
    | some n => if n.version_id = version_id then some (some v) else scanVersion heap version_id rest

/-- Embedding of `System::rollback(filename, version_id)`.  The call without a version
id is the call with the default argument `-1`. -/
def rollback (s : System) (filename : String) (version_id : Int) : Option (System × String) :=
  match s.files.find filename with
  | none => some (s, msgNotFound filename)
  | some fp =>
    match s.fileHeap[fp]? with
    | none => none
    | some file =>
      if version_id = -1 then
        match s.nodeHeap[file.active_version]? with
        | none => none
        | some act =>
          match act.parent with
          | none => some (s, msgNoParent)
          | some p =>
            some ({ s with fileHeap := s.fileHeap.set fp { file with active_version := p } },
                  msgRolledParent)
      else if version_id < 0 ∨ version_id ≥ file.total_versions then
        some (s, msgInvalidId)
      else
        match scanVersion s.nodeHeap version_id file.version_map with
        | none => none
        | some none => some (s, msgVersionNotFound version_id)
        | some (some target) =>
          some ({ s with fileHeap := s.fileHeap.set fp { file with active_version := target } },
                msgRolledTo version_id)

/-- The default argument of `System::rollback`. -/
def noVersion : Int := -1

/-- One line of `System::history`; `ctime` is the C library function. -/
def historyLine (ctime : Int → String) (v : TreeNode) : String :=
  "Version -" ++ toString v.version_id ++ " (Snapshot) - " ++ ctime v.snapshot_timestamp ++
    "Message: " ++ v.message ++ "\n"

/-- The loop of `System::history`: the nodes of `version_map`, in order, that are
snapshots (those for which a line is printed). -/
def historyNodes (heap : List TreeNode) : List Nat → Option (List TreeNode)
  | [] => some []
  | v :: rest =>
    match heap[v]? with
    | none => none
    | some n =>
      match historyNodes heap rest with
      | none => none
      | some ns => if n.is_snapshot then some (n :: ns) else some ns

/-- Embedding of `System::history`. -/
def history (s : System) (filename : String) (ctime : Int → String) : Option (System × String) :=
  match s.files.find filename with
  | none => some (s, msgNotFound filename)
  | some fp =>
    match s.fileHeap[fp]? with
    | none => none
    | some file =>
      match historyNodes s.nodeHeap file.version_map with
      | none => none
      | some ns =>
        some (s, "Version history for file: " ++ filename ++ "\n" ++
                  String.join (ns.map (historyLine ctime)))

end System

/-! ## Commands and reachable states -/

/-- One call of a public operation of `System`, with the clock values it reads. -/
inductive Op where
  | create (filename : String) (tNode tFile : Int)
  | read (filename : String)
  | insert (filename content : String) (tNode tMod : Int)
  | update (filename content : String) (tNode tMod : Int)
  | snapshot (filename message : String) (tSnap tMod : Int)
  | rollback (filename : String) (version_id : Int)
  | history (filename : String) (ctime : Int → String)

/-- Run one operation. -/
def System.exec (s : System) : Op → Option (System × String)
  | .create filename tNode tFile => s.create filename tNode tFile
  | .read filename => s.read filename
  | .insert filename content tNode tMod => s.insert filename content tNode tMod
  | .update filename content tNode tMod => s.update filename content tNode tMod
  | .snapshot filename message tSnap tMod => s.snapshot filename message tSnap tMod
  | .rollback filename version_id => s.rollback filename version_id
  | .history filename ctime => s.history filename ctime

/-- Run a sequence of operations, keeping the final store. -/
def System.run (s : System) : List Op → Option System
  | [] => some s
  | op :: rest =>
    match s.exec op with
    | none => none
    | some r => r.1.run rest

/-- A store is reachable when some sequence of operations produces it from `System()`. -/
def Reachable (s : System) : Prop :=
  ∃ ops : List Op, System.init.run ops = some s

/-! ## Specification vocabulary -/

/-- A key is present when some bucket of the table holds a pair with that key. -/
def HashMap.present (m : HashMap) (key : String) : Bool :=
  m.table.any (fun bucket => bucket.any (fun p => p.1 == key))

/-- Well-formed table: at least one bucket, and every pair sits in the bucket its key
hashes to. -/
def HashMap.WF (m : HashMap) : Prop :=
  0 < m.table.length ∧
    ∀ i b, m.table[i]? = some b → ∀ p ∈ b, HashMap.hashCode p.1 % m.table.length = i

/-- The table after the `push_back` of `HashMap::insert`, before the load test. -/
def HashMap.pushed (m : HashMap) (key : String) (value : Option Nat) : HashMap :=
  { table := m.table.set (m.hash key) (m.table.getD (m.hash key) [] ++ [(key, value)]),
    numElements := m.numElements + 1 }

/-- A sequence of `HashMap::insert` calls, the returned booleans dropped. -/
def HashMap.insertAll (m : HashMap) (kvs : List (String × Option Nat)) : HashMap :=
  kvs.foldl (fun acc kv => (acc.insert kv.1 kv.2).1) m

/-- The value given in the first pair with key `k` of a sequence of inserts, `none`
(`nullptr`) when there is no such pair. -/
def firstValue (kvs : List (String × Option Nat)) (k : String) : Option Nat :=
  match kvs.find? (fun kv => kv.1 == k) with
  | some kv => kv.2
  | none => none

/-- The revisions of the tree hanging from `root`: the root and, transitively, the
members of the `children` vectors. -/
inductive InTree (heap : List TreeNode) (root : Nat) : Nat → Prop where
  | root : InTree heap root root
  | child (q c : Nat) (m : TreeNode) : InTree heap root q → heap[q]? = some m →
      c ∈ m.children → InTree heap root c

/-- What a fork does to the store: `s` before, `s1` after; `fp` points to the file `f`
(as it was before), `a` is its active node before, `newContent` the content given to
the new revision. -/
structure ForkPost (s s1 : System) (fp : Nat) (f : File) (a : TreeNode)
    (newContent : String) (tNode tMod : Int) : Prop where
  files_eq : s1.files = s.files
  heap_len : s1.nodeHeap.length = s.nodeHeap.length + 1
  new_node : s1.nodeHeap[s.nodeHeap.length]? = some
    { version_id := f.total_versions, content := newContent, message := "",
      created_timestamp := tNode, snapshot_timestamp := 0,
      parent := some f.active_version, children := [], is_snapshot := false }
  old_active : s1.nodeHeap[f.active_version]? = some
    { a with children := a.children ++ [s.nodeHeap.length] }
  other_nodes : ∀ p, p ≠ f.active_version → p < s.nodeHeap.length →
    s1.nodeHeap[p]? = s.nodeHeap[p]?
  file_len : s1.fileHeap.length = s.fileHeap.length
  file : s1.fileHeap[fp]? = some
    { f with version_map := f.version_map ++ [s.nodeHeap.length],
             active_version := s.nodeHeap.length,
             total_versions := f.total_versions + 1,
             last_modified := tMod }
  other_files : ∀ q, q ≠ fp → s1.fileHeap[q]? = s.fileHeap[q]?

/-- What an in-place change of the active node does to the store: `s` before, `s1`
after; `fp` points to the file `f` (as it was before) and `a1` is the new value of its
active node.  No node is added, and only that node and `last_modified` differ. -/
structure MutPost (s s1 : System) (fp : Nat) (f : File) (a1 : TreeNode) (tMod : Int) :
    Prop where
  files_eq : s1.files = s.files
  heap_len : s1.nodeHeap.length = s.nodeHeap.length
  active_node : s1.nodeHeap[f.active_version]? = some a1
  other_nodes : ∀ p, p ≠ f.active_version → s1.nodeHeap[p]? = s.nodeHeap[p]?
  file_len : s1.fileHeap.length = s.fileHeap.length
  file : s1.fileHeap[fp]? = some { f with last_modified := tMod }
  other_files : ∀ q, q ≠ fp → s1.fileHeap[q]? = s.fileHeap[q]?

/-! ## Invariants of reachable stores -/

/-- The part of a node that the tree structure depends on is the same in `n1` as in
`n`, and a snapshot stays a snapshot. -/
def SameShape (n n1 : TreeNode) : Prop :=
  n1.version_id = n.version_id ∧ n1.parent = n.parent ∧ n1.children = n.children ∧
    (n.is_snapshot = true → n1.is_snapshot = true)

/-- Invariant of one `File` over the node arena. -/
structure FileInv (heap : List TreeNode) (f : File) : Prop where
  total : f.total_versions = f.version_map.length
  ids : ∀ (i p : Nat), f.version_map[i]? = some p →
    ∃ n, heap[p]? = some n ∧ n.version_id = (i : Int)
  active_mem : f.active_version ∈ f.version_map
  root_head : f.version_map[0]? = some f.root
  parent_iff : ∀ (p : Nat) (n : TreeNode), p ∈ f.version_map → heap[p]? = some n →
    (n.parent = none ↔ p = f.root)
  parent_ok : ∀ (p : Nat) (n : TreeNode) (q : Nat), p ∈ f.version_map → heap[p]? = some n → n.parent = some q →
    q ∈ f.version_map ∧ ∃ m, heap[q]? = some m ∧ p ∈ m.children ∧ m.is_snapshot = true ∧
      m.version_id < n.version_id
  children_ok : ∀ (q : Nat) (m : TreeNode) (c : Nat), q ∈ f.version_map → heap[q]? = some m → c ∈ m.children →
    c ∈ f.version_map ∧ ∃ n, heap[c]? = some n ∧ n.parent = some q
  children_nodup : ∀ (q : Nat) (m : TreeNode), q ∈ f.version_map → heap[q]? = some m → m.children.Nodup

/-- Invariant of the whole store. -/
structure SysInv (s : System) : Prop where
  map_wf : s.files.WF
  nonnull : ∀ k : String, s.files.present k = true → s.files.find k ≠ none
  find_valid : ∀ (k : String) (fp : Nat), s.files.find k = some fp →
    ∃ f, s.fileHeap[fp]? = some f ∧ f.filename = k
  registered : ∀ (fp : Nat) (f : File), s.fileHeap[fp]? = some f → s.files.find f.filename = some fp
  file_inv : ∀ (fp : Nat) (f : File), s.fileHeap[fp]? = some f → FileInv s.nodeHeap f
  sep : ∀ (fp fq : Nat) (f g : File), s.fileHeap[fp]? = some f → s.fileHeap[fq]? = some g → fp ≠ fq →
    ∀ p, p ∈ f.version_map → p ∉ g.version_map
  cover : ∀ p : Nat, p < s.nodeHeap.length →
    ∃ (fp : Nat) (f : File), s.fileHeap[fp]? = some f ∧ p ∈ f.version_map

/-! ## The three shapes of a state change -/

/-- The store after a fork of file `f` (at `fp`) whose active node is `a`. -/
def forkState (s : System) (fp : Nat) (f : File) (a : TreeNode) (newContent : String)
    (tNode tMod : Int) : System :=
  { s with
    fileHeap := s.fileHeap.set fp
      { f with version_map := f.version_map ++ [s.nodeHeap.length],
               active_version := s.nodeHeap.length,
               total_versions := f.total_versions + 1,
               last_modified := tMod },
    nodeHeap := (s.nodeHeap ++
        [TreeNode.new f.total_versions newContent (some f.active_version) tNode]).set
      f.active_version { a with children := a.children ++ [s.nodeHeap.length] } }

/-- The store after the active node of file `f` (at `fp`) was overwritten by `a1` and
`last_modified` set. -/
def mutState (s : System) (fp : Nat) (f : File) (a1 : TreeNode) (tMod : Int) : System :=
  { s with
    fileHeap := s.fileHeap.set fp { f with last_modified := tMod },
    nodeHeap := s.nodeHeap.set f.active_version a1 }

/-- The store after `active_version` of file `f` (at `fp`) was set to `p`. -/
def moveState (s : System) (fp : Nat) (f : File) (p : Nat) : System :=
  { s with fileHeap := s.fileHeap.set fp { f with active_version := p } }

/-! ## Example stores -/

/-- The store after `CREATE a.txt`, `INSERT a.txt hello`. -/
def exMutable : System :=
  { files := { table := [[], [], [], [], [("a.txt", some 0)], [], [], []], numElements := 1 },
    fileHeap := [{ root := 0, active_version := 0, version_map := [0], total_versions := 1,
                   filename := "a.txt", last_modified := 4 }],
    nodeHeap := [{ version_id := 0, content := "hello", message := "", created_timestamp := 1,
                   snapshot_timestamp := 0, parent := none, children := [],
                   is_snapshot := false }] }

/-- The store after `CREATE a.txt`, `INSERT a.txt hello`, `SNAPSHOT a.txt v1`. -/
def exSnapshotted : System :=
  { files := { table := [[], [], [], [], [("a.txt", some 0)], [], [], []], numElements := 1 },
    fileHeap := [{ root := 0, active_version := 0, version_map := [0], total_versions := 1,
                   filename := "a.txt", last_modified := 6 }],
    nodeHeap := [{ version_id := 0, content := "hello", message := "v1", created_timestamp := 1,
                   snapshot_timestamp := 5, parent := none, children := [],
                   is_snapshot := true }] }

/-- The store after `CREATE a.txt`, `INSERT a.txt hello`, `SNAPSHOT a.txt v1`,
`INSERT a.txt  world`: revision 1 is a child of revision 0 and is active. -/
def exForked : System :=
  { files := { table := [[], [], [], [], [("a.txt", some 0)], [], [], []], numElements := 1 },
    fileHeap := [{ root := 0, active_version := 1, version_map := [0, 1], total_versions := 2,
                   filename := "a.txt", last_modified := 8 }],
    nodeHeap := [{ version_id := 0, content := "hello", message := "v1", created_timestamp := 1,
                   snapshot_timestamp := 5, parent := none, children := [1],
                   is_snapshot := true },
                 { version_id := 1, content := "hello world", message := "",
                   created_timestamp := 7, snapshot_timestamp := 0, parent := some 0,
                   children := [], is_snapshot := false }] }

/-- Nine inserts of distinct keys: the seventh makes the table grow from 8 to 16
buckets. -/
def exPairs : List (String × Option Nat) :=
  [("a", some 0), ("b", some 1), ("c", some 2), ("d", some 3), ("e", some 4),
   ("f", some 5), ("g", some 6), ("h", some 7), ("i", some 8)]

/-- The operations that build `exMutable`. -/
def opsMutable : List Op :=
  [.create "a.txt" 1 2, .insert "a.txt" "hello" 3 4]

/-- The operations that build `exSnapshotted`. -/
def opsSnapshotted : List Op :=
  opsMutable ++ [.snapshot "a.txt" "v1" 5 6]

/-- The operations that build `exForked`. -/
def opsForked : List Op :=
  opsSnapshotted ++ [.insert "a.txt" " world" 7 8]

/-- Load invariant of the table: the counter is the number of stored pairs, there are
at least two buckets, and the load factor is at most 0.75. -/
def HashMap.Load (m : HashMap) : Prop :=
  m.numElements = (m.table.flatten.length : Int) ∧ 2 ≤ m.table.length ∧
    4 * m.numElements ≤ 3 * (m.table.length : Int)

/-- The filename an operation is addressed to. -/
def Op.target : Op → String
  | .create filename _ _ => filename
  | .read filename => filename
  | .insert filename _ _ _ => filename
  | .update filename _ _ _ => filename
  | .snapshot filename _ _ _ => filename
  | .rollback filename _ => filename
  | .history filename _ => filename

/-- The store after a successful `create(filename)`. -/
def createState (s : System) (filename : String) (tNode tFile : Int) : System :=
  { files := (s.files.insert filename (some s.fileHeap.length)).1,
    fileHeap := s.fileHeap ++ [File.new filename s.nodeHeap.length tFile],
    nodeHeap := s.nodeHeap ++ [TreeNode.new 0 "" none tNode] }

/-- The fields of a snapshot that must never change again are the same in `n1` as in
`n`, and `n1` is still a snapshot. -/
def Frozen (n n1 : TreeNode) : Prop :=
  n1.is_snapshot = true ∧ n1.content = n.content ∧ n1.message = n.message ∧
    n1.snapshot_timestamp = n.snapshot_timestamp

/-- The store after `exForked`, `ROLLBACK a.txt 0`, `INSERT a.txt !`: revisions 1 and 2
are both children of revision 0, revision 2 is active and revision 1 is on the branch
that was left. -/
def exBranched : System :=
  { files := { table := [[], [], [], [], [("a.txt", some 0)], [], [], []], numElements := 1 },
    fileHeap := [{ root := 0, active_version := 2, version_map := [0, 1, 2],
                   total_versions := 3, filename := "a.txt", last_modified := 10 }],
    nodeHeap := [{ version_id := 0, content := "hello", message := "v1", created_timestamp := 1,
                   snapshot_timestamp := 5, parent := none, children := [1, 2],
                   is_snapshot := true },
                 { version_id := 1, content := "hello world", message := "",
                   created_timestamp := 7, snapshot_timestamp := 0, parent := some 0,
                   children := [], is_snapshot := false },
                 { version_id := 2, content := "hello!", message := "",
                   created_timestamp := 9, snapshot_timestamp := 0, parent := some 0,
                   children := [], is_snapshot := false }] }

/-- The operations that build `exBranched`. -/
def opsBranched : List Op :=
  opsForked ++ [.rollback "a.txt" 0, .insert "a.txt" "!" 9 10]

/-- Repeated call of `rollback` without a version id, `k` times, each of them
successful (it printed the rolled-back-to-parent message). -/
def System.rollbackN (s : System) (filename : String) : Nat → Option System
  | 0 => some s
  | k + 1 =>
    match s.rollback filename System.noVersion with
    | none => none
    | some r => if r.2 = System.msgRolledParent then r.1.rollbackN filename k else none

/-- Six `CREATE` commands: the table holds six names in its eight buckets, so the next
successful `create` makes it grow. -/
def opsSix : List Op :=
  [.create "a" 1 2, .create "b" 3 4, .create "c" 5 6, .create "d" 7 8, .create "e" 9 10,
   .create "f" 11 12]

/-- The store built by `opsSix`. -/
def exSix : System :=
  (System.init.run opsSix).getD System.init

/-! ## The command loop of `main` -/

namespace Main

/-- The whitespace skipped by `operator>>` (`isspace` in the "C" locale). -/
def isSpace (c : Char) : Bool :=
  c.toNat = 32 || (9 ≤ c.toNat && c.toNat ≤ 13)

/-- Extraction `ss >> word` of a `string`: the word read (empty when the extraction
fails) and what is left of the stream. -/
def readWord (cs : List Char) : String × List Char :=
  let cs1 := cs.dropWhile isSpace
  (String.mk (cs1.takeWhile (fun c => !isSpace c)), cs1.dropWhile (fun c => !isSpace c))

/-- The statements `getline(ss, content); if (!content.empty() && content[0] == ' ')
content = content.substr(1);` on what is left of the stream. -/
def readTail (cs : List Char) : String :=
  match cs.takeWhile (fun c => c.toNat != 10) with
  | c :: rest => if c.toNat = 32 then String.mk rest else String.mk (c :: rest)
  | [] => ""

/-- Value of a run of decimal digits. -/
def digitsValue (ds : List Char) : Nat :=
  ds.foldl (fun acc d => acc * 10 + (d.toNat - 48)) 0

/-- Extraction `ss >> version_id` of an `int`: skip whitespace, an optional sign, then
decimal digits; it fails (`none`) without a digit or when the value does not fit an
`int`. -/
def readInt (cs : List Char) : Option Int :=
  let cs1 := cs.dropWhile isSpace
  let neg : Bool := match cs1 with
    | c :: _ => c.toNat = 45
    | [] => false
  let cs2 := match cs1 with
    | c :: rest => if c.toNat = 45 ∨ c.toNat = 43 then rest else cs1
    | [] => cs1
  let ds := cs2.takeWhile Char.isDigit
  if ds.isEmpty then none
  else
    let v : Int := if neg then -(digitsValue ds : Int) else (digitsValue ds : Int)
    if v < -2147483648 ∨ v > 2147483647 then none else some v

/-- The line that `main` itself prints after a rollback with a version id. -/
def msgRollingBack (filename : String) (version_id : Int) : String :=
  "Rolling back file: " ++ filename ++ " to version: " ++ toString version_id ++ "\n"

/-- One round of the `while (getline(cin, line))` loop of `main` on the store `H`:
the new store and what the round writes to `cout`.  `t1`, `t2` are the clock values
read by the operation the line triggers. -/
def processLine (H : System) (line : String) (t1 t2 : Int) : Option (System × String) :=
  if line.data.isEmpty then some (H, "")
  else
    let command := (readWord line.data).1
    let r1 := (readWord line.data).2
    let filename := (readWord r1).1
    let r2 := (readWord r1).2
    if command = "CREATE" then H.create filename t1 t2
    else if command = "READ" then H.read filename
    else if command = "INSERT" then H.insert filename (readTail r2) t1 t2
    else if command = "UPDATE" then H.update filename (readTail r2) t1 t2
    else if command = "SNAPSHOT" then H.snapshot filename (readTail r2) t1 t2
    else if command = "ROLLBACK" then
      match readInt r2 with
      | some version_id =>
        match H.rollback filename version_id with
        | none => none
        | some r => some (r.1, r.2 ++ msgRollingBack filename version_id)
      | none => H.rollback filename System.noVersion
    else some (H, "Unknown command: " ++ command ++ "\n")

/-- Number of lines written: the number of `endl` in the output. -/
def lineCount (out : String) : Nat :=
  out.data.count (Char.ofNat 10)

end Main

/-! ## The examples are reachable -/

theorem run_opsMutable : System.init.run opsMutable = some exMutable := by decide

theorem run_opsSnapshotted : System.init.run opsSnapshotted = some exSnapshotted := by decide

theorem run_opsForked : System.init.run opsForked = some exForked := by decide


/-! ## How each operation acts on a registered file -/

theorem insert_fork_eq (s : System) (filename text : String) (tNode tMod : Int)
    (fp : Nat) (f : File) (a : TreeNode)
    (hfind : s.files.find filename = some fp) (hfile : s.fileHeap[fp]? = some f)
    (hact : s.nodeHeap[f.active_version]? = some a) (hsnap : a.is_snapshot = true) :
    s.insert filename text tNode tMod =
      some (forkState s fp f a (a.content ++ text) tNode tMod, System.msgInserted) := by
  simp only [System.insert, hfind, hfile, hact]; rw [if_pos hsnap]; rfl

theorem update_fork_eq (s : System) (filename text : String) (tNode tMod : Int)
    (fp : Nat) (f : File) (a : TreeNode)
    (hfind : s.files.find filename = some fp) (hfile : s.fileHeap[fp]? = some f)
    (hact : s.nodeHeap[f.active_version]? = some a) (hsnap : a.is_snapshot = true) :
    s.update filename text tNode tMod =
      some (forkState s fp f a text tNode tMod, System.msgUpdated) := by
  simp only [System.update, hfind, hfile, hact]; rw [if_pos hsnap]; rfl

theorem insert_mut_eq (s : System) (filename text : String) (tNode tMod : Int)
    (fp : Nat) (f : File) (a : TreeNode)
    (hfind : s.files.find filename = some fp) (hfile : s.fileHeap[fp]? = some f)
    (hact : s.nodeHeap[f.active_version]? = some a) (hsnap : a.is_snapshot = false) :
    s.insert filename text tNode tMod =
      some (mutState s fp f { a with content := a.content ++ text } tMod,
        System.msgInserted) := by
  simp only [System.insert, hfind, hfile, hact]; rw [if_neg (by simp [hsnap])]; rfl

theorem update_mut_eq (s : System) (filename text : String) (tNode tMod : Int)
    (fp : Nat) (f : File) (a : TreeNode)
    (hfind : s.files.find filename = some fp) (hfile : s.fileHeap[fp]? = some f)
    (hact : s.nodeHeap[f.active_version]? = some a) (hsnap : a.is_snapshot = false) :
    s.update filename text tNode tMod =
      some (mutState s fp f { a with content := text } tMod, System.msgUpdated) := by
  simp only [System.update, hfind, hfile, hact]; rw [if_neg (by simp [hsnap])]; rfl

theorem snapshot_mut_eq (s : System) (filename message : String) (tSnap tMod : Int)
    (fp : Nat) (f : File) (a : TreeNode)
    (hfind : s.files.find filename = some fp) (hfile : s.fileHeap[fp]? = some f)
    (hact : s.nodeHeap[f.active_version]? = some a) (hsnap : a.is_snapshot = false) :
    s.snapshot filename message tSnap tMod =
      some (mutState s fp f
        { a with message := message, is_snapshot := true, snapshot_timestamp := tSnap } tMod,
        System.msgSnapshot message) := by
  simp only [System.snapshot, hfind, hfile, hact]; rw [if_neg (by simp [hsnap])]; rfl

theorem snapshot_already_eq (s : System) (filename message : String) (tSnap tMod : Int)
    (fp : Nat) (f : File) (a : TreeNode)
    (hfind : s.files.find filename = some fp) (hfile : s.fileHeap[fp]? = some f)
    (hact : s.nodeHeap[f.active_version]? = some a) (hsnap : a.is_snapshot = true) :
    s.snapshot filename message tSnap tMod = some (s, System.msgAlreadySnapshot) := by
  simp only [System.snapshot, hfind, hfile, hact]; rw [if_pos hsnap]

theorem rollback_parent_eq (s : System) (filename : String) (fp : Nat) (f : File)
    (a : TreeNode) (p : Nat)
    (hfind : s.files.find filename = some fp) (hfile : s.fileHeap[fp]? = some f)
    (hact : s.nodeHeap[f.active_version]? = some a) (hpar : a.parent = some p) :
    s.rollback filename (-1) = some (moveState s fp f p, System.msgRolledParent) := by
  simp only [System.rollback, hfind, hfile, hact, hpar, if_true]; rfl

theorem rollback_root_eq (s : System) (filename : String) (fp : Nat) (f : File)
    (a : TreeNode)
    (hfind : s.files.find filename = some fp) (hfile : s.fileHeap[fp]? = some f)
    (hact : s.nodeHeap[f.active_version]? = some a) (hpar : a.parent = none) :
    s.rollback filename (-1) = some (s, System.msgNoParent) := by
  simp only [System.rollback, hfind, hfile, hact, hpar, if_true]

theorem rollback_invalid_eq (s : System) (filename : String) (version_id : Int) (fp : Nat)
    (f : File)
    (hfind : s.files.find filename = some fp) (hfile : s.fileHeap[fp]? = some f)
    (hne : version_id ≠ -1) (hout : version_id < 0 ∨ version_id ≥ f.total_versions) :
    s.rollback filename version_id = some (s, System.msgInvalidId) := by
  simp only [System.rollback, hfind, hfile, hne, if_false, hout, if_true]

theorem rollback_target_eq (s : System) (filename : String) (version_id : Int) (fp : Nat)
    (f : File) (target : Nat)
    (hfind : s.files.find filename = some fp) (hfile : s.fileHeap[fp]? = some f)
    (h0 : 0 ≤ version_id) (h1 : version_id < f.total_versions)
    (hscan : System.scanVersion s.nodeHeap version_id f.version_map = some (some target)) :
    s.rollback filename version_id =
      some (moveState s fp f target, System.msgRolledTo version_id) := by
  have hne : version_id ≠ -1 := by omega
  have hin : ¬ (version_id < 0 ∨ version_id ≥ f.total_versions) := by omega
  simp only [System.rollback, hfind, hfile, hne, if_false, hin, hscan]; rfl

theorem read_eq (s : System) (filename : String) (fp : Nat) (f : File) (a : TreeNode)
    (hfind : s.files.find filename = some fp) (hfile : s.fileHeap[fp]? = some f)
    (hact : s.nodeHeap[f.active_version]? = some a) :
    s.read filename = some (s, a.content ++ "\n") := by
  simp only [System.read, hfind, hfile, hact]

theorem forkState_post (s : System) (fp : Nat) (f : File) (a : TreeNode)
    (newContent : String) (tNode tMod : Int)
    (hfile : s.fileHeap[fp]? = some f) (hact : s.nodeHeap[f.active_version]? = some a) :
    ForkPost s (forkState s fp f a newContent tNode tMod) fp f a newContent tNode tMod := by
  have hfp : fp < s.fileHeap.length := by
    rcases List.getElem?_eq_some.mp hfile with ⟨h, _⟩; exact h
  have hap : f.active_version < s.nodeHeap.length := by
    rcases List.getElem?_eq_some.mp hact with ⟨h, _⟩; exact h
  have hne : f.active_version ≠ s.nodeHeap.length := Nat.ne_of_lt hap
  constructor
  · rfl
  · simp [forkState]
  · show ((s.nodeHeap ++ _).set _ _)[s.nodeHeap.length]? = _
    rw [List.getElem?_set_ne hne, List.getElem?_concat_length]; rfl
  · show ((s.nodeHeap ++ _).set _ _)[f.active_version]? = _
    rw [List.getElem?_set_self (by simp; omega)]
  · intro p hp hlt
    show ((s.nodeHeap ++ _).set _ _)[p]? = _
    rw [List.getElem?_set_ne (Ne.symm hp), List.getElem?_append_left hlt]
  · simp [forkState]
  · show (s.fileHeap.set _ _)[fp]? = _
    rw [List.getElem?_set_self hfp]
  · intro q hq
    show (s.fileHeap.set _ _)[q]? = _
    rw [List.getElem?_set_ne (Ne.symm hq)]

/-! ## Writes: fork and in-place mutation -/

/-- C1. When the active revision of a registered file is a snapshot, `insert` and
`update` fork: one node is appended to the arena, with `version_id` the old
`total_versions`, parent the old active revision, not a snapshot, no message, content
`old ++ text` (insert) or `text` (update); it is pushed on the old active revision's
`children` and on `version_map`, `total_versions` grows by one, `active_version` is the
new node, and the old active revision keeps its snapshot flag, content and message. -/
theorem write_on_snapshot_forks (s : System) (filename text : String) (tNode tMod : Int)
    (fp : Nat) (f : File) (a : TreeNode)
    (hfind : s.files.find filename = some fp)
    (hfile : s.fileHeap[fp]? = some f)
    (hact : s.nodeHeap[f.active_version]? = some a)
    (hsnap : a.is_snapshot = true) :
    (∃ s1, s.insert filename text tNode tMod = some (s1, System.msgInserted) ∧
        ForkPost s s1 fp f a (a.content ++ text) tNode tMod) ∧
    (∃ s1, s.update filename text tNode tMod = some (s1, System.msgUpdated) ∧
        ForkPost s s1 fp f a text tNode tMod) :=
  ⟨⟨_, insert_fork_eq s filename text tNode tMod fp f a hfind hfile hact hsnap,
      forkState_post s fp f a _ tNode tMod hfile hact⟩,
   ⟨_, update_fork_eq s filename text tNode tMod fp f a hfind hfile hact hsnap,
      forkState_post s fp f a _ tNode tMod hfile hact⟩⟩

theorem write_on_snapshot_forks_witness :
    (∃ s1, exSnapshotted.insert "a.txt" " world" 7 8 = some (s1, System.msgInserted) ∧
        ForkPost exSnapshotted s1 0 (File.mk 0 0 [0] 1 "a.txt" 6)
          (TreeNode.mk 0 "hello" "v1" 1 5 none [] true) ("hello" ++ " world") 7 8) ∧
    (∃ s1, exSnapshotted.update "a.txt" " world" 7 8 = some (s1, System.msgUpdated) ∧
        ForkPost exSnapshotted s1 0 (File.mk 0 0 [0] 1 "a.txt" 6)
          (TreeNode.mk 0 "hello" "v1" 1 5 none [] true) " world" 7 8) :=
  write_on_snapshot_forks exSnapshotted "a.txt" " world" 7 8 0 (File.mk 0 0 [0] 1 "a.txt" 6)
    (TreeNode.mk 0 "hello" "v1" 1 5 none [] true) (by decide) (by decide) (by decide)
    (by decide)


theorem mutState_post (s : System) (fp : Nat) (f : File) (a a1 : TreeNode) (tMod : Int)
    (hfile : s.fileHeap[fp]? = some f) (hact : s.nodeHeap[f.active_version]? = some a) :
    MutPost s (mutState s fp f a1 tMod) fp f a1 tMod := by
  have hfp : fp < s.fileHeap.length := by
    rcases List.getElem?_eq_some.mp hfile with ⟨h, _⟩; exact h
  have hap : f.active_version < s.nodeHeap.length := by
    rcases List.getElem?_eq_some.mp hact with ⟨h, _⟩; exact h
  constructor
  · rfl
  · simp [mutState]
  · show (s.nodeHeap.set _ _)[f.active_version]? = _
    rw [List.getElem?_set_self hap]
  · intro p hp
    show (s.nodeHeap.set _ _)[p]? = _
    rw [List.getElem?_set_ne (Ne.symm hp)]
  · simp [mutState]
  · show (s.fileHeap.set _ _)[fp]? = _
    rw [List.getElem?_set_self hfp]
  · intro q hq
    show (s.fileHeap.set _ _)[q]? = _
    rw [List.getElem?_set_ne (Ne.symm hq)]

/-- C2. When the active revision of a registered file is not a snapshot, `insert` and
`update` change it in place: its content becomes `old ++ text` (insert) or `text`
(update), no node is added, and apart from that content and the file's `last_modified`
the store is what it was (`total_versions`, `version_map`, `active_version`, every
`children` vector, every other node).  Two inserts in a row of `x` and `y` leave the
content `old ++ x ++ y` and `total_versions` as it was. -/
theorem write_on_mutable_in_place (s : System) (filename text : String) (tNode tMod : Int)
    (fp : Nat) (f : File) (a : TreeNode)
    (hfind : s.files.find filename = some fp)
    (hfile : s.fileHeap[fp]? = some f)
    (hact : s.nodeHeap[f.active_version]? = some a)
    (hmut : a.is_snapshot = false) :
    (∃ s1, s.insert filename text tNode tMod = some (s1, System.msgInserted) ∧
        MutPost s s1 fp f { a with content := a.content ++ text } tMod) ∧
    (∃ s1, s.update filename text tNode tMod = some (s1, System.msgUpdated) ∧
        MutPost s s1 fp f { a with content := text } tMod) ∧
    (∀ (x y : String) (t1 t2 t3 t4 : Int),
      ∃ s1 s2, s.insert filename x t1 t2 = some (s1, System.msgInserted) ∧
        s1.insert filename y t3 t4 = some (s2, System.msgInserted) ∧
        s2.nodeHeap[f.active_version]? = some { a with content := a.content ++ x ++ y } ∧
        s2.nodeHeap.length = s.nodeHeap.length ∧
        s2.fileHeap[fp]? = some { f with last_modified := t4 }) := by
  refine ⟨⟨_, insert_mut_eq s filename text tNode tMod fp f a hfind hfile hact hmut,
      mutState_post s fp f a _ tMod hfile hact⟩,
    ⟨_, update_mut_eq s filename text tNode tMod fp f a hfind hfile hact hmut,
      mutState_post s fp f a _ tMod hfile hact⟩, ?_⟩
  intro x y t1 t2 t3 t4
  have p1 := mutState_post s fp f a { a with content := a.content ++ x } t2 hfile hact
  have e2 := insert_mut_eq (mutState s fp f { a with content := a.content ++ x } t2)
    filename y t3 t4 fp { f with last_modified := t2 } { a with content := a.content ++ x }
    (by rw [p1.files_eq]; exact hfind) p1.file p1.active_node hmut
  have p2 := mutState_post (mutState s fp f { a with content := a.content ++ x } t2) fp
    { f with last_modified := t2 } { a with content := a.content ++ x }
    { a with content := a.content ++ x ++ y } t4 p1.file p1.active_node
  exact ⟨_, _, insert_mut_eq s filename x t1 t2 fp f a hfind hfile hact hmut, e2,
    p2.active_node, by rw [p2.heap_len, p1.heap_len], p2.file⟩

theorem write_on_mutable_in_place_witness :
    (∃ s1, exMutable.insert "a.txt" "!" 9 10 = some (s1, System.msgInserted) ∧
        MutPost exMutable s1 0 (File.mk 0 0 [0] 1 "a.txt" 4)
          (TreeNode.mk 0 ("hello" ++ "!") "" 1 0 none [] false) 10) ∧
    (∃ s1, exMutable.update "a.txt" "!" 9 10 = some (s1, System.msgUpdated) ∧
        MutPost exMutable s1 0 (File.mk 0 0 [0] 1 "a.txt" 4)
          (TreeNode.mk 0 "!" "" 1 0 none [] false) 10) ∧
    (∀ (x y : String) (t1 t2 t3 t4 : Int),
      ∃ s1 s2, exMutable.insert "a.txt" x t1 t2 = some (s1, System.msgInserted) ∧
        s1.insert "a.txt" y t3 t4 = some (s2, System.msgInserted) ∧
        s2.nodeHeap[0]? = some (TreeNode.mk 0 ("hello" ++ x ++ y) "" 1 0 none [] false) ∧
        s2.nodeHeap.length = 1 ∧
        s2.fileHeap[0]? = some (File.mk 0 0 [0] 1 "a.txt" t4)) :=
  write_on_mutable_in_place exMutable "a.txt" "!" 9 10 0 (File.mk 0 0 [0] 1 "a.txt" 4)
    (TreeNode.mk 0 "hello" "" 1 0 none [] false) (by decide) (by decide) (by decide)
    (by decide)

/-! ## Snapshot -/

/-- C3. `snapshot` on a registered file whose active revision is already a snapshot
prints the already-a-snapshot error and returns the store it was given: nothing is
written, neither `message`, `snapshot_timestamp` nor `last_modified`. -/
theorem snapshot_twice_is_rejected (s : System) (filename message : String)
    (tSnap tMod : Int) (fp : Nat) (f : File) (a : TreeNode)
    (hfind : s.files.find filename = some fp)
    (hfile : s.fileHeap[fp]? = some f)
    (hact : s.nodeHeap[f.active_version]? = some a)
    (hsnap : a.is_snapshot = true) :
    s.snapshot filename message tSnap tMod = some (s, System.msgAlreadySnapshot) :=
  snapshot_already_eq s filename message tSnap tMod fp f a hfind hfile hact hsnap

theorem snapshot_twice_is_rejected_witness :
    exSnapshotted.snapshot "a.txt" "v2" 9 10 = some (exSnapshotted, System.msgAlreadySnapshot) :=
  snapshot_twice_is_rejected exSnapshotted "a.txt" "v2" 9 10 0 (File.mk 0 0 [0] 1 "a.txt" 6)
    (TreeNode.mk 0 "hello" "v1" 1 5 none [] true) (by decide) (by decide) (by decide)
    (by decide)

/-- C4. `snapshot` on a registered file whose active revision is not a snapshot
succeeds for every message (the empty one too) and changes exactly this: the active
node gets the message, `is_snapshot = true` and `snapshot_timestamp` the clock value
read for it, and the file gets `last_modified` the clock value read for it.  The active
node's content, parent and children, `active_version`, `total_versions`, `version_map`,
every other node and every other file are untouched. -/
theorem snapshot_freezes_active (s : System) (filename message : String)
    (tSnap tMod : Int) (fp : Nat) (f : File) (a : TreeNode)
    (hfind : s.files.find filename = some fp)
    (hfile : s.fileHeap[fp]? = some f)
    (hact : s.nodeHeap[f.active_version]? = some a)
    (hmut : a.is_snapshot = false) :
    ∃ s1, s.snapshot filename message tSnap tMod = some (s1, System.msgSnapshot message) ∧
      MutPost s s1 fp f
        { version_id := a.version_id, content := a.content, message := message,
          created_timestamp := a.created_timestamp, snapshot_timestamp := tSnap,
          parent := a.parent, children := a.children, is_snapshot := true } tMod :=
  ⟨_, snapshot_mut_eq s filename message tSnap tMod fp f a hfind hfile hact hmut,
    mutState_post s fp f a _ tMod hfile hact⟩

theorem snapshot_freezes_active_witness :
    ∃ s1, exMutable.snapshot "a.txt" "" 5 6 = some (s1, System.msgSnapshot "") ∧
      MutPost exMutable s1 0 (File.mk 0 0 [0] 1 "a.txt" 4)
        (TreeNode.mk 0 "hello" "" 1 5 none [] true) 6 :=
  snapshot_freezes_active exMutable "a.txt" "" 5 6 0 (File.mk 0 0 [0] 1 "a.txt" 4)
    (TreeNode.mk 0 "hello" "" 1 0 none [] false) (by decide) (by decide) (by decide)
    (by decide)


/-! ## The hash table -/

namespace HashMap

theorem getD_set_bucket (t : List (List (String × Option Nat))) (i j : Nat)
    (b : List (String × Option Nat)) (hi : i < t.length) :
    (t.set i b).getD j [] = if i = j then b else t.getD j [] := by
  simp only [List.getD_eq_getElem?_getD, List.getElem?_set]
  by_cases h : i = j
  · subst h; simp [hi]
  · simp [h]

theorem rehashPush_length (cap : Nat) (nt : List (List (String × Option Nat)))
    (p : String × Option Nat) : (rehashPush cap nt p).length = nt.length := by
  simp [rehashPush]

theorem rehashPush_getD (cap : Nat) (nt : List (List (String × Option Nat)))
    (p : String × Option Nat) (hlen : nt.length = cap) (hpos : 0 < cap) (j : Nat) :
    (rehashPush cap nt p).getD j [] =
      if hashCode p.1 % cap = j then nt.getD j [] ++ [p] else nt.getD j [] := by
  have hlt : hashCode p.1 % cap < nt.length := by rw [hlen]; exact Nat.mod_lt _ hpos
  unfold rehashPush
  simp only []
  rw [getD_set_bucket _ _ _ _ hlt]
  by_cases h : hashCode p.1 % cap = j
  · simp [h]
  · simp [h]

theorem foldBucket_length (cap : Nat) (b : List (String × Option Nat)) :
    ∀ nt : List (List (String × Option Nat)),
      (b.foldl (rehashPush cap) nt).length = nt.length := by
  induction b with
  | nil => intro nt; rfl
  | cons p rest ih => intro nt; simp only [List.foldl_cons]; rw [ih, rehashPush_length]

theorem foldBucket_getD (cap : Nat) (hpos : 0 < cap) (j : Nat)
    (b : List (String × Option Nat)) :
    ∀ nt : List (List (String × Option Nat)), nt.length = cap →
      (b.foldl (rehashPush cap) nt).getD j [] =
        nt.getD j [] ++ b.filter (fun p => decide (hashCode p.1 % cap = j)) := by
  induction b with
  | nil => intro nt _; simp
  | cons p rest ih =>
    intro nt hlen
    simp only [List.foldl_cons]
    rw [ih _ (by rw [rehashPush_length]; exact hlen), rehashPush_getD cap nt p hlen hpos j]
    by_cases h : hashCode p.1 % cap = j
    · simp [h, List.filter_cons]
    · simp [h, List.filter_cons]

theorem foldTable_length (cap : Nat) (t : List (List (String × Option Nat))) :
    ∀ nt : List (List (String × Option Nat)),
      (t.foldl (fun nt bucket => bucket.foldl (rehashPush cap) nt) nt).length = nt.length := by
  induction t with
  | nil => intro nt; rfl
  | cons b rest ih => intro nt; simp only [List.foldl_cons]; rw [ih, foldBucket_length]

theorem foldTable_getD (cap : Nat) (hpos : 0 < cap) (j : Nat)
    (t : List (List (String × Option Nat))) :
    ∀ nt : List (List (String × Option Nat)), nt.length = cap →
      (t.foldl (fun nt bucket => bucket.foldl (rehashPush cap) nt) nt).getD j [] =
        nt.getD j [] ++ t.flatten.filter (fun p => decide (hashCode p.1 % cap = j)) := by
  induction t with
  | nil => intro nt _; simp
  | cons b rest ih =>
    intro nt hlen
    simp only [List.foldl_cons, List.flatten_cons, List.filter_append]
    rw [ih _ (by rw [foldBucket_length]; exact hlen), foldBucket_getD cap hpos j b nt hlen,
      List.append_assoc]

theorem rehash_length (m : HashMap) : m.rehash.table.length = m.table.length * 2 := by
  simp [rehash, foldTable_length]

theorem rehash_getD (m : HashMap) (hpos : 0 < m.table.length) (j : Nat) :
    m.rehash.table.getD j [] =
      m.table.flatten.filter (fun p => decide (hashCode p.1 % (m.table.length * 2) = j)) := by
  unfold rehash
  simp only []
  rw [foldTable_getD (m.table.length * 2) (by omega) j m.table _ (by simp)]
  simp only [List.getD_eq_getElem?_getD, List.getElem?_replicate]
  split <;> simp

end HashMap


namespace HashMap

theorem mem_flatten_iff_getD (t : List (List (String × Option Nat)))
    (p : String × Option Nat) : p ∈ t.flatten ↔ ∃ j, p ∈ t.getD j [] := by
  constructor
  · intro h
    rcases List.mem_flatten.mp h with ⟨b, hb, hp⟩
    rcases List.getElem?_of_mem hb with ⟨j, hj⟩
    exact ⟨j, by simp [hj, hp]⟩
  · rintro ⟨j, hj⟩
    cases hq : t[j]? with
    | none => simp [hq] at hj
    | some b =>
      simp only [List.getD_eq_getElem?_getD, hq, Option.getD_some] at hj
      exact List.mem_flatten.mpr ⟨b, List.getElem?_mem hq, hj⟩

theorem present_iff (m : HashMap) (k : String) :
    m.present k = true ↔ ∃ p ∈ m.table.flatten, p.1 = k := by
  simp only [present, List.any_eq_true, beq_iff_eq, List.mem_flatten]
  constructor
  · rintro ⟨b, hb, p, hp, hk⟩; exact ⟨p, ⟨b, hb, hp⟩, hk⟩
  · rintro ⟨p, ⟨b, hb, hp⟩, hk⟩; exact ⟨b, hb, p, hp, hk⟩

theorem WF.bucket_of_mem {m : HashMap} (h : m.WF) {p : String × Option Nat}
    (hp : p ∈ m.table.flatten) : p ∈ m.table.getD (m.hash p.1) [] := by
  rcases List.mem_flatten.mp hp with ⟨b, hb, hpb⟩
  rcases List.getElem?_of_mem hb with ⟨j, hj⟩
  have := h.2 j b hj p hpb
  simp only [hash, this, List.getD_eq_getElem?_getD, hj, Option.getD_some]
  exact hpb

theorem WF.present_iff_bucket {m : HashMap} (h : m.WF) (k : String) :
    m.present k = true ↔ (m.table.getD (m.hash k) []).any (fun p => p.1 == k) = true := by
  rw [present_iff]
  constructor
  · rintro ⟨p, hp, hk⟩
    have := h.bucket_of_mem hp
    rw [hk] at this
    exact List.any_eq_true.mpr ⟨p, this, by simp [hk]⟩
  · intro hb
    rcases List.any_eq_true.mp hb with ⟨p, hp, hk⟩
    exact ⟨p, (mem_flatten_iff_getD _ _).mpr ⟨_, hp⟩, by simpa using hk⟩

theorem find?_flatten_bucket (q : String × Option Nat → Bool) :
    ∀ (t : List (List (String × Option Nat))) (i0 : Nat),
      (∀ i b, t[i]? = some b → i ≠ i0 → ∀ p ∈ b, q p = false) →
      t.flatten.find? q = (t.getD i0 []).find? q := by
  intro t
  induction t with
  | nil => intro i0 _; simp
  | cons b rest ih =>
    intro i0 h
    rw [List.flatten_cons, List.find?_append]
    cases i0 with
    | zero =>
      have hrest : rest.flatten.find? q = none := by
        rw [List.find?_eq_none]
        intro x hx
        rcases List.mem_flatten.mp hx with ⟨c, hc, hxc⟩
        rcases List.getElem?_of_mem hc with ⟨j, hj⟩
        have := h (j + 1) c (by simpa using hj) (by omega) x hxc
        simp [this]
      rw [hrest]; simp
    | succ n =>
      have hb : b.find? q = none := by
        rw [List.find?_eq_none]
        intro x hx
        have := h 0 b (by simp) (by omega) x hx
        simp [this]
      rw [hb, Option.none_or, ih n]
      · simp
      · intro i c hc hne p hp
        exact h (i + 1) c (by simpa using hc) (by omega) p hp

theorem WF.find?_flatten {m : HashMap} (h : m.WF) (k : String) :
    m.table.flatten.find? (fun p => p.1 == k) =
      (m.table.getD (m.hash k) []).find? (fun p => p.1 == k) := by
  apply find?_flatten_bucket
  intro i b hb hne p hp
  have := h.2 i b hb p hp
  by_contra hq
  simp only [Bool.not_eq_false, beq_iff_eq] at hq
  apply hne
  rw [← this, hq]; rfl

theorem WF.rehash {m : HashMap} (h : m.WF) : m.rehash.WF := by
  have hpos := h.1
  refine ⟨by rw [rehash_length]; omega, ?_⟩
  intro i b hb p hp
  have hg := rehash_getD m hpos i
  simp only [List.getD_eq_getElem?_getD, hb, Option.getD_some] at hg
  rw [hg] at hp
  rw [rehash_length]
  simpa using (List.mem_filter.mp hp).2

theorem WF.find_rehash {m : HashMap} (h : m.WF) (k : String) : m.rehash.find k = m.find k := by
  have hpos := h.1
  unfold find
  simp only []
  rw [rehash_getD m hpos, List.find?_filter, ← h.find?_flatten k]
  have : (fun a : String × Option Nat =>
      decide (decide (hashCode a.1 % (m.table.length * 2) = m.rehash.hash k) = true ∧
        (a.1 == k) = true)) = (fun a => a.1 == k) := by
    funext a
    by_cases hk : a.1 = k
    · simp [hk, hash, rehash_length]
    · simp [hk]
  rw [this]

theorem WF.mem_flatten_rehash {m : HashMap} (h : m.WF) (p : String × Option Nat) :
    p ∈ m.rehash.table.flatten ↔ p ∈ m.table.flatten := by
  rw [mem_flatten_iff_getD]
  constructor
  · rintro ⟨j, hj⟩
    rw [rehash_getD m h.1] at hj
    exact (List.mem_filter.mp hj).1
  · intro hp
    refine ⟨hashCode p.1 % (m.table.length * 2), ?_⟩
    rw [rehash_getD m h.1]
    exact List.mem_filter.mpr ⟨hp, by simp⟩

theorem WF.present_rehash {m : HashMap} (h : m.WF) (k : String) :
    m.rehash.present k = m.present k := by
  rw [Bool.eq_iff_iff, present_iff, present_iff]
  constructor
  · rintro ⟨p, hp, hk⟩; exact ⟨p, (h.mem_flatten_rehash p).mp hp, hk⟩
  · rintro ⟨p, hp, hk⟩; exact ⟨p, (h.mem_flatten_rehash p).mpr hp, hk⟩

end HashMap


namespace HashMap

theorem pushed_getD (m : HashMap) (k : String) (v : Option Nat) (hpos : 0 < m.table.length)
    (j : Nat) :
    (m.pushed k v).table.getD j [] =
      if m.hash k = j then m.table.getD j [] ++ [(k, v)] else m.table.getD j [] := by
  have hlt : m.hash k < m.table.length := Nat.mod_lt _ hpos
  unfold pushed
  simp only []
  rw [getD_set_bucket _ _ _ _ hlt]
  by_cases h : m.hash k = j
  · simp [h]
  · simp [h]

theorem pushed_length (m : HashMap) (k : String) (v : Option Nat) :
    (m.pushed k v).table.length = m.table.length := by
  simp [pushed]

theorem pushed_hash (m : HashMap) (k : String) (v : Option Nat) (k1 : String) :
    (m.pushed k v).hash k1 = m.hash k1 := by
  simp [hash, pushed_length]

theorem WF.pushed {m : HashMap} (h : m.WF) (k : String) (v : Option Nat) :
    (m.pushed k v).WF := by
  refine ⟨by rw [pushed_length]; exact h.1, ?_⟩
  intro i b hb p hp
  have hg := pushed_getD m k v h.1 i
  simp only [List.getD_eq_getElem?_getD, hb, Option.getD_some] at hg
  rw [pushed_length]
  by_cases hi : m.hash k = i
  · rw [if_pos hi] at hg
    rw [hg] at hp
    rcases List.mem_append.mp hp with hp | hp
    · cases hq : m.table[i]? with
      | none => simp [hq] at hp
      | some c =>
        simp only [hq, Option.getD_some] at hp
        exact h.2 i c hq p hp
    · simp only [List.mem_singleton] at hp
      rw [hp]; exact hi
  · rw [if_neg hi] at hg
    rw [hg] at hp
    cases hq : m.table[i]? with
    | none => simp [hq] at hp
    | some c =>
      simp only [hq, Option.getD_some] at hp
      exact h.2 i c hq p hp

theorem WF.find_pushed {m : HashMap} (h : m.WF) (k : String) (v : Option Nat)
    (habs : m.present k = false) (k1 : String) :
    (m.pushed k v).find k1 = if k1 = k then v else m.find k1 := by
  have hb : (m.table.getD (m.hash k) []).any (fun p => p.1 == k) = false := by
    rw [← Bool.not_eq_true, ← h.present_iff_bucket]; simp [habs]
  unfold find
  simp only []
  rw [pushed_hash, pushed_getD m k v h.1]
  by_cases hk : k1 = k
  · subst hk
    have hnone : (m.table.getD (m.hash k1) []).find? (fun p => p.1 == k1) = none := by
      rw [List.find?_eq_none]
      intro x hx
      have := (List.any_eq_false.mp hb) x hx
      simpa using this
    rw [if_pos rfl, if_pos rfl, List.find?_append, hnone]
    simp
  · rw [if_neg hk]
    by_cases hj : m.hash k = m.hash k1
    · rw [if_pos hj, List.find?_append]
      have : List.find? (fun p : String × Option Nat => p.1 == k1) [(k, v)] = none := by
        simp [List.find?_cons, Ne.symm hk]
      rw [this, Option.or_none]
    · rw [if_neg hj]

theorem mem_flatten_pushed (m : HashMap) (k : String) (v : Option Nat)
    (hpos : 0 < m.table.length) (p : String × Option Nat) :
    p ∈ (m.pushed k v).table.flatten ↔ p ∈ m.table.flatten ∨ p = (k, v) := by
  rw [mem_flatten_iff_getD, mem_flatten_iff_getD]
  constructor
  · rintro ⟨j, hj⟩
    rw [pushed_getD m k v hpos] at hj
    by_cases hi : m.hash k = j
    · rw [if_pos hi] at hj
      rcases List.mem_append.mp hj with hj | hj
      · exact Or.inl ⟨j, hj⟩
      · exact Or.inr (by simpa using hj)
    · rw [if_neg hi] at hj
      exact Or.inl ⟨j, hj⟩
  · rintro (⟨j, hj⟩ | hp)
    · refine ⟨j, ?_⟩
      rw [pushed_getD m k v hpos]
      by_cases hi : m.hash k = j
      · rw [if_pos hi]; exact List.mem_append_left _ hj
      · rw [if_neg hi]; exact hj
    · refine ⟨m.hash k, ?_⟩
      rw [pushed_getD m k v hpos, if_pos rfl, hp]
      simp

theorem present_pushed (m : HashMap) (k : String) (v : Option Nat)
    (hpos : 0 < m.table.length) (k1 : String) :
    (m.pushed k v).present k1 = (m.present k1 || k1 == k) := by
  rw [Bool.eq_iff_iff, Bool.or_eq_true, present_iff, present_iff, beq_iff_eq]
  constructor
  · rintro ⟨p, hp, hk⟩
    rcases (mem_flatten_pushed m k v hpos p).mp hp with hp | hp
    · exact Or.inl ⟨p, hp, hk⟩
    · right; rw [← hk, hp]
  · rintro (⟨p, hp, hk⟩ | hk)
    · exact ⟨p, (mem_flatten_pushed m k v hpos p).mpr (Or.inl hp), hk⟩
    · exact ⟨(k, v), (mem_flatten_pushed m k v hpos _).mpr (Or.inr rfl), hk.symm⟩

theorem WF.insert_present {m : HashMap} (h : m.WF) (k : String) (v : Option Nat)
    (hp : m.present k = true) : m.insert k v = (m, false) := by
  unfold insert
  simp only []
  rw [if_pos ((h.present_iff_bucket k).mp hp)]

theorem WF.insert_absent {m : HashMap} (h : m.WF) (k : String) (v : Option Nat)
    (hp : m.present k = false) :
    m.insert k v =
      (if 4 * (m.pushed k v).numElements > 3 * ((m.pushed k v).table.length : Int)
        then (m.pushed k v).rehash else m.pushed k v, true) := by
  have hb : ¬ (m.table.getD (m.hash k) []).any (fun p => p.1 == k) = true := by
    rw [← h.present_iff_bucket]; simp [hp]
  unfold insert
  simp only []
  rw [if_neg hb]
  change (if 4 * (m.pushed k v).numElements > 3 * ((m.pushed k v).table.length : Int)
    then ((m.pushed k v).rehash, true) else (m.pushed k v, true)) = _
  by_cases hc : 4 * (m.pushed k v).numElements > 3 * ((m.pushed k v).table.length : Int)
  · rw [if_pos hc, if_pos hc]
  · rw [if_neg hc, if_neg hc]

theorem WF.insert {m : HashMap} (h : m.WF) (k : String) (v : Option Nat) :
    (m.insert k v).1.WF := by
  cases hp : m.present k with
  | true => rw [h.insert_present k v hp]; exact h
  | false =>
    rw [h.insert_absent k v hp]
    simp only []
    split
    · exact (h.pushed k v).rehash
    · exact h.pushed k v

theorem WF.find_insert {m : HashMap} (h : m.WF) (k : String) (v : Option Nat) (k1 : String) :
    (m.insert k v).1.find k1 =
      if m.present k = false ∧ k1 = k then v else m.find k1 := by
  cases hp : m.present k with
  | true => rw [h.insert_present k v hp]; simp
  | false =>
    rw [h.insert_absent k v hp]
    simp only [true_and]
    split
    · rw [(h.pushed k v).find_rehash, h.find_pushed k v hp]
    · rw [h.find_pushed k v hp]

theorem WF.present_insert {m : HashMap} (h : m.WF) (k : String) (v : Option Nat)
    (k1 : String) : (m.insert k v).1.present k1 = (m.present k1 || k1 == k) := by
  cases hp : m.present k with
  | true =>
    rw [h.insert_present k v hp]
    by_cases hk : k1 = k
    · subst hk; simp [hp]
    · simp [hk]
  | false =>
    rw [h.insert_absent k v hp]
    simp only []
    split
    · rw [(h.pushed k v).present_rehash, present_pushed m k v h.1]
    · rw [present_pushed m k v h.1]

theorem WF.find_of_absent {m : HashMap} (h : m.WF) (k : String) (hp : m.present k = false) :
    m.find k = none := by
  have hb : (m.table.getD (m.hash k) []).any (fun p => p.1 == k) = false := by
    rw [← Bool.not_eq_true, ← h.present_iff_bucket]; simp [hp]
  have hnone : (m.table.getD (m.hash k) []).find? (fun p => p.1 == k) = none := by
    rw [List.find?_eq_none]
    intro x hx
    simpa using (List.any_eq_false.mp hb) x hx
  unfold find
  simp only []
  rw [hnone]

theorem empty_wf : empty.WF := by
  refine ⟨by decide, ?_⟩
  intro i b hb p hp
  have : b = [] := by
    simp only [empty, List.getElem?_replicate] at hb
    split at hb
    · exact (Option.some.inj hb).symm
    · cases hb
  rw [this] at hp
  cases hp

theorem empty_present (k : String) : empty.present k = false := by
  simp [present, empty]

theorem insertAll_wf (kvs : List (String × Option Nat)) :
    ∀ m : HashMap, m.WF → (m.insertAll kvs).WF := by
  induction kvs with
  | nil => intro m h; exact h
  | cons kv rest ih => intro m h; exact ih _ (h.insert kv.1 kv.2)

theorem find_insertAll (kvs : List (String × Option Nat)) (k : String) :
    ∀ m : HashMap, m.WF →
      (m.insertAll kvs).find k = if m.present k = true then m.find k else firstValue kvs k := by
  induction kvs with
  | nil =>
    intro m h
    cases hp : m.present k with
    | true => simp [insertAll]
    | false => simp [insertAll, firstValue, h.find_of_absent k hp]
  | cons kv rest ih =>
    intro m h
    show ((m.insert kv.1 kv.2).1.insertAll rest).find k = _
    rw [ih _ (h.insert kv.1 kv.2), h.present_insert, h.find_insert]
    cases hp : m.present k with
    | true =>
      have hne : ¬ (m.present kv.1 = false ∧ k = kv.1) := by
        rintro ⟨h1, h2⟩; rw [h2] at hp; rw [hp] at h1; cases h1
      simp [hne]
    | false =>
      by_cases hk : k = kv.1
      · subst hk
        simp [hp, firstValue, List.find?_cons]
      · have hk2 : ¬ kv.1 = k := fun e => hk e.symm
        simp [hk, hk2, firstValue, List.find?_cons]

end HashMap


theorem firstValue_of_no_key (kvs : List (String × Option Nat)) (k : String)
    (h : ∀ kv ∈ kvs, kv.1 ≠ k) : firstValue kvs k = none := by
  have : kvs.find? (fun kv => kv.1 == k) = none := by
    rw [List.find?_eq_none]
    intro x hx
    simpa using h x hx
  simp [firstValue, this]

theorem firstValue_of_nodup (kvs : List (String × Option Nat)) (k : String) (v : Option Nat) :
    (kvs.map Prod.fst).Nodup → (k, v) ∈ kvs → firstValue kvs k = v := by
  induction kvs with
  | nil => intro _ h; cases h
  | cons kv rest ih =>
    intro hnd hmem
    rw [List.map_cons, List.nodup_cons] at hnd
    rcases List.mem_cons.mp hmem with heq | hin
    · subst heq
      simp [firstValue, List.find?_cons]
    · have hne : kv.1 ≠ k := by
        intro e
        apply hnd.1
        rw [e]
        exact List.mem_map.mpr ⟨(k, v), hin, rfl⟩
      have := ih hnd.2 hin
      simp only [firstValue, List.find?_cons] at this ⊢
      simp only [beq_eq_false_iff_ne.mpr hne]
      exact this

/-- C9. After any sequence of `HashMap::insert` calls on a fresh `HashMap` (whatever
its length, hence through any number of rehashes), `find(k)` returns the value given by
the first insert of `k` in the sequence, and `nullptr` when `k` was never inserted; when
the inserted keys are pairwise distinct every key is found with its own value. -/
theorem find_after_inserts (kvs : List (String × Option Nat)) (k : String) :
    (HashMap.empty.insertAll kvs).find k = firstValue kvs k ∧
    ((∀ kv ∈ kvs, kv.1 ≠ k) → (HashMap.empty.insertAll kvs).find k = none) ∧
    ((kvs.map Prod.fst).Nodup → ∀ v, (k, v) ∈ kvs →
      (HashMap.empty.insertAll kvs).find k = v) := by
  have h := HashMap.find_insertAll kvs k HashMap.empty HashMap.empty_wf
  rw [HashMap.empty_present] at h
  simp only [Bool.false_eq_true, if_false] at h
  refine ⟨h, ?_, ?_⟩
  · intro hno; rw [h]; exact firstValue_of_no_key kvs k hno
  · intro hnd v hmem; rw [h]; exact firstValue_of_nodup kvs k v hnd hmem

theorem find_after_inserts_witness :
    ((HashMap.empty.insertAll exPairs).table.length = 16 ∧
      (exPairs.map Prod.fst).Nodup ∧ ("c", some 2) ∈ exPairs ∧
      (HashMap.empty.insertAll exPairs).find "c" = some 2) ∧
    ((∀ kv ∈ exPairs, kv.1 ≠ "z") ∧ (HashMap.empty.insertAll exPairs).find "z" = none) :=
  ⟨⟨by decide, by decide, by decide,
      (find_after_inserts exPairs "c").2.2 (by decide) (some 2) (by decide)⟩,
    ⟨by decide, (find_after_inserts exPairs "z").2.1 (by decide)⟩⟩

/-- C10. On a `HashMap` built from the fresh one by inserts, `insert(key, value)`
returns `false` exactly when `key` is already present, and then returns the map it was
given (table, bucket count, `numElements` and the stored value as they were); when `key`
is not present it returns `true`, `numElements` grows by one and `find(key)` gives
`value`. -/
theorem insert_contract (kvs : List (String × Option Nat)) (m : HashMap) (key : String)
    (value : Option Nat) (hm : m = HashMap.empty.insertAll kvs) :
    ((m.insert key value).2 = false ↔ m.present key = true) ∧
    (m.present key = true →
      (m.insert key value).1 = m ∧ (m.insert key value).1.find key = m.find key) ∧
    (m.present key = false →
      (m.insert key value).2 = true ∧
      (m.insert key value).1.numElements = m.numElements + 1 ∧
      (m.insert key value).1.present key = true ∧
      (m.insert key value).1.find key = value) := by
  have hwf : m.WF := by rw [hm]; exact HashMap.insertAll_wf kvs _ HashMap.empty_wf
  refine ⟨?_, ?_, ?_⟩
  · cases hp : m.present key with
    | true => rw [hwf.insert_present key value hp]; simp
    | false => rw [hwf.insert_absent key value hp]; simp
  · intro hp
    rw [hwf.insert_present key value hp]
    exact ⟨rfl, rfl⟩
  · intro hp
    refine ⟨?_, ?_, ?_, ?_⟩
    · rw [hwf.insert_absent key value hp]
    · rw [hwf.insert_absent key value hp]
      simp only []
      split <;> rfl
    · rw [hwf.present_insert]; simp
    · rw [hwf.find_insert]; simp [hp]

theorem insert_contract_witness :
    (HashMap.empty.insertAll exPairs).present "c" = true ∧
    (((HashMap.empty.insertAll exPairs).insert "c" (some 99)).1 =
        HashMap.empty.insertAll exPairs ∧
      ((HashMap.empty.insertAll exPairs).insert "c" (some 99)).1.find "c" =
        (HashMap.empty.insertAll exPairs).find "c") ∧
    (HashMap.empty.insertAll exPairs).present "z" = false ∧
    (((HashMap.empty.insertAll exPairs).insert "z" (some 99)).2 = true ∧
      ((HashMap.empty.insertAll exPairs).insert "z" (some 99)).1.numElements =
        (HashMap.empty.insertAll exPairs).numElements + 1 ∧
      ((HashMap.empty.insertAll exPairs).insert "z" (some 99)).1.present "z" = true ∧
      ((HashMap.empty.insertAll exPairs).insert "z" (some 99)).1.find "z" = some 99) :=
  ⟨by decide,
    (insert_contract exPairs (HashMap.empty.insertAll exPairs) "c" (some 99) rfl).2.1
      (by decide),
    by decide,
    (insert_contract exPairs (HashMap.empty.insertAll exPairs) "z" (some 99) rfl).2.2
      (by decide)⟩


/-! ## Preservation of the file invariant -/

theorem SameShape.refl (n : TreeNode) : SameShape n n := ⟨rfl, rfl, rfl, id⟩

theorem FileInv.ptr_valid {heap : List TreeNode} {f : File} (h : FileInv heap f) {p : Nat}
    (hp : p ∈ f.version_map) : ∃ n, heap[p]? = some n := by
  rcases List.getElem?_of_mem hp with ⟨i, hi⟩
  rcases h.ids i p hi with ⟨n, hn, _⟩
  exact ⟨n, hn⟩

theorem FileInv.ptr_lt {heap : List TreeNode} {f : File} (h : FileInv heap f) {p : Nat}
    (hp : p ∈ f.version_map) : p < heap.length := by
  rcases h.ptr_valid hp with ⟨n, hn⟩
  rcases List.getElem?_eq_some.mp hn with ⟨hlt, _⟩
  exact hlt

theorem FileInv.root_mem {heap : List TreeNode} {f : File} (h : FileInv heap f) :
    f.root ∈ f.version_map := List.getElem?_mem h.root_head

/-- The invariant of a file only depends on the shape of the nodes in its
`version_map`, and not on `last_modified`. -/
theorem FileInv.congr {heap heap1 : List TreeNode} {f f1 : File} (h : FileInv heap f)
    (hvm : f1.version_map = f.version_map) (hact : f1.active_version = f.active_version)
    (hroot : f1.root = f.root) (htot : f1.total_versions = f.total_versions)
    (hshape : ∀ p, p ∈ f.version_map → ∀ n, heap[p]? = some n →
      ∃ n1, heap1[p]? = some n1 ∧ SameShape n n1) :
    FileInv heap1 f1 := by
  have back : ∀ p n1, p ∈ f.version_map → heap1[p]? = some n1 →
      ∃ n, heap[p]? = some n ∧ SameShape n n1 := by
    intro p n1 hp hn1
    rcases h.ptr_valid hp with ⟨n, hn⟩
    rcases hshape p hp n hn with ⟨n2, hn2, hs⟩
    rw [hn1] at hn2
    cases hn2
    exact ⟨n, hn, hs⟩
  constructor
  · rw [htot, hvm]; exact h.total
  · intro i p hi
    rw [hvm] at hi
    rcases h.ids i p hi with ⟨n, hn, hid⟩
    rcases hshape p (List.getElem?_mem hi) n hn with ⟨n1, hn1, hs⟩
    exact ⟨n1, hn1, by rw [hs.1, hid]⟩
  · rw [hvm, hact]; exact h.active_mem
  · rw [hvm, hroot]; exact h.root_head
  · intro p n1 hp hn1
    rw [hvm] at hp
    rcases back p n1 hp hn1 with ⟨n, hn, hs⟩
    rw [hs.2.1, hroot]
    exact h.parent_iff p n hp hn
  · intro p n1 q hp hn1 hpar
    rw [hvm] at hp
    rcases back p n1 hp hn1 with ⟨n, hn, hs⟩
    rw [hs.2.1] at hpar
    rcases h.parent_ok p n q hp hn hpar with ⟨hq, m, hm, hc, hsn, hlt⟩
    rcases hshape q hq m hm with ⟨m1, hm1, hsm⟩
    refine ⟨by rw [hvm]; exact hq, m1, hm1, by rw [hsm.2.2.1]; exact hc, hsm.2.2.2 hsn, ?_⟩
    rw [hsm.1, hs.1]; exact hlt
  · intro q m1 c hq hm1 hc
    rw [hvm] at hq
    rcases back q m1 hq hm1 with ⟨m, hm, hsm⟩
    rw [hsm.2.2.1] at hc
    rcases h.children_ok q m c hq hm hc with ⟨hcm, n, hn, hpar⟩
    rcases hshape c hcm n hn with ⟨n1, hn1, hs⟩
    exact ⟨by rw [hvm]; exact hcm, n1, hn1, by rw [hs.2.1]; exact hpar⟩
  · intro q m1 hq hm1
    rw [hvm] at hq
    rcases back q m1 hq hm1 with ⟨m, hm, hsm⟩
    rw [hsm.2.2.1]
    exact h.children_nodup q m hq hm

/-- Moving `active_version` to a member of `version_map` keeps the invariant. -/
theorem FileInv.move {heap : List TreeNode} {f : File} (h : FileInv heap f) {p : Nat}
    (hp : p ∈ f.version_map) : FileInv heap { f with active_version := p } :=
  { total := h.total, ids := h.ids, active_mem := hp, root_head := h.root_head,
    parent_iff := h.parent_iff, parent_ok := h.parent_ok, children_ok := h.children_ok,
    children_nodup := h.children_nodup }

/-- The file built by `File(name)` on a fresh root node satisfies the invariant. -/
theorem FileInv.new (heap : List TreeNode) (name : String) (tNode tFile : Int) :
    FileInv (heap ++ [TreeNode.new 0 "" none tNode]) (File.new name heap.length tFile) := by
  have hnode : (heap ++ [TreeNode.new 0 "" none tNode])[heap.length]? =
      some (TreeNode.new 0 "" none tNode) := List.getElem?_concat_length _ _
  have hmem : ∀ p, p ∈ (File.new name heap.length tFile).version_map → p = heap.length := by
    intro p hp; simpa [File.new] using hp
  constructor
  · rfl
  · intro i p hi
    cases i with
    | zero =>
      simp only [File.new, List.getElem?_cons_zero, Option.some.injEq] at hi
      subst hi
      exact ⟨_, hnode, rfl⟩
    | succ j => simp [File.new] at hi
  · simp [File.new]
  · rfl
  · intro p n hp hn
    have := hmem p hp
    subst this
    rw [hnode] at hn
    cases hn
    simp [TreeNode.new, File.new]
  · intro p n q hp hn hpar
    have := hmem p hp
    subst this
    rw [hnode] at hn
    cases hn
    simp [TreeNode.new] at hpar
  · intro q m c hq hm hc
    have := hmem q hq
    subst this
    rw [hnode] at hm
    cases hm
    simp [TreeNode.new] at hc
  · intro q m hq hm
    have := hmem q hq
    subst this
    rw [hnode] at hm
    cases hm
    simp [TreeNode.new]


/-- Lookup in the arena after a fork: the fresh node, the old active node with one more
child, or an untouched node. -/
theorem fork_lookup (heap : List TreeNode) (act : Nat) (a a1 nw : TreeNode)
    (hact : heap[act]? = some a) (p : Nat) (n1 : TreeNode)
    (h : ((heap ++ [nw]).set act a1)[p]? = some n1) :
    (p = heap.length ∧ n1 = nw) ∨ (p = act ∧ p < heap.length ∧ n1 = a1) ∨
      (p ≠ act ∧ p < heap.length ∧ heap[p]? = some n1) := by
  have hap : act < heap.length := by
    rcases List.getElem?_eq_some.mp hact with ⟨h, _⟩; exact h
  by_cases hpa : p = act
  · subst hpa
    rw [List.getElem?_set_self (by simp; omega)] at h
    exact Or.inr (Or.inl ⟨rfl, hap, (Option.some.inj h).symm⟩)
  · rw [List.getElem?_set_ne (Ne.symm hpa)] at h
    by_cases hlt : p < heap.length
    · rw [List.getElem?_append_left hlt] at h
      exact Or.inr (Or.inr ⟨hpa, hlt, h⟩)
    · have hlen : p < (heap ++ [nw]).length := by
        rcases List.getElem?_eq_some.mp h with ⟨h, _⟩; exact h
      have hp : p = heap.length := by simp at hlen; omega
      subst hp
      rw [List.getElem?_concat_length] at h
      exact Or.inl ⟨rfl, (Option.some.inj h).symm⟩

/-- A fork keeps the invariant of the forked file. -/
theorem FileInv.fork {heap : List TreeNode} {f : File} {a : TreeNode} (h : FileInv heap f)
    (hact : heap[f.active_version]? = some a) (hsnap : a.is_snapshot = true)
    (newContent : String) (tNode tMod : Int) :
    FileInv
      ((heap ++ [TreeNode.new f.total_versions newContent (some f.active_version) tNode]).set
        f.active_version { a with children := a.children ++ [heap.length] })
      { f with version_map := f.version_map ++ [heap.length],
               active_version := heap.length,
               total_versions := f.total_versions + 1,
               last_modified := tMod } := by
  have hap : f.active_version < heap.length := h.ptr_lt h.active_mem
  have hne : f.active_version ≠ heap.length := Nat.ne_of_lt hap
  have look := fork_lookup heap f.active_version a
    { a with children := a.children ++ [heap.length] }
    (TreeNode.new f.total_versions newContent (some f.active_version) tNode) hact
  have hnew : ((heap ++ [TreeNode.new f.total_versions newContent (some f.active_version)
      tNode]).set f.active_version { a with children := a.children ++ [heap.length] })[
      heap.length]? = some (TreeNode.new f.total_versions newContent
        (some f.active_version) tNode) := by
    rw [List.getElem?_set_ne hne, List.getElem?_concat_length]
  have hold : ((heap ++ [TreeNode.new f.total_versions newContent (some f.active_version)
      tNode]).set f.active_version { a with children := a.children ++ [heap.length] })[
      f.active_version]? = some { a with children := a.children ++ [heap.length] } := by
    rw [List.getElem?_set_self (by simp; omega)]
  have hsame : ∀ p, p ≠ f.active_version → p < heap.length →
      ((heap ++ [TreeNode.new f.total_versions newContent (some f.active_version)
      tNode]).set f.active_version { a with children := a.children ++ [heap.length] })[p]? =
        heap[p]? := by
    intro p hp hlt
    rw [List.getElem?_set_ne (Ne.symm hp), List.getElem?_append_left hlt]
  have hmem : ∀ p, p ∈ f.version_map ++ [heap.length] → p ∈ f.version_map ∨ p = heap.length := by
    intro p hp
    rcases List.mem_append.mp hp with hp | hp
    · exact Or.inl hp
    · exact Or.inr (by simpa using hp)
  have hactid : a.version_id < f.total_versions := by
    rcases List.getElem?_of_mem h.active_mem with ⟨i, hi⟩
    rcases h.ids i _ hi with ⟨n, hn, hid⟩
    rw [hact] at hn
    cases hn
    have hil : i < f.version_map.length := by
      rcases List.getElem?_eq_some.mp hi with ⟨h, _⟩; exact h
    rw [hid, h.total]
    exact_mod_cast hil
  have hvmpos : 0 < f.version_map.length := by
    rcases List.getElem?_eq_some.mp h.root_head with ⟨h, _⟩; exact h
  constructor
  · show f.total_versions + 1 = ((f.version_map ++ [heap.length]).length : Int)
    rw [h.total]; simp
  · intro i p hi
    change (f.version_map ++ [heap.length])[i]? = some p at hi
    by_cases hil : i < f.version_map.length
    · rw [List.getElem?_append_left hil] at hi
      rcases h.ids i p hi with ⟨n, hn, hid⟩
      by_cases hpa : p = f.active_version
      · subst hpa
        rw [hact] at hn
        cases hn
        exact ⟨_, hold, hid⟩
      · have hlt : p < heap.length := h.ptr_lt (List.getElem?_mem hi)
        exact ⟨n, by rw [hsame p hpa hlt]; exact hn, hid⟩
    · have hlen : i < (f.version_map ++ [heap.length]).length := by
        rcases List.getElem?_eq_some.mp hi with ⟨h, _⟩; exact h
      have hi2 : i = f.version_map.length := by simp at hlen; omega
      subst hi2
      rw [List.getElem?_concat_length] at hi
      cases hi
      exact ⟨_, hnew, h.total⟩
  · show heap.length ∈ f.version_map ++ [heap.length]
    simp
  · show (f.version_map ++ [heap.length])[0]? = some f.root
    rw [List.getElem?_append_left hvmpos]
    exact h.root_head
  · intro p n1 hp hn1
    have hrl : f.root < heap.length := h.ptr_lt h.root_mem
    rcases look p n1 hn1 with ⟨hp1, hn⟩ | ⟨hp1, _, hn⟩ | ⟨hp1, hlt, hn⟩
    · subst hp1; subst hn
      simp only [TreeNode.new]
      constructor
      · intro hc; cases hc
      · intro hc
        change heap.length = f.root at hc
        omega
    · subst hp1; subst hn
      exact h.parent_iff _ a h.active_mem hact
    · rcases hmem p hp with hp2 | hp2
      · exact h.parent_iff p n1 hp2 hn
      · omega
  · intro p n1 q hp hn1 hpar
    have lift : ∀ q m, q ∈ f.version_map → heap[q]? = some m → p ∈ m.children →
        m.is_snapshot = true → m.version_id < n1.version_id →
        q ∈ f.version_map ++ [heap.length] ∧ ∃ m1,
          ((heap ++ [TreeNode.new f.total_versions newContent (some f.active_version)
            tNode]).set f.active_version
            { a with children := a.children ++ [heap.length] })[q]? = some m1 ∧
          p ∈ m1.children ∧ m1.is_snapshot = true ∧ m1.version_id < n1.version_id := by
      intro q m hq hm hc hs hlt
      refine ⟨List.mem_append_left _ hq, ?_⟩
      by_cases hqa : q = f.active_version
      · subst hqa
        rw [hact] at hm
        cases hm
        exact ⟨_, hold, List.mem_append_left _ hc, hs, hlt⟩
      · exact ⟨m, by rw [hsame q hqa (h.ptr_lt hq)]; exact hm, hc, hs, hlt⟩
    rcases look p n1 hn1 with ⟨hp1, hn⟩ | ⟨hp1, _, hn⟩ | ⟨hp1, hlt, hn⟩
    · subst hp1; subst hn
      simp only [TreeNode.new, Option.some.injEq] at hpar
      subst hpar
      exact ⟨List.mem_append_left _ h.active_mem, _, hold, by simp, hsnap, hactid⟩
    · subst hp1; subst hn
      rcases h.parent_ok _ a q h.active_mem hact hpar with ⟨hq, m, hm, hc, hs, hlt⟩
      exact lift q m hq hm hc hs hlt
    · rcases hmem p hp with hp2 | hp2
      · rcases h.parent_ok p n1 q hp2 hn hpar with ⟨hq, m, hm, hc, hs, hlt⟩
        exact lift q m hq hm hc hs hlt
      · omega
  · intro q m1 c hq hm1 hc
    have lift : ∀ m, heap[q]? = some m → q ∈ f.version_map → c ∈ m.children →
        c ∈ f.version_map ++ [heap.length] ∧ ∃ n1,
          ((heap ++ [TreeNode.new f.total_versions newContent (some f.active_version)
            tNode]).set f.active_version
            { a with children := a.children ++ [heap.length] })[c]? = some n1 ∧
          n1.parent = some q := by
      intro m hm hq hc
      rcases h.children_ok q m c hq hm hc with ⟨hcm, n, hn, hpar⟩
      refine ⟨List.mem_append_left _ hcm, ?_⟩
      by_cases hca : c = f.active_version
      · subst hca
        rw [hact] at hn
        cases hn
        exact ⟨_, hold, hpar⟩
      · exact ⟨n, by rw [hsame c hca (h.ptr_lt hcm)]; exact hn, hpar⟩
    rcases look q m1 hm1 with ⟨hp1, hn⟩ | ⟨hp1, _, hn⟩ | ⟨hp1, hlt, hn⟩
    · subst hn
      simp [TreeNode.new] at hc
    · subst hp1; subst hn
      rcases List.mem_append.mp hc with hc | hc
      · exact lift a hact h.active_mem hc
      · have : c = heap.length := by simpa using hc
        subst this
        exact ⟨by simp, _, hnew, rfl⟩
    · rcases hmem q hq with hq2 | hq2
      · exact lift m1 hn hq2 hc
      · omega
  · intro q m1 hq hm1
    rcases look q m1 hm1 with ⟨hp1, hn⟩ | ⟨hp1, _, hn⟩ | ⟨hp1, hlt, hn⟩
    · subst hn
      simp [TreeNode.new]
    · subst hp1; subst hn
      show (a.children ++ [heap.length]).Nodup
      rw [List.nodup_append]
      refine ⟨h.children_nodup _ a h.active_mem hact, by simp, ?_⟩
      intro c hc hc2
      have : c = heap.length := by simpa using hc2
      have hlt := h.ptr_lt (h.children_ok _ a c h.active_mem hact hc).1
      omega
    · rcases hmem q hq with hq2 | hq2
      · exact h.children_nodup q m1 hq2 hn
      · omega


/-! ## Preservation of the store invariant -/

theorem set_lookup {α : Type} (l : List α) (i : Nat) (x : α) (q : Nat) (y : α)
    (h : (l.set i x)[q]? = some y) : (q = i ∧ y = x) ∨ (q ≠ i ∧ l[q]? = some y) := by
  by_cases hq : q = i
  · subst hq
    have hlt : q < l.length := by
      rcases List.getElem?_eq_some.mp h with ⟨h, _⟩; simpa using h
    rw [List.getElem?_set_self hlt] at h
    exact Or.inl ⟨rfl, (Option.some.inj h).symm⟩
  · rw [List.getElem?_set_ne (Ne.symm hq)] at h
    exact Or.inr ⟨hq, h⟩

/-- Replacing one file (and possibly growing the arena) keeps the store invariant when
the file keeps its name, its old revisions, gains only fresh pointers, and every file
satisfies its invariant over the new arena. -/
theorem SysInv.replace_file {s : System} (h : SysInv s) (fp : Nat) (f f1 : File)
    (heap1 : List TreeNode) (hfile : s.fileHeap[fp]? = some f)
    (hname : f1.filename = f.filename)
    (hinv : FileInv heap1 f1)
    (hsub : ∀ p, p ∈ f.version_map → p ∈ f1.version_map)
    (hfresh : ∀ p, p ∈ f1.version_map → p ∈ f.version_map ∨ s.nodeHeap.length ≤ p)
    (hothers : ∀ q g, q ≠ fp → s.fileHeap[q]? = some g → FileInv heap1 g)
    (hcover : ∀ p, p < heap1.length → p < s.nodeHeap.length ∨ p ∈ f1.version_map) :
    SysInv { files := s.files, fileHeap := s.fileHeap.set fp f1, nodeHeap := heap1 } := by
  have hfp : fp < s.fileHeap.length := by
    rcases List.getElem?_eq_some.mp hfile with ⟨h, _⟩; exact h
  have hself : (s.fileHeap.set fp f1)[fp]? = some f1 := List.getElem?_set_self hfp
  constructor
  · exact h.map_wf
  · exact h.nonnull
  · intro k q hk
    rcases h.find_valid k q hk with ⟨g, hg, hgn⟩
    by_cases hq : q = fp
    · subst hq
      rw [hfile] at hg
      cases hg
      exact ⟨f1, hself, by rw [hname, hgn]⟩
    · exact ⟨g, by show (s.fileHeap.set fp f1)[q]? = _
                   rw [List.getElem?_set_ne (Ne.symm hq)]; exact hg, hgn⟩
  · intro q g hg
    rcases set_lookup _ _ _ _ _ hg with ⟨hq, hg1⟩ | ⟨hq, hg1⟩
    · subst hq; subst hg1
      show s.files.find g.filename = some q
      rw [hname]
      exact h.registered q f hfile
    · exact h.registered q g hg1
  · intro q g hg
    rcases set_lookup _ _ _ _ _ hg with ⟨hq, hg1⟩ | ⟨hq, hg1⟩
    · subst hq; subst hg1; exact hinv
    · exact hothers q g hq hg1
  · intro q r g k hg hk hqr p hp
    rcases set_lookup _ _ _ _ _ hg with ⟨hq, hg1⟩ | ⟨hq, hg1⟩
    · rcases set_lookup _ _ _ _ _ hk with ⟨hr, hk1⟩ | ⟨hr, hk1⟩
      · exact absurd (hq.trans hr.symm) hqr
      · subst hq; subst hg1
        intro hpk
        rcases hfresh p hp with hpf | hpn
        · exact h.sep q r f k hfile hk1 hqr p hpf hpk
        · have := (h.file_inv r k hk1).ptr_lt hpk
          omega
    · rcases set_lookup _ _ _ _ _ hk with ⟨hr, hk1⟩ | ⟨hr, hk1⟩
      · subst hr; subst hk1
        intro hpk
        rcases hfresh p hpk with hpf | hpn
        · exact h.sep q r g f hg1 hfile hqr p hp hpf
        · have := (h.file_inv q g hg1).ptr_lt hp
          omega
      · exact h.sep q r g k hg1 hk1 hqr p hp
  · intro p hp
    rcases hcover p hp with hlt | hmem
    · rcases h.cover p hlt with ⟨q, g, hg, hpg⟩
      by_cases hq : q = fp
      · subst hq
        rw [hfile] at hg
        cases hg
        exact ⟨q, f1, hself, hsub p hpg⟩
      · exact ⟨q, g, by show (s.fileHeap.set fp f1)[q]? = _
                        rw [List.getElem?_set_ne (Ne.symm hq)]; exact hg, hpg⟩
    · exact ⟨fp, f1, hself, hmem⟩

theorem SysInv.active_valid {s : System} (h : SysInv s) {fp : Nat} {f : File}
    (hfile : s.fileHeap[fp]? = some f) : ∃ a, s.nodeHeap[f.active_version]? = some a :=
  (h.file_inv fp f hfile).ptr_valid (h.file_inv fp f hfile).active_mem

/-- An in-place change of the active node that keeps its shape keeps the invariant. -/
theorem SysInv.mutState {s : System} (h : SysInv s) (fp : Nat) (f : File) (a a1 : TreeNode)
    (tMod : Int) (hfile : s.fileHeap[fp]? = some f)
    (hact : s.nodeHeap[f.active_version]? = some a) (hshape : SameShape a a1) :
    SysInv (mutState s fp f a1 tMod) := by
  have hap : f.active_version < s.nodeHeap.length := by
    rcases List.getElem?_eq_some.mp hact with ⟨h, _⟩; exact h
  have hnodes : ∀ (p : Nat) (n : TreeNode), s.nodeHeap[p]? = some n →
      ∃ n1, (s.nodeHeap.set f.active_version a1)[p]? = some n1 ∧ SameShape n n1 := by
    intro p n hn
    by_cases hp : p = f.active_version
    · subst hp
      rw [hact] at hn
      cases hn
      exact ⟨a1, List.getElem?_set_self hap, hshape⟩
    · exact ⟨n, by rw [List.getElem?_set_ne (Ne.symm hp)]; exact hn, SameShape.refl n⟩
  apply h.replace_file fp f { f with last_modified := tMod } _ hfile rfl
  · exact (h.file_inv fp f hfile).congr rfl rfl rfl rfl (fun p _ n hn => hnodes p n hn)
  · intro p hp; exact hp
  · intro p hp; exact Or.inl hp
  · intro q g _ hg
    exact (h.file_inv q g hg).congr rfl rfl rfl rfl (fun p _ n hn => hnodes p n hn)
  · intro p hp
    left
    simpa using hp

/-- Moving `active_version` inside `version_map` keeps the invariant. -/
theorem SysInv.moveState {s : System} (h : SysInv s) (fp : Nat) (f : File) (p : Nat)
    (hfile : s.fileHeap[fp]? = some f) (hp : p ∈ f.version_map) :
    SysInv (moveState s fp f p) := by
  apply h.replace_file fp f { f with active_version := p } _ hfile rfl
  · exact (h.file_inv fp f hfile).move hp
  · intro q hq; exact hq
  · intro q hq; exact Or.inl hq
  · intro q g _ hg; exact h.file_inv q g hg
  · intro q hq; exact Or.inl hq

/-- A fork keeps the invariant. -/
theorem SysInv.forkState {s : System} (h : SysInv s) (fp : Nat) (f : File) (a : TreeNode)
    (newContent : String) (tNode tMod : Int) (hfile : s.fileHeap[fp]? = some f)
    (hact : s.nodeHeap[f.active_version]? = some a) (hsnap : a.is_snapshot = true) :
    SysInv (forkState s fp f a newContent tNode tMod) := by
  have hfi := h.file_inv fp f hfile
  apply h.replace_file fp f
    { f with version_map := f.version_map ++ [s.nodeHeap.length],
             active_version := s.nodeHeap.length,
             total_versions := f.total_versions + 1,
             last_modified := tMod }
    ((s.nodeHeap ++
        [TreeNode.new f.total_versions newContent (some f.active_version) tNode]).set
      f.active_version { a with children := a.children ++ [s.nodeHeap.length] }) hfile rfl
  · exact hfi.fork hact hsnap newContent tNode tMod
  · intro p hp; exact List.mem_append_left _ hp
  · intro p hp
    rcases List.mem_append.mp hp with hp | hp
    · exact Or.inl hp
    · right
      have : p = s.nodeHeap.length := by simpa using hp
      omega
  · intro q g hq hg
    apply (h.file_inv q g hg).congr rfl rfl rfl rfl
    intro p hp n hn
    have hpa : p ≠ f.active_version := by
      intro e
      subst e
      exact h.sep fp q f g hfile hg (Ne.symm hq) _ hfi.active_mem hp
    have hlt : p < s.nodeHeap.length := (h.file_inv q g hg).ptr_lt hp
    refine ⟨n, ?_, SameShape.refl n⟩
    rw [List.getElem?_set_ne (Ne.symm hpa), List.getElem?_append_left hlt]
    exact hn
  · intro p hp
    have hlen : p < s.nodeHeap.length + 1 := by simpa using hp
    by_cases hlt : p < s.nodeHeap.length
    · exact Or.inl hlt
    · right
      have : p = s.nodeHeap.length := by omega
      subst this
      show s.nodeHeap.length ∈ f.version_map ++ [s.nodeHeap.length]
      simp


theorem append_lookup {α : Type} (l : List α) (x : α) (q : Nat) (y : α)
    (h : (l ++ [x])[q]? = some y) :
    (q = l.length ∧ y = x) ∨ (q < l.length ∧ l[q]? = some y) := by
  by_cases hlt : q < l.length
  · rw [List.getElem?_append_left hlt] at h
    exact Or.inr ⟨hlt, h⟩
  · have hlen : q < (l ++ [x]).length := by
      rcases List.getElem?_eq_some.mp h with ⟨h, _⟩; exact h
    have hq : q = l.length := by simp at hlen; omega
    subst hq
    rw [List.getElem?_concat_length] at h
    exact Or.inl ⟨rfl, (Option.some.inj h).symm⟩

theorem SysInv.init : SysInv System.init := by
  constructor
  · exact HashMap.empty_wf
  · intro k hk
    rw [show System.init.files = HashMap.empty from rfl, HashMap.empty_present] at hk
    cases hk
  · intro k fp hk
    rw [show System.init.files = HashMap.empty from rfl,
      HashMap.empty_wf.find_of_absent k (HashMap.empty_present k)] at hk
    cases hk
  · intro fp f hf; simp [System.init] at hf
  · intro fp f hf; simp [System.init] at hf
  · intro fp fq f g hf; simp [System.init] at hf
  · intro p hp; simp [System.init] at hp

theorem SysInv.absent_of_find_none {s : System} (h : SysInv s) {k : String}
    (hk : s.files.find k = none) : s.files.present k = false := by
  cases hp : s.files.present k with
  | false => rfl
  | true => exact absurd hk (h.nonnull k hp)

/-- The store built by a successful `create` satisfies the invariant. -/
theorem SysInv.create {s : System} (h : SysInv s) (name : String) (tNode tFile : Int)
    (hnone : s.files.find name = none) :
    SysInv { files := (s.files.insert name (some s.fileHeap.length)).1,
             fileHeap := s.fileHeap ++ [File.new name s.nodeHeap.length tFile],
             nodeHeap := s.nodeHeap ++ [TreeNode.new 0 "" none tNode] } := by
  have habs := h.absent_of_find_none hnone
  have hfind : ∀ k, (s.files.insert name (some s.fileHeap.length)).1.find k =
      if k = name then some s.fileHeap.length else s.files.find k := by
    intro k
    rw [h.map_wf.find_insert]
    simp [habs]
  have hkeep : ∀ (q : Nat) (g : File), s.fileHeap[q]? = some g →
      (s.fileHeap ++ [File.new name s.nodeHeap.length tFile])[q]? = some g := by
    intro q g hg
    have hlt : q < s.fileHeap.length := by
      rcases List.getElem?_eq_some.mp hg with ⟨h, _⟩; exact h
    rw [List.getElem?_append_left hlt]; exact hg
  have hnodes : ∀ (g : File), FileInv s.nodeHeap g →
      FileInv (s.nodeHeap ++ [TreeNode.new 0 "" none tNode]) g := by
    intro g hg
    apply hg.congr rfl rfl rfl rfl
    intro p hp n hn
    refine ⟨n, ?_, SameShape.refl n⟩
    rw [List.getElem?_append_left (hg.ptr_lt hp)]; exact hn
  constructor
  · exact h.map_wf.insert _ _
  · intro k hk
    show (s.files.insert name (some s.fileHeap.length)).1.find k ≠ none
    rw [hfind]
    by_cases hkn : k = name
    · simp [hkn]
    · rw [if_neg hkn]
      apply h.nonnull
      have hk2 : (s.files.insert name (some s.fileHeap.length)).1.present k = true := hk
      rw [h.map_wf.present_insert] at hk2
      simpa [hkn] using hk2
  · intro k fp hk
    have hk2 : (s.files.insert name (some s.fileHeap.length)).1.find k = some fp := hk
    rw [hfind] at hk2
    by_cases hkn : k = name
    · rw [if_pos hkn] at hk2
      cases hk2
      exact ⟨_, List.getElem?_concat_length _ _, by rw [hkn]; rfl⟩
    · rw [if_neg hkn] at hk2
      rcases h.find_valid k fp hk2 with ⟨g, hg, hgn⟩
      exact ⟨g, hkeep fp g hg, hgn⟩
  · intro q g hg
    show (s.files.insert name (some s.fileHeap.length)).1.find g.filename = some q
    rw [hfind]
    rcases append_lookup _ _ _ _ hg with ⟨hq, hg1⟩ | ⟨_, hg1⟩
    · subst hq; subst hg1
      simp [File.new]
    · have hreg := h.registered q g hg1
      have hne : g.filename ≠ name := by
        intro e
        rw [e, hnone] at hreg
        cases hreg
      rw [if_neg hne]; exact hreg
  · intro q g hg
    rcases append_lookup _ _ _ _ hg with ⟨hq, hg1⟩ | ⟨_, hg1⟩
    · subst hq; subst hg1
      exact FileInv.new s.nodeHeap name tNode tFile
    · exact hnodes g (h.file_inv q g hg1)
  · intro q r g k hg hk hqr p hp
    rcases append_lookup _ _ _ _ hg with ⟨hq, hg1⟩ | ⟨hq, hg1⟩
    · rcases append_lookup _ _ _ _ hk with ⟨hr, hk1⟩ | ⟨hr, hk1⟩
      · exact absurd (hq.trans hr.symm) hqr
      · subst hg1
        have hpe : p = s.nodeHeap.length := by simpa [File.new] using hp
        intro hpk
        have := (h.file_inv r k hk1).ptr_lt hpk
        omega
    · rcases append_lookup _ _ _ _ hk with ⟨hr, hk1⟩ | ⟨hr, hk1⟩
      · subst hk1
        intro hpk
        have hpe : p = s.nodeHeap.length := by simpa [File.new] using hpk
        have := (h.file_inv q g hg1).ptr_lt hp
        omega
      · exact h.sep q r g k hg1 hk1 hqr p hp
  · intro p hp
    have hlen : p < s.nodeHeap.length + 1 := by simpa using hp
    by_cases hlt : p < s.nodeHeap.length
    · rcases h.cover p hlt with ⟨q, g, hg, hpg⟩
      exact ⟨q, g, hkeep q g hg, hpg⟩
    · have hpe : p = s.nodeHeap.length := by omega
      exact ⟨s.fileHeap.length, _, List.getElem?_concat_length _ _, by simp [File.new, hpe]⟩

/-- The scan of `rollback` over a list whose `i`-th node has `version_id = base + i`
stops at position `k` when asked for `base + k`. -/
theorem scanVersion_spec (heap : List TreeNode) :
    ∀ (vm : List Nat) (base : Int),
      (∀ (i p : Nat), vm[i]? = some p → ∃ n, heap[p]? = some n ∧ n.version_id = base + i) →
      ∀ (k p : Nat), vm[k]? = some p →
        System.scanVersion heap (base + k) vm = some (some p) := by
  intro vm
  induction vm with
  | nil => intro base _ k p hk; simp at hk
  | cons v rest ih =>
    intro base hids k p hk
    rcases hids 0 v (by simp) with ⟨n, hn, hid⟩
    cases k with
    | zero =>
      simp only [List.getElem?_cons_zero, Option.some.injEq] at hk
      subst hk
      simp only [System.scanVersion, hn]
      rw [if_pos (by simpa using hid)]
    | succ j =>
      simp only [List.getElem?_cons_succ] at hk
      have hne : ¬ n.version_id = base + ((j + 1 : Nat) : Int) := by
        rw [hid]; push_cast; omega
      simp only [System.scanVersion, hn]
      rw [if_neg hne]
      have := ih (base + 1) (by
        intro i q hi
        rcases hids (i + 1) q (by simpa using hi) with ⟨m, hm, hmid⟩
        exact ⟨m, hm, by rw [hmid]; push_cast; ring⟩) j p hk
      rw [show base + ((j + 1 : Nat) : Int) = base + 1 + (j : Int) by push_cast; ring]
      exact this

theorem FileInv.scan {heap : List TreeNode} {f : File} (h : FileInv heap f)
    (version_id : Int) (h0 : 0 ≤ version_id) (h1 : version_id < f.total_versions) :
    ∃ p, f.version_map[version_id.toNat]? = some p ∧
      System.scanVersion heap version_id f.version_map = some (some p) := by
  have hlt : version_id.toNat < f.version_map.length := by
    have := h.total
    omega
  refine ⟨f.version_map[version_id.toNat], List.getElem?_eq_getElem hlt, ?_⟩
  have := scanVersion_spec heap f.version_map 0
    (by intro i p hi; simpa using h.ids i p hi) version_id.toNat _
    (List.getElem?_eq_getElem hlt)
  rw [show (0 : Int) + (version_id.toNat : Int) = version_id by omega] at this
  exact this


theorem historyNodes_some (heap : List TreeNode) :
    ∀ vm : List Nat, (∀ p, p ∈ vm → ∃ n, heap[p]? = some n) →
      ∃ ns, System.historyNodes heap vm = some ns := by
  intro vm
  induction vm with
  | nil => intro _; exact ⟨[], rfl⟩
  | cons v rest ih =>
    intro h
    rcases h v (by simp) with ⟨n, hn⟩
    rcases ih (fun p hp => h p (List.mem_cons_of_mem _ hp)) with ⟨ns, hns⟩
    simp only [System.historyNodes, hn, hns]
    split
    · exact ⟨_, rfl⟩
    · exact ⟨_, rfl⟩

theorem create_exists_eq (s : System) (filename : String) (tNode tFile : Int) (fp : Nat)
    (hfind : s.files.find filename = some fp) :
    s.create filename tNode tFile = some (s, System.msgExists filename) := by
  simp only [System.create, hfind]

theorem create_new_eq (s : System) (filename : String) (tNode tFile : Int)
    (hfind : s.files.find filename = none) :
    s.create filename tNode tFile =
      some ({ files := (s.files.insert filename (some s.fileHeap.length)).1,
              fileHeap := s.fileHeap ++ [File.new filename s.nodeHeap.length tFile],
              nodeHeap := s.nodeHeap ++ [TreeNode.new 0 "" none tNode] },
            System.msgCreated filename) := by
  simp only [System.create, hfind]

theorem not_found_eq (s : System) (filename : String)
    (hfind : s.files.find filename = none) :
    s.read filename = some (s, System.msgNotFound filename) ∧
    (∀ content tNode tMod,
      s.insert filename content tNode tMod = some (s, System.msgNotFound filename)) ∧
    (∀ content tNode tMod,
      s.update filename content tNode tMod = some (s, System.msgNotFound filename)) ∧
    (∀ message tSnap tMod,
      s.snapshot filename message tSnap tMod = some (s, System.msgNotFound filename)) ∧
    (∀ version_id,
      s.rollback filename version_id = some (s, System.msgNotFound filename)) ∧
    (∀ ctime, s.history filename ctime = some (s, System.msgNotFound filename)) := by
  refine ⟨?_, ?_, ?_, ?_, ?_, ?_⟩
  · simp only [System.read, hfind]
  · intro _ _ _; simp only [System.insert, hfind]
  · intro _ _ _; simp only [System.update, hfind]
  · intro _ _ _; simp only [System.snapshot, hfind]
  · intro _; simp only [System.rollback, hfind]
  · intro _; simp only [System.history, hfind]

theorem history_eq (s : System) (filename : String) (ctime : Int → String) (fp : Nat)
    (f : File) (ns : List TreeNode)
    (hfind : s.files.find filename = some fp) (hfile : s.fileHeap[fp]? = some f)
    (hns : System.historyNodes s.nodeHeap f.version_map = some ns) :
    s.history filename ctime =
      some (s, "Version history for file: " ++ filename ++ "\n" ++
        String.join (ns.map (System.historyLine ctime))) := by
  simp only [System.history, hfind, hfile, hns]

/-! ## Every operation returns, and keeps the invariant -/

/-- The possible outcomes of one operation on a store that satisfies the invariant. -/
theorem SysInv.exec {s : System} (h : SysInv s) (op : Op) :
    ∃ s1 out, s.exec op = some (s1, out) ∧ SysInv s1 := by
  cases op with
  | create filename tNode tFile =>
    cases hfind : s.files.find filename with
    | some fp => exact ⟨s, _, create_exists_eq s filename tNode tFile fp hfind, h⟩
    | none =>
      exact ⟨_, _, create_new_eq s filename tNode tFile hfind,
        h.create filename tNode tFile hfind⟩
  | read filename =>
    cases hfind : s.files.find filename with
    | none => exact ⟨s, _, (not_found_eq s filename hfind).1, h⟩
    | some fp =>
      rcases h.find_valid filename fp hfind with ⟨f, hfile, _⟩
      rcases h.active_valid hfile with ⟨a, hact⟩
      exact ⟨s, _, read_eq s filename fp f a hfind hfile hact, h⟩
  | insert filename content tNode tMod =>
    cases hfind : s.files.find filename with
    | none => exact ⟨s, _, (not_found_eq s filename hfind).2.1 content tNode tMod, h⟩
    | some fp =>
      rcases h.find_valid filename fp hfind with ⟨f, hfile, _⟩
      rcases h.active_valid hfile with ⟨a, hact⟩
      cases hsnap : a.is_snapshot with
      | true =>
        exact ⟨_, _, insert_fork_eq s filename content tNode tMod fp f a hfind hfile hact hsnap,
          h.forkState fp f a _ tNode tMod hfile hact hsnap⟩
      | false =>
        exact ⟨_, _, insert_mut_eq s filename content tNode tMod fp f a hfind hfile hact hsnap,
          h.mutState fp f a _ tMod hfile hact ⟨rfl, rfl, rfl, id⟩⟩
  | update filename content tNode tMod =>
    cases hfind : s.files.find filename with
    | none => exact ⟨s, _, (not_found_eq s filename hfind).2.2.1 content tNode tMod, h⟩
    | some fp =>
      rcases h.find_valid filename fp hfind with ⟨f, hfile, _⟩
      rcases h.active_valid hfile with ⟨a, hact⟩
      cases hsnap : a.is_snapshot with
      | true =>
        exact ⟨_, _, update_fork_eq s filename content tNode tMod fp f a hfind hfile hact hsnap,
          h.forkState fp f a _ tNode tMod hfile hact hsnap⟩
      | false =>
        exact ⟨_, _, update_mut_eq s filename content tNode tMod fp f a hfind hfile hact hsnap,
          h.mutState fp f a _ tMod hfile hact ⟨rfl, rfl, rfl, id⟩⟩
  | snapshot filename message tSnap tMod =>
    cases hfind : s.files.find filename with
    | none => exact ⟨s, _, (not_found_eq s filename hfind).2.2.2.1 message tSnap tMod, h⟩
    | some fp =>
      rcases h.find_valid filename fp hfind with ⟨f, hfile, _⟩
      rcases h.active_valid hfile with ⟨a, hact⟩
      cases hsnap : a.is_snapshot with
      | true =>
        exact ⟨s, _, snapshot_already_eq s filename message tSnap tMod fp f a hfind hfile hact
          hsnap, h⟩
      | false =>
        exact ⟨_, _, snapshot_mut_eq s filename message tSnap tMod fp f a hfind hfile hact
          hsnap, h.mutState fp f a _ tMod hfile hact ⟨rfl, rfl, rfl, fun _ => rfl⟩⟩
  | rollback filename version_id =>
    cases hfind : s.files.find filename with
    | none => exact ⟨s, _, (not_found_eq s filename hfind).2.2.2.2.1 version_id, h⟩
    | some fp =>
      rcases h.find_valid filename fp hfind with ⟨f, hfile, _⟩
      rcases h.active_valid hfile with ⟨a, hact⟩
      have hfi := h.file_inv fp f hfile
      by_cases hv : version_id = -1
      · subst hv
        cases hpar : a.parent with
        | none => exact ⟨s, _, rollback_root_eq s filename fp f a hfind hfile hact hpar, h⟩
        | some p =>
          exact ⟨_, _, rollback_parent_eq s filename fp f a p hfind hfile hact hpar,
            h.moveState fp f p hfile (hfi.parent_ok _ a p hfi.active_mem hact hpar).1⟩
      · by_cases hout : version_id < 0 ∨ version_id ≥ f.total_versions
        · exact ⟨s, _, rollback_invalid_eq s filename version_id fp f hfind hfile hv hout, h⟩
        · have h0 : 0 ≤ version_id := by omega
          have h1 : version_id < f.total_versions := by omega
          rcases hfi.scan version_id h0 h1 with ⟨p, hp, hscan⟩
          exact ⟨_, _, rollback_target_eq s filename version_id fp f p hfind hfile h0 h1 hscan,
            h.moveState fp f p hfile (List.getElem?_mem hp)⟩
  | history filename ctime =>
    cases hfind : s.files.find filename with
    | none => exact ⟨s, _, (not_found_eq s filename hfind).2.2.2.2.2 ctime, h⟩
    | some fp =>
      rcases h.find_valid filename fp hfind with ⟨f, hfile, _⟩
      rcases historyNodes_some s.nodeHeap f.version_map
        (fun p hp => (h.file_inv fp f hfile).ptr_valid hp) with ⟨ns, hns⟩
      exact ⟨s, _, history_eq s filename ctime fp f ns hfind hfile hns, h⟩

theorem SysInv.run (ops : List Op) :
    ∀ s : System, SysInv s → ∃ s1, s.run ops = some s1 ∧ SysInv s1 := by
  induction ops with
  | nil => intro s h; exact ⟨s, rfl, h⟩
  | cons op rest ih =>
    intro s h
    rcases h.exec op with ⟨s1, out, he, h1⟩
    rcases ih s1 h1 with ⟨s2, hr, h2⟩
    exact ⟨s2, by simp only [System.run, he]; exact hr, h2⟩

/-- Every sequence of operations runs to completion from the empty store. -/
theorem run_total (ops : List Op) : ∃ s, System.init.run ops = some s := by
  rcases SysInv.run ops System.init SysInv.init with ⟨s, hs, _⟩
  exact ⟨s, hs⟩

/-- Reachable stores satisfy the invariant. -/
theorem Reachable.inv {s : System} (h : Reachable s) : SysInv s := by
  rcases h with ⟨ops, hops⟩
  rcases SysInv.run ops System.init SysInv.init with ⟨s1, hs, h1⟩
  rw [hops] at hs
  cases hs
  exact h1

theorem Reachable.step {s s1 : System} {out : String} (h : Reachable s) (op : Op)
    (he : s.exec op = some (s1, out)) : Reachable s1 := by
  rcases h with ⟨ops, hops⟩
  refine ⟨ops ++ [op], ?_⟩
  have key : ∀ (l : List Op) (s0 s2 : System), s0.run l = some s2 →
      s0.run (l ++ [op]) = s2.run [op] := by
    intro l
    induction l with
    | nil => intro s0 s2 h; cases h; rfl
    | cons o rest ih =>
      intro s0 s2 h
      simp only [System.run, List.cons_append] at h ⊢
      cases he0 : s0.exec o with
      | none => rw [he0] at h; cases h
      | some r =>
        rw [he0] at h
        simp only [] at h ⊢
        exact ih _ _ h
  rw [key ops _ _ hops]
  simp only [System.run, he]


/-! ## Rollback -/

theorem reachable_exForked : Reachable exForked := ⟨opsForked, run_opsForked⟩

theorem reachable_exSnapshotted : Reachable exSnapshotted := ⟨opsSnapshotted, run_opsSnapshotted⟩

theorem reachable_exMutable : Reachable exMutable := ⟨opsMutable, run_opsMutable⟩

/-- C5. In a reachable store, for a registered file and `0 ≤ target_id <
total_versions`, `rollback(file, target_id)` succeeds: the scan of `version_map` stops
at the pointer stored at index `target_id`, whose node has `version_id = target_id`
(the version-not-found branch is not taken), `active_version` becomes that pointer and
nothing else changes; `read` then prints that node's content. -/
theorem rollback_to_recorded_id (s : System) (filename : String) (fp : Nat) (f : File)
    (target_id : Int) (hreach : Reachable s)
    (hfind : s.files.find filename = some fp) (hfile : s.fileHeap[fp]? = some f)
    (h0 : 0 ≤ target_id) (h1 : target_id < f.total_versions) :
    ∃ (target : Nat) (n : TreeNode),
      f.version_map[target_id.toNat]? = some target ∧
      s.nodeHeap[target]? = some n ∧ n.version_id = target_id ∧
      System.scanVersion s.nodeHeap target_id f.version_map = some (some target) ∧
      s.rollback filename target_id =
        some ({ files := s.files,
                fileHeap := s.fileHeap.set fp { f with active_version := target },
                nodeHeap := s.nodeHeap }, System.msgRolledTo target_id) ∧
      System.read { files := s.files,
                    fileHeap := s.fileHeap.set fp { f with active_version := target },
                    nodeHeap := s.nodeHeap } filename =
        some ({ files := s.files,
                fileHeap := s.fileHeap.set fp { f with active_version := target },
                nodeHeap := s.nodeHeap }, n.content ++ "\n") := by
  have hinv := hreach.inv
  have hfi := hinv.file_inv fp f hfile
  rcases hfi.scan target_id h0 h1 with ⟨target, htarget, hscan⟩
  rcases hfi.ids _ target htarget with ⟨n, hn, hid⟩
  have hfp : fp < s.fileHeap.length := by
    rcases List.getElem?_eq_some.mp hfile with ⟨h, _⟩; exact h
  refine ⟨target, n, htarget, hn, by rw [hid]; omega, hscan,
    rollback_target_eq s filename target_id fp f target hfind hfile h0 h1 hscan, ?_⟩
  exact read_eq _ filename fp { f with active_version := target } n hfind
    (List.getElem?_set_self hfp) hn

theorem rollback_to_recorded_id_witness :
    ∃ (target : Nat) (n : TreeNode),
      [0, 1][(0 : Int).toNat]? = some target ∧
      exForked.nodeHeap[target]? = some n ∧ n.version_id = 0 ∧
      System.scanVersion exForked.nodeHeap 0 [0, 1] = some (some target) ∧
      exForked.rollback "a.txt" 0 =
        some ({ files := exForked.files,
                fileHeap := exForked.fileHeap.set 0 (File.mk 0 target [0, 1] 2 "a.txt" 8),
                nodeHeap := exForked.nodeHeap }, System.msgRolledTo 0) ∧
      System.read { files := exForked.files,
                    fileHeap := exForked.fileHeap.set 0 (File.mk 0 target [0, 1] 2 "a.txt" 8),
                    nodeHeap := exForked.nodeHeap } "a.txt" =
        some ({ files := exForked.files,
                fileHeap := exForked.fileHeap.set 0 (File.mk 0 target [0, 1] 2 "a.txt" 8),
                nodeHeap := exForked.nodeHeap }, n.content ++ "\n") :=
  rollback_to_recorded_id exForked "a.txt" 0 (File.mk 0 1 [0, 1] 2 "a.txt" 8) 0
    reachable_exForked (by decide) (by decide) (by decide) (by decide)

/-- C6 (what the code does at the failing input). In the store `exForked` the file has
`total_versions = 2`, so `-1` is outside `[0, 2)`; yet `rollback("a.txt", -1)` does not
print the invalid-id error: it moves `active_version` from revision 1 to its parent,
revision 0, and prints the parent-rollback message, while `-2` and `2` are rejected. -/
theorem rollback_minus_one_moves_active :
    exForked.rollback "a.txt" (-1) =
      some ({ files := exForked.files,
              fileHeap := [File.mk 0 0 [0, 1] 2 "a.txt" 8],
              nodeHeap := exForked.nodeHeap }, System.msgRolledParent) ∧
    exForked.rollback "a.txt" (-1) ≠ some (exForked, System.msgInvalidId) ∧
    exForked.rollback "a.txt" (-2) = some (exForked, System.msgInvalidId) ∧
    exForked.rollback "a.txt" 2 = some (exForked, System.msgInvalidId) := by
  refine ⟨by decide, by decide, by decide, by decide⟩

/-- Every id outside `[0, total_versions)` other than `-1` is rejected with the
invalid-id error and the store is returned as it was. -/
theorem rollback_out_of_range (s : System) (filename : String) (fp : Nat) (f : File)
    (target_id : Int) (hfind : s.files.find filename = some fp)
    (hfile : s.fileHeap[fp]? = some f) (hne : target_id ≠ -1)
    (hout : target_id < 0 ∨ target_id ≥ f.total_versions) :
    s.rollback filename target_id = some (s, System.msgInvalidId) :=
  rollback_invalid_eq s filename target_id fp f hfind hfile hne hout


/-- After a fork, the call of `rollback` without a version id puts `active_version` back
on the revision that was active before the fork, and `read` prints its content. -/
theorem fork_then_rollback (s : System) (filename : String) (fp : Nat) (f : File)
    (a : TreeNode) (newContent : String) (tNode tMod : Int)
    (hfind : s.files.find filename = some fp) (hfile : s.fileHeap[fp]? = some f)
    (hact : s.nodeHeap[f.active_version]? = some a) :
    ∃ s2, (forkState s fp f a newContent tNode tMod).rollback filename System.noVersion =
        some (s2, System.msgRolledParent) ∧
      s2.fileHeap[fp]? = some
        { f with version_map := f.version_map ++ [s.nodeHeap.length],
                 active_version := f.active_version,
                 total_versions := f.total_versions + 1,
                 last_modified := tMod } ∧
      s2.nodeHeap = (forkState s fp f a newContent tNode tMod).nodeHeap ∧
      s2.files = s.files ∧
      s2.read filename = some (s2, a.content ++ "\n") := by
  have post := forkState_post s fp f a newContent tNode tMod hfile hact
  have hfp : fp < (forkState s fp f a newContent tNode tMod).fileHeap.length := by
    rw [post.file_len]
    rcases List.getElem?_eq_some.mp hfile with ⟨h, _⟩; exact h
  have hroll := rollback_parent_eq (forkState s fp f a newContent tNode tMod) filename fp _ _
    f.active_version (by rw [post.files_eq]; exact hfind) post.file post.new_node rfl
  refine ⟨_, hroll, List.getElem?_set_self hfp, rfl, rfl, ?_⟩
  have hfind1 : (moveState (forkState s fp f a newContent tNode tMod) fp
      { f with version_map := f.version_map ++ [s.nodeHeap.length],
               active_version := s.nodeHeap.length,
               total_versions := f.total_versions + 1,
               last_modified := tMod } f.active_version).files.find filename = some fp := hfind
  exact read_eq _ filename fp _ { a with children := a.children ++ [s.nodeHeap.length] }
    hfind1 (List.getElem?_set_self hfp) post.old_active

/-- C7. The call of `rollback` without a version id on a registered file: when the
active node has a parent, `active_version` becomes that parent and the rest of the store
(every node, `version_map`, `total_versions`, `last_modified`, the table) is what it
was; when it has no parent, the no-parent error is printed and the store is returned as
it was.  Right after a fork (by `insert` or `update`) it puts `active_version` back on
the pre-fork revision and `read` prints that revision's content.  In a reachable store
the active node has no parent exactly when it is the root. -/
theorem rollback_without_target (s : System) (filename : String) (fp : Nat) (f : File)
    (a : TreeNode)
    (hfind : s.files.find filename = some fp) (hfile : s.fileHeap[fp]? = some f)
    (hact : s.nodeHeap[f.active_version]? = some a) :
    (∀ p, a.parent = some p →
      s.rollback filename System.noVersion =
        some ({ files := s.files,
                fileHeap := s.fileHeap.set fp { f with active_version := p },
                nodeHeap := s.nodeHeap }, System.msgRolledParent)) ∧
    (a.parent = none →
      s.rollback filename System.noVersion = some (s, System.msgNoParent)) ∧
    (a.is_snapshot = true → ∀ (text : String) (tNode tMod : Int),
      (∃ s1 s2, s.insert filename text tNode tMod = some (s1, System.msgInserted) ∧
        s1.rollback filename System.noVersion = some (s2, System.msgRolledParent) ∧
        (s2.fileHeap[fp]?).map (fun g => g.active_version) = some f.active_version ∧
        s2.read filename = some (s2, a.content ++ "\n")) ∧
      (∃ s1 s2, s.update filename text tNode tMod = some (s1, System.msgUpdated) ∧
        s1.rollback filename System.noVersion = some (s2, System.msgRolledParent) ∧
        (s2.fileHeap[fp]?).map (fun g => g.active_version) = some f.active_version ∧
        s2.read filename = some (s2, a.content ++ "\n"))) ∧
    (Reachable s → (f.active_version = f.root ↔ a.parent = none)) := by
  refine ⟨?_, ?_, ?_, ?_⟩
  · intro p hpar
    exact rollback_parent_eq s filename fp f a p hfind hfile hact hpar
  · intro hpar
    exact rollback_root_eq s filename fp f a hfind hfile hact hpar
  · intro hsnap text tNode tMod
    constructor
    · rcases fork_then_rollback s filename fp f a (a.content ++ text) tNode tMod hfind hfile
        hact with ⟨s2, hroll, hf2, _, _, hread⟩
      exact ⟨_, s2, insert_fork_eq s filename text tNode tMod fp f a hfind hfile hact hsnap,
        hroll, by rw [hf2]; rfl, hread⟩
    · rcases fork_then_rollback s filename fp f a text tNode tMod hfind hfile
        hact with ⟨s2, hroll, hf2, _, _, hread⟩
      exact ⟨_, s2, update_fork_eq s filename text tNode tMod fp f a hfind hfile hact hsnap,
        hroll, by rw [hf2]; rfl, hread⟩
  · intro hreach
    have hfi := hreach.inv.file_inv fp f hfile
    exact (hfi.parent_iff _ a hfi.active_mem hact).symm

theorem rollback_without_target_witness :
    (exForked.rollback "a.txt" System.noVersion =
        some ({ files := exForked.files,
                fileHeap := exForked.fileHeap.set 0 (File.mk 0 0 [0, 1] 2 "a.txt" 8),
                nodeHeap := exForked.nodeHeap }, System.msgRolledParent)) ∧
    (exSnapshotted.rollback "a.txt" System.noVersion =
        some (exSnapshotted, System.msgNoParent)) ∧
    ((∃ s1 s2, exSnapshotted.insert "a.txt" "!" 7 8 = some (s1, System.msgInserted) ∧
        s1.rollback "a.txt" System.noVersion = some (s2, System.msgRolledParent) ∧
        (s2.fileHeap[0]?).map (fun g => g.active_version) = some 0 ∧
        s2.read "a.txt" = some (s2, "hello" ++ "\n")) ∧
      (∃ s1 s2, exSnapshotted.update "a.txt" "!" 7 8 = some (s1, System.msgUpdated) ∧
        s1.rollback "a.txt" System.noVersion = some (s2, System.msgRolledParent) ∧
        (s2.fileHeap[0]?).map (fun g => g.active_version) = some 0 ∧
        s2.read "a.txt" = some (s2, "hello" ++ "\n"))) ∧
    ((0 : Nat) = 0 ↔ (none : Option Nat) = none) :=
  ⟨(rollback_without_target exForked "a.txt" 0 (File.mk 0 1 [0, 1] 2 "a.txt" 8)
      (TreeNode.mk 1 "hello world" "" 7 0 (some 0) [] false)
      (by decide) (by decide) (by decide)).1 0 (by decide),
   (rollback_without_target exSnapshotted "a.txt" 0 (File.mk 0 0 [0] 1 "a.txt" 6)
      (TreeNode.mk 0 "hello" "v1" 1 5 none [] true)
      (by decide) (by decide) (by decide)).2.1 (by decide),
   (rollback_without_target exSnapshotted "a.txt" 0 (File.mk 0 0 [0] 1 "a.txt" 6)
      (TreeNode.mk 0 "hello" "v1" 1 5 none [] true)
      (by decide) (by decide) (by decide)).2.2.1 (by decide) "!" 7 8,
   (rollback_without_target exSnapshotted "a.txt" 0 (File.mk 0 0 [0] 1 "a.txt" 6)
      (TreeNode.mk 0 "hello" "v1" 1 5 none [] true)
      (by decide) (by decide) (by decide)).2.2.2 reachable_exSnapshotted⟩


/-! ## History -/

theorem historyNodes_eq (heap : List TreeNode) :
    ∀ vm : List Nat, (∀ p, p ∈ vm → ∃ n, heap[p]? = some n) →
      System.historyNodes heap vm =
        some ((vm.filterMap (fun p => heap[p]?)).filter (fun n => n.is_snapshot)) := by
  intro vm
  induction vm with
  | nil => intro _; rfl
  | cons v rest ih =>
    intro h
    rcases h v (by simp) with ⟨n, hn⟩
    have hrest := ih (fun p hp => h p (List.mem_cons_of_mem _ hp))
    simp only [System.historyNodes, hn, hrest, List.filterMap_cons, List.filter_cons]
    split <;> rfl

theorem ids_ascending (heap : List TreeNode) :
    ∀ (vm : List Nat) (base : Int),
      (∀ (i p : Nat), vm[i]? = some p → ∃ n, heap[p]? = some n ∧ n.version_id = base + i) →
      (vm.filterMap (fun p => heap[p]?)).Pairwise (fun n m => n.version_id < m.version_id) ∧
      ∀ m ∈ vm.filterMap (fun p => heap[p]?), base ≤ m.version_id := by
  intro vm
  induction vm with
  | nil => intro base _; simp
  | cons v rest ih =>
    intro base hids
    rcases hids 0 v (by simp) with ⟨n, hn, hid⟩
    have hrest := ih (base + 1) (by
      intro i q hi
      rcases hids (i + 1) q (by simpa using hi) with ⟨m, hm, hmid⟩
      exact ⟨m, hm, by rw [hmid]; push_cast; ring⟩)
    simp only [List.filterMap_cons, hn]
    constructor
    · rw [List.pairwise_cons]
      refine ⟨?_, hrest.1⟩
      intro m hm
      have := hrest.2 m hm
      rw [hid]; simp only [Nat.cast_zero, add_zero]; omega
    · intro m hm
      rcases List.mem_cons.mp hm with hm | hm
      · rw [hm, hid]; simp
      · have := hrest.2 m hm
        omega

theorem FileInv.inTree_of_mem {heap : List TreeNode} {f : File} (h : FileInv heap f) :
    ∀ (k i p : Nat), i < k → f.version_map[i]? = some p → InTree heap f.root p := by
  intro k
  induction k with
  | zero => intro i p hi; omega
  | succ k ih =>
    intro i p hi hp
    rcases h.ids i p hp with ⟨n, hn, hid⟩
    have hpm : p ∈ f.version_map := List.getElem?_mem hp
    cases hpar : n.parent with
    | none =>
      have := (h.parent_iff p n hpm hn).mp hpar
      rw [this]
      exact InTree.root
    | some q =>
      rcases h.parent_ok p n q hpm hn hpar with ⟨hq, m, hm, hc, _, hlt⟩
      rcases List.getElem?_of_mem hq with ⟨j, hj⟩
      rcases h.ids j q hj with ⟨m2, hm2, hmid⟩
      rw [hm] at hm2
      cases hm2
      have hji : j < k := by
        rw [hmid, hid] at hlt
        omega
      exact InTree.child q p m (ih j q hji hj) hm hc

/-- In a file that satisfies the invariant, the revisions of the tree are exactly the
members of `version_map`. -/
theorem FileInv.inTree_iff {heap : List TreeNode} {f : File} (h : FileInv heap f) (p : Nat) :
    InTree heap f.root p ↔ p ∈ f.version_map := by
  constructor
  · intro ht
    induction ht with
    | root => exact h.root_mem
    | child q c m _ hm hc ih => exact (h.children_ok q m c ih hm hc).1
  · intro hp
    rcases List.getElem?_of_mem hp with ⟨i, hi⟩
    exact h.inTree_of_mem (i + 1) i p (Nat.lt_succ_self i) hi

theorem FileInv.id_injective {heap : List TreeNode} {f : File} (h : FileInv heap f)
    {p q : Nat} {n m : TreeNode} (hp : p ∈ f.version_map) (hq : q ∈ f.version_map)
    (hn : heap[p]? = some n) (hm : heap[q]? = some m) (hid : n.version_id = m.version_id) :
    p = q := by
  rcases List.getElem?_of_mem hp with ⟨i, hi⟩
  rcases List.getElem?_of_mem hq with ⟨j, hj⟩
  rcases h.ids i p hi with ⟨n2, hn2, hid2⟩
  rcases h.ids j q hj with ⟨m2, hm2, hmid2⟩
  rw [hn] at hn2
  rw [hm] at hm2
  cases hn2
  cases hm2
  have hij : i = j := by
    rw [hid2, hmid2] at hid
    exact_mod_cast hid
  subst hij
  rw [hi] at hj
  exact Option.some.inj hj

/-- C8. In a reachable store, `history` of a registered file prints the header and then,
for each node `n` of `ns`, the line `Version -<n.version_id> (Snapshot) -
<ctime(n.snapshot_timestamp)>Message: <n.message>`, where `ns` holds exactly the
snapshot revisions of the file's tree (all branches), in strictly ascending `version_id`
order, each once (two revisions of the tree never share a `version_id`).  So every
snapshot is reported once with its own `version_id`, `snapshot_timestamp` and `message`.
The output is the same whatever `active_version` is, the store is returned as it was,
and a second call prints the same. -/
theorem history_lists_snapshots (s : System) (filename : String) (ctime : Int → String)
    (fp : Nat) (f : File) (hreach : Reachable s)
    (hfind : s.files.find filename = some fp) (hfile : s.fileHeap[fp]? = some f) :
    ∃ ns : List TreeNode,
      s.history filename ctime =
        some (s, "Version history for file: " ++ filename ++ "\n" ++
          String.join (ns.map (fun n =>
            "Version -" ++ toString n.version_id ++ " (Snapshot) - " ++
              ctime n.snapshot_timestamp ++ "Message: " ++ n.message ++ "\n"))) ∧
      (∀ n, n ∈ ns ↔ ∃ p, InTree s.nodeHeap f.root p ∧ s.nodeHeap[p]? = some n ∧
        n.is_snapshot = true) ∧
      (ns.map (fun n => n.version_id)).Pairwise (fun x y => x < y) ∧
      (∀ n, n ∈ ns → ns.count n = 1) ∧
      (∀ (p q : Nat) (n m : TreeNode), InTree s.nodeHeap f.root p →
        InTree s.nodeHeap f.root q → s.nodeHeap[p]? = some n → s.nodeHeap[q]? = some m →
        n.version_id = m.version_id → p = q) ∧
      (∀ act : Nat,
        System.history { files := s.files,
                         fileHeap := s.fileHeap.set fp { f with active_version := act },
                         nodeHeap := s.nodeHeap } filename ctime =
          some ({ files := s.files,
                  fileHeap := s.fileHeap.set fp { f with active_version := act },
                  nodeHeap := s.nodeHeap },
            "Version history for file: " ++ filename ++ "\n" ++
              String.join (ns.map (fun n =>
                "Version -" ++ toString n.version_id ++ " (Snapshot) - " ++
                  ctime n.snapshot_timestamp ++ "Message: " ++ n.message ++ "\n")))) ∧
      (∀ r, s.history filename ctime = some r → r.1.history filename ctime = some r) := by
  have hinv := hreach.inv
  have hfi := hinv.file_inv fp f hfile
  have hfp : fp < s.fileHeap.length := by
    rcases List.getElem?_eq_some.mp hfile with ⟨h, _⟩; exact h
  have hline : System.historyLine ctime = (fun n : TreeNode =>
      "Version -" ++ toString n.version_id ++ " (Snapshot) - " ++
        ctime n.snapshot_timestamp ++ "Message: " ++ n.message ++ "\n") := by
    funext n
    rfl
  have hns := historyNodes_eq s.nodeHeap f.version_map (fun p hp => hfi.ptr_valid hp)
  have hhist := history_eq s filename ctime fp f _ hfind hfile hns
  have hasc := (ids_ascending s.nodeHeap f.version_map 0
    (by intro i p hi; simpa using hfi.ids i p hi)).1
  have hpw : ((f.version_map.filterMap (fun p => s.nodeHeap[p]?)).filter
      (fun n => n.is_snapshot)).Pairwise (fun n m => n.version_id < m.version_id) :=
    hasc.sublist (List.filter_sublist _)
  refine ⟨_, by rw [← hline]; exact hhist, ?_, ?_, ?_, ?_, ?_, ?_⟩
  · intro n
    simp only [List.mem_filter, List.mem_filterMap]
    constructor
    · rintro ⟨⟨p, hp, hn⟩, hs⟩
      exact ⟨p, (hfi.inTree_iff p).mpr hp, hn, hs⟩
    · rintro ⟨p, hp, hn, hs⟩
      exact ⟨⟨p, (hfi.inTree_iff p).mp hp, hn⟩, hs⟩
  · rw [List.pairwise_map]
    exact hpw
  · intro n hn
    have hnd : ((f.version_map.filterMap (fun p => s.nodeHeap[p]?)).filter
        (fun n => n.is_snapshot)).Nodup :=
      hpw.imp (fun {a b} hab e => by rw [e] at hab; exact lt_irrefl _ hab)
    exact List.count_eq_one_of_mem hnd hn
  · intro p q n m hp hq hn hm hid
    exact hfi.id_injective ((hfi.inTree_iff p).mp hp) ((hfi.inTree_iff q).mp hq) hn hm hid
  · intro act
    rw [← hline]
    exact history_eq _ filename ctime fp { f with active_version := act } _ hfind
      (List.getElem?_set_self hfp) hns
  · intro r hr
    rw [hhist] at hr
    cases hr
    exact hhist

theorem history_lists_snapshots_witness :
    (∃ ns : List TreeNode,
      exForked.history "a.txt" toString =
        some (exForked, "Version history for file: " ++ "a.txt" ++ "\n" ++
          String.join (ns.map (fun n =>
            "Version -" ++ toString n.version_id ++ " (Snapshot) - " ++
              toString n.snapshot_timestamp ++ "Message: " ++ n.message ++ "\n"))) ∧
      (∀ n, n ∈ ns ↔ ∃ p, InTree exForked.nodeHeap 0 p ∧ exForked.nodeHeap[p]? = some n ∧
        n.is_snapshot = true) ∧
      (ns.map (fun n => n.version_id)).Pairwise (fun x y => x < y) ∧
      (∀ n, n ∈ ns → ns.count n = 1) ∧
      (∀ (p q : Nat) (n m : TreeNode), InTree exForked.nodeHeap 0 p →
        InTree exForked.nodeHeap 0 q → exForked.nodeHeap[p]? = some n →
        exForked.nodeHeap[q]? = some m → n.version_id = m.version_id → p = q) ∧
      (∀ act : Nat,
        System.history { files := exForked.files,
                         fileHeap := exForked.fileHeap.set 0
                           (File.mk 0 act [0, 1] 2 "a.txt" 8),
                         nodeHeap := exForked.nodeHeap } "a.txt" toString =
          some ({ files := exForked.files,
                  fileHeap := exForked.fileHeap.set 0 (File.mk 0 act [0, 1] 2 "a.txt" 8),
                  nodeHeap := exForked.nodeHeap },
            "Version history for file: " ++ "a.txt" ++ "\n" ++
              String.join (ns.map (fun n =>
                "Version -" ++ toString n.version_id ++ " (Snapshot) - " ++
                  toString n.snapshot_timestamp ++ "Message: " ++ n.message ++ "\n")))) ∧
      (∀ r, exForked.history "a.txt" toString = some r →
        r.1.history "a.txt" toString = some r)) ∧
    exForked.history "a.txt" toString =
      some (exForked,
        "Version history for file: a.txt\nVersion -0 (Snapshot) - 5Message: v1\n") :=
  ⟨history_lists_snapshots exForked "a.txt" toString 0 (File.mk 0 1 [0, 1] 2 "a.txt" 8)
    reachable_exForked (by decide) (by decide), by decide⟩

/-! ## Load factor of the hash table -/

namespace HashMap

theorem flatten_length_set (x : String × Option Nat) :
    ∀ (t : List (List (String × Option Nat))) (i : Nat), i < t.length →
      (t.set i (t.getD i [] ++ [x])).flatten.length = t.flatten.length + 1 := by
  intro t
  induction t with
  | nil => intro i hi; simp at hi
  | cons b rest ih =>
    intro i hi
    cases i with
    | zero => simp; omega
    | succ j =>
      have := ih j (by simpa using hi)
      simp only [List.set_cons_succ, List.flatten_cons, List.length_append,
        List.getD_cons_succ] at this ⊢
      omega

theorem rehashPush_flatten (cap : Nat) (nt : List (List (String × Option Nat)))
    (p : String × Option Nat) (hlen : nt.length = cap) (hpos : 0 < cap) :
    (rehashPush cap nt p).flatten.length = nt.flatten.length + 1 := by
  unfold rehashPush
  exact flatten_length_set p nt _ (by rw [hlen]; exact Nat.mod_lt _ hpos)

theorem foldBucket_flatten (cap : Nat) (hpos : 0 < cap) (b : List (String × Option Nat)) :
    ∀ nt : List (List (String × Option Nat)), nt.length = cap →
      (b.foldl (rehashPush cap) nt).flatten.length = nt.flatten.length + b.length := by
  induction b with
  | nil => intro nt _; rfl
  | cons p rest ih =>
    intro nt hlen
    simp only [List.foldl_cons, List.length_cons]
    rw [ih _ (by rw [rehashPush_length]; exact hlen), rehashPush_flatten cap nt p hlen hpos]
    omega

theorem foldTable_flatten (cap : Nat) (hpos : 0 < cap)
    (t : List (List (String × Option Nat))) :
    ∀ nt : List (List (String × Option Nat)), nt.length = cap →
      (t.foldl (fun nt bucket => bucket.foldl (rehashPush cap) nt) nt).flatten.length =
        nt.flatten.length + t.flatten.length := by
  induction t with
  | nil => intro nt _; rfl
  | cons b rest ih =>
    intro nt hlen
    simp only [List.foldl_cons, List.flatten_cons, List.length_append]
    rw [ih _ (by rw [foldBucket_length]; exact hlen), foldBucket_flatten cap hpos b nt hlen]
    omega

theorem flatten_replicate_nil (n : Nat) :
    (List.replicate n ([] : List (String × Option Nat))).flatten = [] := by
  induction n with
  | zero => rfl
  | succ k ih => simp [List.replicate_succ, ih]

theorem rehash_flatten_length (m : HashMap) (hpos : 0 < m.table.length) :
    m.rehash.table.flatten.length = m.table.flatten.length := by
  unfold rehash
  simp only []
  rw [foldTable_flatten (m.table.length * 2) (by omega) m.table _ (by simp),
    flatten_replicate_nil]
  simp

theorem pushed_flatten_length (m : HashMap) (k : String) (v : Option Nat)
    (hpos : 0 < m.table.length) :
    (m.pushed k v).table.flatten.length = m.table.flatten.length + 1 := by
  unfold pushed
  exact flatten_length_set (k, v) m.table _ (Nat.mod_lt _ hpos)

theorem insert_eq_pushed (m : HashMap) (k : String) (v : Option Nat) :
    m.insert k v = (m, false) ∨
      (¬ 4 * (m.numElements + 1) > 3 * (m.table.length : Int) ∧
        m.insert k v = (m.pushed k v, true)) ∨
      (4 * (m.numElements + 1) > 3 * (m.table.length : Int) ∧
        m.insert k v = ((m.pushed k v).rehash, true)) := by
  by_cases hb : (m.table.getD (m.hash k) []).any (fun p => p.1 == k) = true
  · left
    unfold insert
    simp only []
    rw [if_pos hb]
  · right
    have hlen : (m.pushed k v).table.length = m.table.length := pushed_length m k v
    by_cases hc : 4 * (m.numElements + 1) > 3 * (m.table.length : Int)
    · right
      refine ⟨hc, ?_⟩
      unfold insert
      simp only []
      rw [if_neg hb]
      change (if 4 * (m.numElements + 1) > 3 * ((m.pushed k v).table.length : Int)
        then ((m.pushed k v).rehash, true) else (m.pushed k v, true)) = _
      rw [hlen, if_pos hc]
    · left
      refine ⟨hc, ?_⟩
      unfold insert
      simp only []
      rw [if_neg hb]
      change (if 4 * (m.numElements + 1) > 3 * ((m.pushed k v).table.length : Int)
        then ((m.pushed k v).rehash, true) else (m.pushed k v, true)) = _
      rw [hlen, if_neg hc]

theorem Load.after_insert {m : HashMap} (h : m.Load) (k : String) (v : Option Nat) :
    (m.insert k v).1.Load := by
  rcases h with ⟨hcount, htwo, hload⟩
  have hpos : 0 < m.table.length := by omega
  rcases insert_eq_pushed m k v with he | ⟨hc, he⟩ | ⟨hc, he⟩
  · rw [he]; exact ⟨hcount, htwo, hload⟩
  · rw [he]
    refine ⟨?_, ?_, ?_⟩
    · rw [pushed_flatten_length m k v hpos]
      show m.numElements + 1 = _
      rw [hcount]; push_cast; rfl
    · rw [pushed_length]; exact htwo
    · rw [pushed_length]
      show 4 * (m.numElements + 1) ≤ _
      omega
  · rw [he]
    have hpos2 : 0 < (m.pushed k v).table.length := by rw [pushed_length]; exact hpos
    refine ⟨?_, ?_, ?_⟩
    · rw [rehash_flatten_length _ hpos2, pushed_flatten_length m k v hpos]
      show m.numElements + 1 = _
      rw [hcount]; push_cast; rfl
    · rw [rehash_length, pushed_length]; omega
    · rw [rehash_length, pushed_length]
      show 4 * (m.numElements + 1) ≤ _
      push_cast
      omega

theorem empty_load : empty.Load := by
  refine ⟨?_, by decide, by decide⟩
  show (0 : Int) = _
  rw [show empty.table = List.replicate 8 [] from rfl, flatten_replicate_nil]
  rfl

theorem insertAll_load (kvs : List (String × Option Nat)) :
    ∀ m : HashMap, m.Load → (m.insertAll kvs).Load := by
  induction kvs with
  | nil => intro m h; exact h
  | cons kv rest ih => intro m h; exact ih _ (h.after_insert kv.1 kv.2)

end HashMap

/-- C11. After every sequence of `HashMap::insert` calls on a fresh `HashMap` (8
buckets, no element) the load factor is at most 0.75, that is
`4 * numElements ≤ 3 * table.size()`, where `numElements` is the number of stored pairs;
and one more insert leaves the bucket count as it was or doubles it once. -/
theorem load_factor_bound (kvs : List (String × Option Nat)) :
    HashMap.empty.table.length = 8 ∧ HashMap.empty.numElements = 0 ∧
    4 * (HashMap.empty.insertAll kvs).numElements ≤
      3 * ((HashMap.empty.insertAll kvs).table.length : Int) ∧
    (HashMap.empty.insertAll kvs).numElements =
      ((HashMap.empty.insertAll kvs).table.flatten.length : Int) ∧
    (∀ (k : String) (v : Option Nat),
      ((HashMap.empty.insertAll kvs).insert k v).1.table.length =
          (HashMap.empty.insertAll kvs).table.length ∨
      ((HashMap.empty.insertAll kvs).insert k v).1.table.length =
          (HashMap.empty.insertAll kvs).table.length * 2) := by
  have h := HashMap.insertAll_load kvs HashMap.empty HashMap.empty_load
  refine ⟨by decide, rfl, h.2.2, h.1, ?_⟩
  intro k v
  rcases HashMap.insert_eq_pushed (HashMap.empty.insertAll kvs) k v with
    he | ⟨_, he⟩ | ⟨_, he⟩
  · left; rw [he]
  · left; rw [he]; exact HashMap.pushed_length _ k v
  · right; rw [he, HashMap.rehash_length, HashMap.pushed_length]

/-! ## The shape of one step -/

/-- Whatever the store, an operation that returns leaves it as it was, forks the
addressed file, overwrites the (non-snapshot) active node of the addressed file keeping
its shape, moves `active_version` of the addressed file, or registers a new file. -/
theorem exec_shape (s : System) (op : Op) (s1 : System) (out : String)
    (h : s.exec op = some (s1, out)) :
    s1 = s ∨
    (∃ fp f a c tNode tMod, s.files.find op.target = some fp ∧ s.fileHeap[fp]? = some f ∧
      s.nodeHeap[f.active_version]? = some a ∧ a.is_snapshot = true ∧
      s1 = forkState s fp f a c tNode tMod) ∨
    (∃ fp f a a1 tMod, s.files.find op.target = some fp ∧ s.fileHeap[fp]? = some f ∧
      s.nodeHeap[f.active_version]? = some a ∧ a.is_snapshot = false ∧ SameShape a a1 ∧
      s1 = mutState s fp f a1 tMod) ∨
    (∃ fp f p, s.files.find op.target = some fp ∧ s.fileHeap[fp]? = some f ∧
      s1 = moveState s fp f p) ∨
    (∃ tNode tFile, s.files.find op.target = none ∧
      s1 = createState s op.target tNode tFile) := by
  cases op with
  | create filename tNode tFile =>
    change s.create filename tNode tFile = _ at h
    cases hfind : s.files.find filename with
    | some fp =>
      rw [create_exists_eq s filename tNode tFile fp hfind] at h
      cases h; exact Or.inl rfl
    | none =>
      rw [create_new_eq s filename tNode tFile hfind] at h
      cases h
      exact Or.inr (Or.inr (Or.inr (Or.inr ⟨tNode, tFile, hfind, rfl⟩)))
  | read filename =>
    change s.read filename = _ at h
    cases hfind : s.files.find filename with
    | none => rw [(not_found_eq s filename hfind).1] at h; cases h; exact Or.inl rfl
    | some fp =>
      cases hfile : s.fileHeap[fp]? with
      | none => simp [System.read, hfind, hfile] at h
      | some f =>
        cases hact : s.nodeHeap[f.active_version]? with
        | none => simp [System.read, hfind, hfile, hact] at h
        | some a =>
          rw [read_eq s filename fp f a hfind hfile hact] at h
          cases h; exact Or.inl rfl
  | insert filename content tNode tMod =>
    change s.insert filename content tNode tMod = _ at h
    cases hfind : s.files.find filename with
    | none =>
      rw [(not_found_eq s filename hfind).2.1] at h; cases h; exact Or.inl rfl
    | some fp =>
      cases hfile : s.fileHeap[fp]? with
      | none => simp [System.insert, hfind, hfile] at h
      | some f =>
        cases hact : s.nodeHeap[f.active_version]? with
        | none => simp [System.insert, hfind, hfile, hact] at h
        | some a =>
          cases hsnap : a.is_snapshot with
          | true =>
            rw [insert_fork_eq s filename content tNode tMod fp f a hfind hfile hact hsnap] at h
            cases h
            exact Or.inr (Or.inl ⟨fp, f, a, _, tNode, tMod, hfind, hfile, hact, hsnap, rfl⟩)
          | false =>
            rw [insert_mut_eq s filename content tNode tMod fp f a hfind hfile hact hsnap] at h
            cases h
            exact Or.inr (Or.inr (Or.inl ⟨fp, f, a, { a with content := a.content ++ content },
              tMod, hfind, hfile, hact, hsnap, ⟨rfl, rfl, rfl, id⟩, rfl⟩))
  | update filename content tNode tMod =>
    change s.update filename content tNode tMod = _ at h
    cases hfind : s.files.find filename with
    | none =>
      rw [(not_found_eq s filename hfind).2.2.1] at h; cases h; exact Or.inl rfl
    | some fp =>
      cases hfile : s.fileHeap[fp]? with
      | none => simp [System.update, hfind, hfile] at h
      | some f =>
        cases hact : s.nodeHeap[f.active_version]? with
        | none => simp [System.update, hfind, hfile, hact] at h
        | some a =>
          cases hsnap : a.is_snapshot with
          | true =>
            rw [update_fork_eq s filename content tNode tMod fp f a hfind hfile hact hsnap] at h
            cases h
            exact Or.inr (Or.inl ⟨fp, f, a, _, tNode, tMod, hfind, hfile, hact, hsnap, rfl⟩)
          | false =>
            rw [update_mut_eq s filename content tNode tMod fp f a hfind hfile hact hsnap] at h
            cases h
            exact Or.inr (Or.inr (Or.inl ⟨fp, f, a, { a with content := content },
              tMod, hfind, hfile, hact, hsnap, ⟨rfl, rfl, rfl, id⟩, rfl⟩))
  | snapshot filename message tSnap tMod =>
    change s.snapshot filename message tSnap tMod = _ at h
    cases hfind : s.files.find filename with
    | none =>
      rw [(not_found_eq s filename hfind).2.2.2.1] at h; cases h; exact Or.inl rfl
    | some fp =>
      cases hfile : s.fileHeap[fp]? with
      | none => simp [System.snapshot, hfind, hfile] at h
      | some f =>
        cases hact : s.nodeHeap[f.active_version]? with
        | none => simp [System.snapshot, hfind, hfile, hact] at h
        | some a =>
          cases hsnap : a.is_snapshot with
          | true =>
            rw [snapshot_already_eq s filename message tSnap tMod fp f a hfind hfile hact
              hsnap] at h
            cases h; exact Or.inl rfl
          | false =>
            rw [snapshot_mut_eq s filename message tSnap tMod fp f a hfind hfile hact hsnap] at h
            cases h
            exact Or.inr (Or.inr (Or.inl ⟨fp, f, a,
              { a with message := message, is_snapshot := true, snapshot_timestamp := tSnap },
              tMod, hfind, hfile, hact, hsnap, ⟨rfl, rfl, rfl, fun _ => rfl⟩, rfl⟩))
  | rollback filename version_id =>
    change s.rollback filename version_id = _ at h
    cases hfind : s.files.find filename with
    | none =>
      rw [(not_found_eq s filename hfind).2.2.2.2.1] at h; cases h; exact Or.inl rfl
    | some fp =>
      cases hfile : s.fileHeap[fp]? with
      | none => simp [System.rollback, hfind, hfile] at h
      | some f =>
        by_cases hv : version_id = -1
        · subst hv
          cases hact : s.nodeHeap[f.active_version]? with
          | none => simp [System.rollback, hfind, hfile, hact] at h
          | some a =>
            cases hpar : a.parent with
            | none =>
              rw [rollback_root_eq s filename fp f a hfind hfile hact hpar] at h
              cases h; exact Or.inl rfl
            | some p =>
              rw [rollback_parent_eq s filename fp f a p hfind hfile hact hpar] at h
              cases h
              exact Or.inr (Or.inr (Or.inr (Or.inl ⟨fp, f, p, hfind, hfile, rfl⟩)))
        · by_cases hout : version_id < 0 ∨ version_id ≥ f.total_versions
          · rw [rollback_invalid_eq s filename version_id fp f hfind hfile hv hout] at h
            cases h; exact Or.inl rfl
          · cases hscan : System.scanVersion s.nodeHeap version_id f.version_map with
            | none => simp [System.rollback, hfind, hfile, hv, hout, hscan] at h
            | some r =>
              cases r with
              | none =>
                simp only [System.rollback, hfind, hfile, hv, if_false, hout, hscan,
                  Option.some.injEq, Prod.mk.injEq] at h
                exact Or.inl h.1.symm
              | some target =>
                rw [rollback_target_eq s filename version_id fp f target hfind hfile
                  (by omega) (by omega) hscan] at h
                cases h
                exact Or.inr (Or.inr (Or.inr (Or.inl ⟨fp, f, target, hfind, hfile, rfl⟩)))
  | history filename ctime =>
    change s.history filename ctime = _ at h
    cases hfind : s.files.find filename with
    | none =>
      rw [(not_found_eq s filename hfind).2.2.2.2.2] at h; cases h; exact Or.inl rfl
    | some fp =>
      cases hfile : s.fileHeap[fp]? with
      | none => simp [System.history, hfind, hfile] at h
      | some f =>
        cases hns : System.historyNodes s.nodeHeap f.version_map with
        | none => simp [System.history, hfind, hfile, hns] at h
        | some ns =>
          rw [history_eq s filename ctime fp f ns hfind hfile hns] at h
          cases h; exact Or.inl rfl

/-! ## Unregistered names -/

/-- C13. When the name is not registered (`find` returns `nullptr`), `read`, `insert`,
`update`, `snapshot`, `rollback` (with any version id, the default `-1` included) and
`history` print the file-not-found error and return the store as it was.  In a
reachable store `find` returns `nullptr` exactly for the keys that are not in the
table. -/
theorem unregistered_name_is_rejected (s : System) (filename : String)
    (hfind : s.files.find filename = none) :
    s.read filename = some (s, System.msgNotFound filename) ∧
    (∀ content tNode tMod,
      s.insert filename content tNode tMod = some (s, System.msgNotFound filename)) ∧
    (∀ content tNode tMod,
      s.update filename content tNode tMod = some (s, System.msgNotFound filename)) ∧
    (∀ message tSnap tMod,
      s.snapshot filename message tSnap tMod = some (s, System.msgNotFound filename)) ∧
    (∀ version_id,
      s.rollback filename version_id = some (s, System.msgNotFound filename)) ∧
    (∀ ctime, s.history filename ctime = some (s, System.msgNotFound filename)) ∧
    (Reachable s → s.files.present filename = false) :=
  ⟨(not_found_eq s filename hfind).1, (not_found_eq s filename hfind).2.1,
    (not_found_eq s filename hfind).2.2.1, (not_found_eq s filename hfind).2.2.2.1,
    (not_found_eq s filename hfind).2.2.2.2.1, (not_found_eq s filename hfind).2.2.2.2.2,
    fun hreach => hreach.inv.absent_of_find_none hfind⟩

theorem unregistered_name_is_rejected_witness :
    exForked.read "b.txt" = some (exForked, System.msgNotFound "b.txt") ∧
    (∀ content tNode tMod,
      exForked.insert "b.txt" content tNode tMod =
        some (exForked, System.msgNotFound "b.txt")) ∧
    (∀ content tNode tMod,
      exForked.update "b.txt" content tNode tMod =
        some (exForked, System.msgNotFound "b.txt")) ∧
    (∀ message tSnap tMod,
      exForked.snapshot "b.txt" message tSnap tMod =
        some (exForked, System.msgNotFound "b.txt")) ∧
    (∀ version_id,
      exForked.rollback "b.txt" version_id = some (exForked, System.msgNotFound "b.txt")) ∧
    (∀ ctime, exForked.history "b.txt" ctime =
      some (exForked, System.msgNotFound "b.txt")) ∧
    (Reachable exForked → exForked.files.present "b.txt" = false) :=
  unregistered_name_is_rejected exForked "b.txt" (by decide)

/-! ## Snapshots are immutable -/

theorem Frozen.of_snapshot (n : TreeNode) (h : n.is_snapshot = true) : Frozen n n :=
  ⟨h, rfl, rfl, rfl⟩

theorem Frozen.trans {n n1 n2 : TreeNode} (h1 : Frozen n n1) (h2 : Frozen n1 n2) :
    Frozen n n2 :=
  ⟨h2.1, h2.2.1.trans h1.2.1, h2.2.2.1.trans h1.2.2.1, h2.2.2.2.trans h1.2.2.2⟩

theorem exec_keeps_snapshot (s : System) (op : Op) (s1 : System) (out : String)
    (h : s.exec op = some (s1, out)) (p : Nat) (n : TreeNode)
    (hn : s.nodeHeap[p]? = some n) (hs : n.is_snapshot = true) :
    ∃ n1, s1.nodeHeap[p]? = some n1 ∧ Frozen n n1 := by
  have hlt : p < s.nodeHeap.length := by
    rcases List.getElem?_eq_some.mp hn with ⟨h, _⟩; exact h
  rcases exec_shape s op s1 out h with he | ⟨fp, f, a, c, tNode, tMod, _, hfile, hact, _, he⟩ |
    ⟨fp, f, a, a1, tMod, _, hfile, hact, hmut, _, he⟩ | ⟨fp, f, q, _, _, he⟩ |
    ⟨tNode, tFile, _, he⟩
  · subst he; exact ⟨n, hn, Frozen.of_snapshot n hs⟩
  · subst he
    have post := forkState_post s fp f a c tNode tMod hfile hact
    by_cases hp : p = f.active_version
    · subst hp
      rw [hact] at hn
      cases hn
      exact ⟨_, post.old_active, hs, rfl, rfl, rfl⟩
    · exact ⟨n, by rw [post.other_nodes p hp hlt]; exact hn, Frozen.of_snapshot n hs⟩
  · subst he
    have post := mutState_post s fp f a a1 tMod hfile hact
    have hp : p ≠ f.active_version := by
      intro e
      subst e
      rw [hact] at hn
      cases hn
      rw [hs] at hmut
      cases hmut
    exact ⟨n, by rw [post.other_nodes p hp]; exact hn, Frozen.of_snapshot n hs⟩
  · subst he; exact ⟨n, hn, Frozen.of_snapshot n hs⟩
  · subst he
    refine ⟨n, ?_, Frozen.of_snapshot n hs⟩
    show (s.nodeHeap ++ _)[p]? = _
    rw [List.getElem?_append_left hlt]; exact hn

theorem run_keeps_snapshot (ops : List Op) :
    ∀ (s s1 : System), s.run ops = some s1 → ∀ (p : Nat) (n : TreeNode),
      s.nodeHeap[p]? = some n → n.is_snapshot = true →
      ∃ n1, s1.nodeHeap[p]? = some n1 ∧ Frozen n n1 := by
  induction ops with
  | nil =>
    intro s s1 h p n hn hs
    cases h
    exact ⟨n, hn, Frozen.of_snapshot n hs⟩
  | cons op rest ih =>
    intro s s1 h p n hn hs
    simp only [System.run] at h
    cases he : s.exec op with
    | none => rw [he] at h; cases h
    | some r =>
      rw [he] at h
      rcases exec_keeps_snapshot s op r.1 r.2 he p n hn hs with ⟨n1, hn1, hf1⟩
      rcases ih r.1 s1 h p n1 hn1 hf1.1 with ⟨n2, hn2, hf2⟩
      exact ⟨n2, hn2, hf1.trans hf2⟩

/-- C14. A node that is a snapshot is still a snapshot after any single operation
(`create`, `read`, `insert`, `update`, `snapshot`, `rollback`, `history`, with any
arguments), with the same content, message and `snapshot_timestamp`; hence also after
any sequence of operations. -/
theorem snapshot_is_immutable (s : System) (p : Nat) (n : TreeNode)
    (hn : s.nodeHeap[p]? = some n) (hs : n.is_snapshot = true) :
    (∀ (op : Op) (s1 : System) (out : String), s.exec op = some (s1, out) →
      ∃ n1, s1.nodeHeap[p]? = some n1 ∧ Frozen n n1) ∧
    (∀ (ops : List Op) (s1 : System), s.run ops = some s1 →
      ∃ n1, s1.nodeHeap[p]? = some n1 ∧ Frozen n n1) :=
  ⟨fun op s1 out h => exec_keeps_snapshot s op s1 out h p n hn hs,
   fun ops s1 h => run_keeps_snapshot ops s s1 h p n hn hs⟩

theorem snapshot_is_immutable_witness :
    ∃ n1, exForked.nodeHeap[0]? = some n1 ∧
      Frozen (TreeNode.mk 0 "hello" "v1" 1 5 none [] true) n1 :=
  (snapshot_is_immutable exSnapshotted 0 (TreeNode.mk 0 "hello" "v1" 1 5 none [] true)
    (by decide) (by decide)).1 (.insert "a.txt" " world" 7 8) exForked System.msgInserted
    (by decide)

/-! ## Create -/

/-- C12. In a reachable store, `create(name)` on a registered name prints the
already-exists error and returns the store as it was, and that name belongs to exactly
one `File`; on an unregistered name it registers a new `File` (one new file, one new
node, the rest of both arenas as it was) whose root has `version_id` 0, is not a
snapshot, has empty content and message and no parent, with `active_version = root`,
`total_versions = 1` and `version_map = [root]`, and `read(name)` right after prints
the empty content. -/
theorem create_contract (s : System) (filename : String) (tNode tFile : Int)
    (hreach : Reachable s) :
    (∀ fp, s.files.find filename = some fp →
      s.create filename tNode tFile = some (s, System.msgExists filename) ∧
      (∃ f, s.fileHeap[fp]? = some f ∧ f.filename = filename) ∧
      (∀ (q : Nat) (g : File), s.fileHeap[q]? = some g → g.filename = filename → q = fp)) ∧
    (s.files.find filename = none →
      ∃ s1, s.create filename tNode tFile = some (s1, System.msgCreated filename) ∧
        s1.files.find filename = some s.fileHeap.length ∧
        s1.fileHeap = s.fileHeap ++
          [{ root := s.nodeHeap.length, active_version := s.nodeHeap.length,
             version_map := [s.nodeHeap.length], total_versions := 1,
             filename := filename, last_modified := tFile }] ∧
        s1.nodeHeap = s.nodeHeap ++
          [{ version_id := 0, content := "", message := "", created_timestamp := tNode,
             snapshot_timestamp := 0, parent := none, children := [],
             is_snapshot := false }] ∧
        s1.read filename = some (s1, "" ++ "\n")) := by
  have hinv := hreach.inv
  constructor
  · intro fp hfind
    refine ⟨create_exists_eq s filename tNode tFile fp hfind,
      hinv.find_valid filename fp hfind, ?_⟩
    intro q g hg hname
    have := hinv.registered q g hg
    rw [hname, hfind] at this
    exact (Option.some.inj this).symm
  · intro hfind
    have habs := hinv.absent_of_find_none hfind
    have hfind1 : (createState s filename tNode tFile).files.find filename =
        some s.fileHeap.length := by
      show (s.files.insert filename (some s.fileHeap.length)).1.find filename = _
      rw [hinv.map_wf.find_insert]
      simp [habs]
    refine ⟨createState s filename tNode tFile, create_new_eq s filename tNode tFile hfind,
      hfind1, rfl, rfl, ?_⟩
    exact read_eq (createState s filename tNode tFile) filename s.fileHeap.length
      (File.new filename s.nodeHeap.length tFile) (TreeNode.new 0 "" none tNode) hfind1
      (List.getElem?_concat_length _ _) (List.getElem?_concat_length _ _)

theorem create_contract_witness :
    (exForked.create "a.txt" 9 10 = some (exForked, System.msgExists "a.txt") ∧
      (∃ f, exForked.fileHeap[0]? = some f ∧ f.filename = "a.txt") ∧
      (∀ (q : Nat) (g : File), exForked.fileHeap[q]? = some g → g.filename = "a.txt" →
        q = 0)) ∧
    (∃ s1, exForked.create "b.txt" 9 10 = some (s1, System.msgCreated "b.txt") ∧
        s1.files.find "b.txt" = some 1 ∧
        s1.fileHeap = exForked.fileHeap ++ [File.mk 2 2 [2] 1 "b.txt" 10] ∧
        s1.nodeHeap = exForked.nodeHeap ++ [TreeNode.mk 0 "" "" 9 0 none [] false] ∧
        s1.read "b.txt" = some (s1, "" ++ "\n")) :=
  ⟨(create_contract exForked "a.txt" 9 10 reachable_exForked).1 0 (by decide),
   (create_contract exForked "b.txt" 9 10 reachable_exForked).2 (by decide)⟩

/-! ## The end-to-end scenario -/

/-- C15. From the empty store, whatever the clock shows, `create a.txt`,
`insert hello`, `snapshot v1`, `insert " world"`, `rollback 0`, `read` all succeed:
after the first insert the active content is `hello`; after the snapshot revision 0 is
active and a snapshot; the second insert forks revision 1 (`total_versions = 2`,
content `hello world`, child of revision 0); the rollback puts revision 0 back and the
final read prints `hello`. -/
theorem end_to_end (t1 t2 t3 t4 t5 t6 t7 t8 : Int) :
    ∃ s1 s2 s3 s4 s5 : System,
      System.init.create "a.txt" t1 t2 = some (s1, System.msgCreated "a.txt") ∧
      s1.insert "a.txt" "hello" t3 t4 = some (s2, System.msgInserted) ∧
      s2.fileHeap = [File.mk 0 0 [0] 1 "a.txt" t4] ∧
      s2.nodeHeap = [TreeNode.mk 0 "hello" "" t1 0 none [] false] ∧
      s2.snapshot "a.txt" "v1" t5 t6 = some (s3, System.msgSnapshot "v1") ∧
      s3.fileHeap = [File.mk 0 0 [0] 1 "a.txt" t6] ∧
      s3.nodeHeap = [TreeNode.mk 0 "hello" "v1" t1 t5 none [] true] ∧
      s3.insert "a.txt" " world" t7 t8 = some (s4, System.msgInserted) ∧
      s4.fileHeap = [File.mk 0 1 [0, 1] 2 "a.txt" t8] ∧
      s4.nodeHeap = [TreeNode.mk 0 "hello" "v1" t1 t5 none [1] true,
                     TreeNode.mk 1 "hello world" "" t7 0 (some 0) [] false] ∧
      s4.rollback "a.txt" 0 = some (s5, System.msgRolledTo 0) ∧
      s5.fileHeap = [File.mk 0 0 [0, 1] 2 "a.txt" t8] ∧
      s5.nodeHeap = s4.nodeHeap ∧
      s5.read "a.txt" = some (s5, "hello\n") := by
  have hfind : exForked.files.find "a.txt" = some 0 := by decide
  have hnew : System.init.files.find "a.txt" = none := by decide
  have hmap : (System.init.files.insert "a.txt" (some 0)).1 = exForked.files := by decide
  refine ⟨⟨exForked.files, [File.mk 0 0 [0] 1 "a.txt" t2],
      [TreeNode.mk 0 "" "" t1 0 none [] false]⟩,
    ⟨exForked.files, [File.mk 0 0 [0] 1 "a.txt" t4],
      [TreeNode.mk 0 "hello" "" t1 0 none [] false]⟩,
    ⟨exForked.files, [File.mk 0 0 [0] 1 "a.txt" t6],
      [TreeNode.mk 0 "hello" "v1" t1 t5 none [] true]⟩,
    ⟨exForked.files, [File.mk 0 1 [0, 1] 2 "a.txt" t8],
      [TreeNode.mk 0 "hello" "v1" t1 t5 none [1] true,
       TreeNode.mk 1 "hello world" "" t7 0 (some 0) [] false]⟩,
    ⟨exForked.files, [File.mk 0 0 [0, 1] 2 "a.txt" t8],
      [TreeNode.mk 0 "hello" "v1" t1 t5 none [1] true,
       TreeNode.mk 1 "hello world" "" t7 0 (some 0) [] false]⟩,
    ?_, ?_, rfl, rfl, ?_, rfl, rfl, ?_, rfl, rfl, ?_, rfl, rfl, ?_⟩
  · rw [create_new_eq System.init "a.txt" t1 t2 hnew]
    show some (System.mk (System.init.files.insert "a.txt" (some 0)).1 _ _, _) = _
    rw [hmap]
    rfl
  · exact (insert_mut_eq (System.mk exForked.files [File.mk 0 0 [0] 1 "a.txt" t2]
      [TreeNode.mk 0 "" "" t1 0 none [] false]) "a.txt" "hello" t3 t4 0 (File.mk 0 0 [0] 1 "a.txt" t2)
      (TreeNode.mk 0 "" "" t1 0 none [] false) hfind rfl rfl rfl).trans rfl
  · exact (snapshot_mut_eq (System.mk exForked.files [File.mk 0 0 [0] 1 "a.txt" t4]
      [TreeNode.mk 0 "hello" "" t1 0 none [] false]) "a.txt" "v1" t5 t6 0 (File.mk 0 0 [0] 1 "a.txt" t4)
      (TreeNode.mk 0 "hello" "" t1 0 none [] false) hfind rfl rfl rfl).trans rfl
  · exact (insert_fork_eq (System.mk exForked.files [File.mk 0 0 [0] 1 "a.txt" t6]
      [TreeNode.mk 0 "hello" "v1" t1 t5 none [] true]) "a.txt" " world" t7 t8 0 (File.mk 0 0 [0] 1 "a.txt" t6)
      (TreeNode.mk 0 "hello" "v1" t1 t5 none [] true) hfind rfl rfl rfl).trans rfl
  · exact (rollback_target_eq (System.mk exForked.files [File.mk 0 1 [0, 1] 2 "a.txt" t8]
      [TreeNode.mk 0 "hello" "v1" t1 t5 none [1] true,
       TreeNode.mk 1 "hello world" "" t7 0 (some 0) [] false]) "a.txt" 0 0 (File.mk 0 1 [0, 1] 2 "a.txt" t8) 0 hfind rfl
      (le_refl 0) (show (0 : Int) < 2 by decide) rfl).trans rfl
  · exact (read_eq (System.mk exForked.files [File.mk 0 0 [0, 1] 2 "a.txt" t8]
      [TreeNode.mk 0 "hello" "v1" t1 t5 none [1] true,
       TreeNode.mk 1 "hello world" "" t7 0 (some 0) [] false]) "a.txt" 0 (File.mk 0 0 [0, 1] 2 "a.txt" t8)
      (TreeNode.mk 0 "hello" "v1" t1 t5 none [1] true) hfind rfl rfl).trans rfl

theorem exec_file_name (s : System) (op : Op) (s1 : System) (out : String)
    (h : s.exec op = some (s1, out)) (fq : Nat) (g g1 : File)
    (hg : s.fileHeap[fq]? = some g) (hg1 : s1.fileHeap[fq]? = some g1) :
    g1.filename = g.filename := by
  have hlt : fq < s.fileHeap.length := by
    rcases List.getElem?_eq_some.mp hg with ⟨h, _⟩; exact h
  rcases exec_shape s op s1 out h with he | ⟨fp, f, a, c, tNode, tMod, _, hfile, hact, _, he⟩ |
    ⟨fp, f, a, a1, tMod, _, hfile, hact, _, _, he⟩ | ⟨fp, f, q, _, hfile, he⟩ |
    ⟨tNode, tFile, _, he⟩
  · subst he; rw [hg] at hg1; cases hg1; rfl
  · subst he
    have post := forkState_post s fp f a c tNode tMod hfile hact
    by_cases hq : fq = fp
    · subst hq
      rw [hfile] at hg
      rw [post.file] at hg1
      cases hg; cases hg1; rfl
    · rw [post.other_files fq hq, hg] at hg1; cases hg1; rfl
  · subst he
    have post := mutState_post s fp f a a1 tMod hfile hact
    by_cases hq : fq = fp
    · subst hq
      rw [hfile] at hg
      rw [post.file] at hg1
      cases hg; cases hg1; rfl
    · rw [post.other_files fq hq, hg] at hg1; cases hg1; rfl
  · subst he
    change (s.fileHeap.set fp _)[fq]? = _ at hg1
    by_cases hq : fq = fp
    · subst hq
      rw [hfile] at hg
      rw [List.getElem?_set_self hlt] at hg1
      cases hg; cases hg1; rfl
    · rw [List.getElem?_set_ne (Ne.symm hq), hg] at hg1; cases hg1; rfl
  · subst he
    change (s.fileHeap ++ _)[fq]? = _ at hg1
    rw [List.getElem?_append_left hlt, hg] at hg1; cases hg1; rfl

/-! ## Version ids -/

theorem exec_file_prefix (s : System) (op : Op) (s1 : System) (out : String)
    (h : s.exec op = some (s1, out)) (fq : Nat) (g : File)
    (hg : s.fileHeap[fq]? = some g) :
    ∃ g1, s1.fileHeap[fq]? = some g1 ∧ g.version_map <+: g1.version_map := by
  have hlt : fq < s.fileHeap.length := by
    rcases List.getElem?_eq_some.mp hg with ⟨h, _⟩; exact h
  rcases exec_shape s op s1 out h with he | ⟨fp, f, a, c, tNode, tMod, _, hfile, hact, _, he⟩ |
    ⟨fp, f, a, a1, tMod, _, hfile, hact, _, _, he⟩ | ⟨fp, f, q, _, hfile, he⟩ |
    ⟨tNode, tFile, _, he⟩
  · subst he; exact ⟨g, hg, List.prefix_refl _⟩
  · subst he
    have post := forkState_post s fp f a c tNode tMod hfile hact
    by_cases hq : fq = fp
    · subst hq
      rw [hfile] at hg
      cases hg
      exact ⟨_, post.file, List.prefix_append _ _⟩
    · exact ⟨g, by rw [post.other_files fq hq]; exact hg, List.prefix_refl _⟩
  · subst he
    have post := mutState_post s fp f a a1 tMod hfile hact
    by_cases hq : fq = fp
    · subst hq
      rw [hfile] at hg
      cases hg
      exact ⟨_, post.file, List.prefix_refl _⟩
    · exact ⟨g, by rw [post.other_files fq hq]; exact hg, List.prefix_refl _⟩
  · subst he
    by_cases hq : fq = fp
    · subst hq
      rw [hfile] at hg
      cases hg
      exact ⟨{ g with active_version := q }, List.getElem?_set_self hlt, List.prefix_refl _⟩
    · refine ⟨g, ?_, List.prefix_refl _⟩
      show (s.fileHeap.set fp _)[fq]? = _
      rw [List.getElem?_set_ne (Ne.symm hq)]; exact hg
  · subst he
    refine ⟨g, ?_, List.prefix_refl _⟩
    show (s.fileHeap ++ _)[fq]? = _
    rw [List.getElem?_append_left hlt]; exact hg

/-- C17. In a reachable store, for every registered file: `total_versions` is the
length of `version_map`; for every `i` below it the node `version_map[i]` has
`version_id = i`; every node of `version_map` has its `version_id` in
`[0, total_versions)` and two of them never share one; and every operation leaves the
old `version_map` as a prefix of the new one. -/
theorem version_ids_dense (s : System) (filename : String) (fp : Nat) (f : File)
    (hreach : Reachable s) (hfind : s.files.find filename = some fp)
    (hfile : s.fileHeap[fp]? = some f) :
    f.total_versions = (f.version_map.length : Int) ∧
    (∀ i : Nat, (i : Int) < f.total_versions →
      ∃ p n, f.version_map[i]? = some p ∧ s.nodeHeap[p]? = some n ∧ n.version_id = i) ∧
    (∀ p, p ∈ f.version_map → ∃ n, s.nodeHeap[p]? = some n ∧
      0 ≤ n.version_id ∧ n.version_id < f.total_versions ∧
      f.version_map[n.version_id.toNat]? = some p) ∧
    (∀ (p q : Nat) (n m : TreeNode), p ∈ f.version_map → q ∈ f.version_map →
      s.nodeHeap[p]? = some n → s.nodeHeap[q]? = some m → n.version_id = m.version_id →
      p = q) ∧
    (∀ (op : Op) (s1 : System) (out : String), s.exec op = some (s1, out) →
      ∃ f1, s1.files.find filename = some fp ∧ s1.fileHeap[fp]? = some f1 ∧
        f.version_map <+: f1.version_map) := by
  have hinv := hreach.inv
  have hfi := hinv.file_inv fp f hfile
  refine ⟨hfi.total, ?_, ?_, ?_, ?_⟩
  · intro i hi
    have hlt : i < f.version_map.length := by
      have := hfi.total
      omega
    rcases hfi.ids i _ (List.getElem?_eq_getElem hlt) with ⟨n, hn, hid⟩
    exact ⟨_, n, List.getElem?_eq_getElem hlt, hn, hid⟩
  · intro p hp
    rcases List.getElem?_of_mem hp with ⟨i, hi⟩
    rcases hfi.ids i p hi with ⟨n, hn, hid⟩
    have hlt : i < f.version_map.length := by
      rcases List.getElem?_eq_some.mp hi with ⟨h, _⟩; exact h
    refine ⟨n, hn, by omega, by rw [hid, hfi.total]; exact_mod_cast hlt, ?_⟩
    rw [hid]
    simpa using hi
  · intro p q n m hp hq hn hm hid
    exact hfi.id_injective hp hq hn hm hid
  · intro op s1 out he
    rcases exec_file_prefix s op s1 out he fp f hfile with ⟨f1, hf1, hpre⟩
    have hinv1 : SysInv s1 := (hreach.step op he).inv
    have hname : f1.filename = filename := by
      rcases exec_file_name s op s1 out he fp f f1 hfile hf1 with hn
      rw [hn]
      rcases hinv.find_valid filename fp hfind with ⟨f2, hf2, hn2⟩
      rw [hfile] at hf2
      cases hf2
      exact hn2
    have := hinv1.registered fp f1 hf1
    rw [hname] at this
    exact ⟨f1, this, hf1, hpre⟩

theorem version_ids_dense_witness :
    (2 : Int) = (([0, 1] : List Nat).length : Int) ∧
    (∀ i : Nat, (i : Int) < 2 →
      ∃ (p : Nat) (n : TreeNode), ([0, 1] : List Nat)[i]? = some p ∧
        exForked.nodeHeap[p]? = some n ∧ n.version_id = (i : Int)) ∧
    (∀ p, p ∈ ([0, 1] : List Nat) → ∃ n : TreeNode, exForked.nodeHeap[p]? = some n ∧
      0 ≤ n.version_id ∧ n.version_id < 2 ∧
      ([0, 1] : List Nat)[n.version_id.toNat]? = some p) ∧
    (∀ (p q : Nat) (n m : TreeNode), p ∈ ([0, 1] : List Nat) → q ∈ ([0, 1] : List Nat) →
      exForked.nodeHeap[p]? = some n → exForked.nodeHeap[q]? = some m →
      n.version_id = m.version_id → p = q) ∧
    (∀ (op : Op) (s1 : System) (out : String), exForked.exec op = some (s1, out) →
      ∃ f1, s1.files.find "a.txt" = some 0 ∧ s1.fileHeap[0]? = some f1 ∧
        ([0, 1] : List Nat) <+: f1.version_map) :=
  version_ids_dense exForked "a.txt" 0 (File.mk 0 1 [0, 1] 2 "a.txt" 8) reachable_exForked
    (by decide) (by decide)

/-! ## Shape of the revision tree -/

theorem run_opsBranched : System.init.run opsBranched = some exBranched := by decide

theorem reachable_exBranched : Reachable exBranched := ⟨opsBranched, run_opsBranched⟩

/-- C18. In a reachable store, for every registered file: the root node has no parent;
every other revision of `version_map` has a parent in `version_map`, occurs exactly
once in that parent's `children` and in the `children` of no other node of the arena;
the revisions reachable from the root through `children` are exactly the members of
`version_map`; and `active_version` is one of them. -/
theorem tree_well_formed (s : System) (filename : String) (fp : Nat) (f : File)
    (hreach : Reachable s) (hfind : s.files.find filename = some fp)
    (hfile : s.fileHeap[fp]? = some f) :
    (∃ r, s.nodeHeap[f.root]? = some r ∧ r.parent = none) ∧
    (∀ p, p ∈ f.version_map → p ≠ f.root →
      ∃ (n : TreeNode) (q : Nat) (m : TreeNode), s.nodeHeap[p]? = some n ∧
        n.parent = some q ∧ q ∈ f.version_map ∧ s.nodeHeap[q]? = some m ∧
        p ∈ m.children ∧ m.children.count p = 1 ∧
        ∀ (q2 : Nat) (m2 : TreeNode), s.nodeHeap[q2]? = some m2 → p ∈ m2.children →
          q2 = q) ∧
    (∀ p, p ∈ f.version_map → InTree s.nodeHeap f.root p) ∧
    (∀ p, InTree s.nodeHeap f.root p → p ∈ f.version_map) ∧
    f.active_version ∈ f.version_map ∧
    InTree s.nodeHeap f.root f.active_version := by
  have hinv := hreach.inv
  have _hname := hinv.find_valid filename fp hfind
  have hfi := hinv.file_inv fp f hfile
  refine ⟨?_, ?_, fun p hp => (hfi.inTree_iff p).mpr hp, fun p hp => (hfi.inTree_iff p).mp hp,
    hfi.active_mem, (hfi.inTree_iff _).mpr hfi.active_mem⟩
  · rcases hfi.ptr_valid hfi.root_mem with ⟨r, hr⟩
    exact ⟨r, hr, (hfi.parent_iff _ r hfi.root_mem hr).mpr rfl⟩
  · intro p hp hne
    rcases hfi.ptr_valid hp with ⟨n, hn⟩
    cases hpar : n.parent with
    | none => exact absurd ((hfi.parent_iff p n hp hn).mp hpar) hne
    | some q =>
      rcases hfi.parent_ok p n q hp hn hpar with ⟨hq, m, hm, hc, _, _⟩
      refine ⟨n, q, m, hn, hpar, hq, hm, hc,
        List.count_eq_one_of_mem (hfi.children_nodup q m hq hm) hc, ?_⟩
      intro q2 m2 hm2 hc2
      have hlt : q2 < s.nodeHeap.length := by
        rcases List.getElem?_eq_some.mp hm2 with ⟨h, _⟩; exact h
      rcases hinv.cover q2 hlt with ⟨fq, g, hg, hq2⟩
      rcases (hinv.file_inv fq g hg).children_ok q2 m2 p hq2 hm2 hc2 with ⟨_, n2, hn2, hpar2⟩
      rw [hn] at hn2
      cases hn2
      rw [hpar] at hpar2
      exact (Option.some.inj hpar2).symm

theorem tree_well_formed_witness :
    (∃ r, exBranched.nodeHeap[0]? = some r ∧ r.parent = none) ∧
    (∀ p, p ∈ ([0, 1, 2] : List Nat) → p ≠ 0 →
      ∃ (n : TreeNode) (q : Nat) (m : TreeNode), exBranched.nodeHeap[p]? = some n ∧
        n.parent = some q ∧ q ∈ ([0, 1, 2] : List Nat) ∧ exBranched.nodeHeap[q]? = some m ∧
        p ∈ m.children ∧ m.children.count p = 1 ∧
        ∀ (q2 : Nat) (m2 : TreeNode), exBranched.nodeHeap[q2]? = some m2 →
          p ∈ m2.children → q2 = q) ∧
    (∀ p, p ∈ ([0, 1, 2] : List Nat) → InTree exBranched.nodeHeap 0 p) ∧
    (∀ p, InTree exBranched.nodeHeap 0 p → p ∈ ([0, 1, 2] : List Nat)) ∧
    2 ∈ ([0, 1, 2] : List Nat) ∧
    InTree exBranched.nodeHeap 0 2 :=
  tree_well_formed exBranched "a.txt" 0 (File.mk 0 2 [0, 1, 2] 3 "a.txt" 10)
    reachable_exBranched (by decide) (by decide)

/-! ## Parents are older snapshots -/

theorem FileInv.id_nonneg {heap : List TreeNode} {f : File} (h : FileInv heap f) {p : Nat}
    {n : TreeNode} (hp : p ∈ f.version_map) (hn : heap[p]? = some n) : 0 ≤ n.version_id := by
  rcases List.getElem?_of_mem hp with ⟨i, hi⟩
  rcases h.ids i p hi with ⟨n2, hn2, hid⟩
  rw [hn] at hn2
  cases hn2
  omega

/-- From any reachable store, repeated rollback to the parent reaches the root in at
most `version_id(active)` successful steps. -/
theorem rollback_reaches_root (filename : String) (fp : Nat) :
    ∀ (bound : Nat) (s : System) (f : File) (a : TreeNode), Reachable s →
      s.files.find filename = some fp → s.fileHeap[fp]? = some f →
      s.nodeHeap[f.active_version]? = some a → a.version_id.toNat ≤ bound →
      ∃ (k : Nat) (s1 : System) (f1 : File), (k : Int) ≤ a.version_id ∧
        s.rollbackN filename k = some s1 ∧ s1.fileHeap[fp]? = some f1 ∧
        f1.active_version = f.root ∧ f1.root = f.root ∧
        s1.rollback filename System.noVersion = some (s1, System.msgNoParent) := by
  intro bound
  induction bound with
  | zero =>
    intro s f a hreach hfind hfile hact hb
    have hfi := hreach.inv.file_inv fp f hfile
    have h0 := hfi.id_nonneg hfi.active_mem hact
    cases hpar : a.parent with
    | none =>
      exact ⟨0, s, f, by simpa using h0, rfl, hfile,
        (hfi.parent_iff _ a hfi.active_mem hact).mp hpar, rfl,
        rollback_root_eq s filename fp f a hfind hfile hact hpar⟩
    | some q =>
      rcases hfi.parent_ok _ a q hfi.active_mem hact hpar with ⟨hq, m, hm, _, _, hlt⟩
      have := hfi.id_nonneg hq hm
      omega
  | succ b ih =>
    intro s f a hreach hfind hfile hact hb
    have hfi := hreach.inv.file_inv fp f hfile
    have h0 := hfi.id_nonneg hfi.active_mem hact
    have hfp : fp < s.fileHeap.length := by
      rcases List.getElem?_eq_some.mp hfile with ⟨h, _⟩; exact h
    cases hpar : a.parent with
    | none =>
      exact ⟨0, s, f, by simpa using h0, rfl, hfile,
        (hfi.parent_iff _ a hfi.active_mem hact).mp hpar, rfl,
        rollback_root_eq s filename fp f a hfind hfile hact hpar⟩
    | some q =>
      rcases hfi.parent_ok _ a q hfi.active_mem hact hpar with ⟨hq, m, hm, _, _, hlt⟩
      have hm0 := hfi.id_nonneg hq hm
      have hroll := rollback_parent_eq s filename fp f a q hfind hfile hact hpar
      have hreach1 : Reachable (moveState s fp f q) :=
        hreach.step (.rollback filename (-1)) hroll
      rcases ih (moveState s fp f q) { f with active_version := q } m hreach1 hfind
        (List.getElem?_set_self hfp) hm (by omega) with ⟨k, s1, f1, hk, hrun, hf1, ha1, hr1, hno⟩
      refine ⟨k + 1, s1, f1, by push_cast; omega, ?_, hf1, ha1, hr1, hno⟩
      show (match s.rollback filename System.noVersion with
        | none => none
        | some r => if r.2 = System.msgRolledParent then r.1.rollbackN filename k else none) = _
      rw [show s.rollback filename System.noVersion = _ from hroll]
      simp only [if_true]
      exact hrun

/-- C19. In a reachable store, for every registered file: the parent of every revision
that has one is a snapshot with a strictly smaller `version_id`; so a successful
rollback to the parent leaves `active_version` on a snapshot, on which the next
`insert` or `update` forks; and repeating the rollback to the parent reaches the root
after at most `version_id(active)` successful steps, where one more fails with the
no-parent error. -/
theorem parent_is_older_snapshot (s : System) (filename : String) (fp : Nat) (f : File)
    (a : TreeNode) (hreach : Reachable s) (hfind : s.files.find filename = some fp)
    (hfile : s.fileHeap[fp]? = some f) (hact : s.nodeHeap[f.active_version]? = some a) :
    (∀ (p : Nat) (n : TreeNode) (q : Nat), p ∈ f.version_map → s.nodeHeap[p]? = some n →
      n.parent = some q →
      ∃ m, s.nodeHeap[q]? = some m ∧ m.is_snapshot = true ∧ m.version_id < n.version_id) ∧
    (∀ (p : Nat) (n : TreeNode), p ∈ f.version_map → p ≠ f.root →
      s.nodeHeap[p]? = some n → ∃ q, n.parent = some q) ∧
    (∀ q, a.parent = some q →
      ∃ (s1 : System) (m : TreeNode),
        s.rollback filename System.noVersion = some (s1, System.msgRolledParent) ∧
        s1.fileHeap[fp]? = some { f with active_version := q } ∧
        s1.nodeHeap[q]? = some m ∧ m.is_snapshot = true ∧
        (∀ (text : String) (tNode tMod : Int),
          (∃ s2, s1.insert filename text tNode tMod = some (s2, System.msgInserted) ∧
            ForkPost s1 s2 fp { f with active_version := q } m (m.content ++ text)
              tNode tMod) ∧
          (∃ s2, s1.update filename text tNode tMod = some (s2, System.msgUpdated) ∧
            ForkPost s1 s2 fp { f with active_version := q } m text tNode tMod))) ∧
    (∃ (k : Nat) (s1 : System) (f1 : File), (k : Int) ≤ a.version_id ∧
      s.rollbackN filename k = some s1 ∧ s1.fileHeap[fp]? = some f1 ∧
      f1.active_version = f.root ∧ f1.root = f.root ∧
      s1.rollback filename System.noVersion = some (s1, System.msgNoParent)) := by
  have hfi := hreach.inv.file_inv fp f hfile
  have hfp : fp < s.fileHeap.length := by
    rcases List.getElem?_eq_some.mp hfile with ⟨h, _⟩; exact h
  refine ⟨?_, ?_, ?_, ?_⟩
  · intro p n q hp hn hpar
    rcases hfi.parent_ok p n q hp hn hpar with ⟨_, m, hm, _, hs, hlt⟩
    exact ⟨m, hm, hs, hlt⟩
  · intro p n hp hne hn
    cases hpar : n.parent with
    | none => exact absurd ((hfi.parent_iff p n hp hn).mp hpar) hne
    | some q => exact ⟨q, rfl⟩
  · intro q hpar
    rcases hfi.parent_ok _ a q hfi.active_mem hact hpar with ⟨_, m, hm, _, hs, _⟩
    have hf1 : (moveState s fp f q).fileHeap[fp]? = some { f with active_version := q } :=
      List.getElem?_set_self hfp
    refine ⟨moveState s fp f q, m,
      rollback_parent_eq s filename fp f a q hfind hfile hact hpar, hf1, hm, hs, ?_⟩
    intro text tNode tMod
    exact ⟨⟨_, insert_fork_eq (moveState s fp f q) filename text tNode tMod fp
        { f with active_version := q } m hfind hf1 hm hs,
        forkState_post (moveState s fp f q) fp { f with active_version := q } m _ tNode tMod
          hf1 hm⟩,
      ⟨_, update_fork_eq (moveState s fp f q) filename text tNode tMod fp
        { f with active_version := q } m hfind hf1 hm hs,
        forkState_post (moveState s fp f q) fp { f with active_version := q } m _ tNode tMod
          hf1 hm⟩⟩
  · exact rollback_reaches_root filename fp a.version_id.toNat s f a hreach hfind hfile hact
      (le_refl _)

theorem parent_is_older_snapshot_witness :
    (∃ (s1 : System) (m : TreeNode),
        exBranched.rollback "a.txt" System.noVersion = some (s1, System.msgRolledParent) ∧
        s1.fileHeap[0]? = some (File.mk 0 0 [0, 1, 2] 3 "a.txt" 10) ∧
        s1.nodeHeap[0]? = some m ∧ m.is_snapshot = true ∧
        (∀ (text : String) (tNode tMod : Int),
          (∃ s2, s1.insert "a.txt" text tNode tMod = some (s2, System.msgInserted) ∧
            ForkPost s1 s2 0 (File.mk 0 0 [0, 1, 2] 3 "a.txt" 10) m (m.content ++ text)
              tNode tMod) ∧
          (∃ s2, s1.update "a.txt" text tNode tMod = some (s2, System.msgUpdated) ∧
            ForkPost s1 s2 0 (File.mk 0 0 [0, 1, 2] 3 "a.txt" 10) m text tNode tMod))) ∧
    (∃ (k : Nat) (s1 : System) (f1 : File), (k : Int) ≤ 2 ∧
      exBranched.rollbackN "a.txt" k = some s1 ∧ s1.fileHeap[0]? = some f1 ∧
      f1.active_version = 0 ∧ f1.root = 0 ∧
      s1.rollback "a.txt" System.noVersion = some (s1, System.msgNoParent)) :=
  ⟨(parent_is_older_snapshot exBranched "a.txt" 0 (File.mk 0 2 [0, 1, 2] 3 "a.txt" 10)
      (TreeNode.mk 2 "hello!" "" 9 0 (some 0) [] false) reachable_exBranched
      (by decide) (by decide) (by decide)).2.2.1 0 (by decide),
   (parent_is_older_snapshot exBranched "a.txt" 0 (File.mk 0 2 [0, 1, 2] 3 "a.txt" 10)
      (TreeNode.mk 2 "hello!" "" 9 0 (some 0) [] false) reachable_exBranched
      (by decide) (by decide) (by decide)).2.2.2⟩

/-! ## Operations on one file leave the other files alone -/

theorem run_opsSix : System.init.run opsSix = some exSix := by decide

theorem reachable_exSix : Reachable exSix := ⟨opsSix, run_opsSix⟩

/-- C20. In a reachable store, an operation addressed to the name `a` (whatever the
operation and its arguments) leaves the file registered under another name `b` as it
was: `find(b)` returns the same pointer, the `File` record is the same (same
`version_map`, `active_version`, `total_versions`, `last_modified`) and every node of its
`version_map` is the same (content, snapshot state, links); this holds also when
`create(a)` makes the table grow. -/
theorem other_file_untouched (s : System) (a b : String) (fq : Nat) (g : File) (op : Op)
    (s1 : System) (out : String) (hreach : Reachable s) (hab : a ≠ b)
    (hb : s.files.find b = some fq) (hg : s.fileHeap[fq]? = some g)
    (hop : op.target = a) (he : s.exec op = some (s1, out)) :
    s1.files.find b = some fq ∧ s1.fileHeap[fq]? = some g ∧
    (∀ p, p ∈ g.version_map → s1.nodeHeap[p]? = s.nodeHeap[p]?) := by
  have hinv := hreach.inv
  have hgi := hinv.file_inv fq g hg
  have hgname : g.filename = b := by
    rcases hinv.find_valid b fq hb with ⟨g2, hg2, hn⟩
    rw [hg] at hg2
    cases hg2
    exact hn
  have hfq : fq < s.fileHeap.length := by
    rcases List.getElem?_eq_some.mp hg with ⟨h, _⟩; exact h
  have hdiff : ∀ (fp : Nat) (f : File), s.files.find op.target = some fp →
      s.fileHeap[fp]? = some f → fq ≠ fp := by
    intro fp f hfind hfile e
    subst e
    rw [hop] at hfind
    rcases hinv.find_valid a fq hfind with ⟨f2, hf2, hn⟩
    rw [hg] at hf2
    cases hf2
    exact hab (hn.symm.trans hgname)
  rcases exec_shape s op s1 out he with he1 |
    ⟨fp, f, act, c, tNode, tMod, hfind, hfile, hact, _, he1⟩ |
    ⟨fp, f, act, a1, tMod, hfind, hfile, hact, _, _, he1⟩ | ⟨fp, f, q, hfind, hfile, he1⟩ |
    ⟨tNode, tFile, hfind, he1⟩
  · subst he1; exact ⟨hb, hg, fun _ _ => rfl⟩
  · subst he1
    have post := forkState_post s fp f act c tNode tMod hfile hact
    have hne := hdiff fp f hfind hfile
    refine ⟨by rw [post.files_eq]; exact hb, by rw [post.other_files fq hne]; exact hg, ?_⟩
    intro p hp
    have hpa : p ≠ f.active_version := by
      intro e
      subst e
      exact hinv.sep fq fp g f hg hfile hne _ hp (hinv.file_inv fp f hfile).active_mem
    exact post.other_nodes p hpa (hgi.ptr_lt hp)
  · subst he1
    have post := mutState_post s fp f act a1 tMod hfile hact
    have hne := hdiff fp f hfind hfile
    refine ⟨by rw [post.files_eq]; exact hb, by rw [post.other_files fq hne]; exact hg, ?_⟩
    intro p hp
    have hpa : p ≠ f.active_version := by
      intro e
      subst e
      exact hinv.sep fq fp g f hg hfile hne _ hp (hinv.file_inv fp f hfile).active_mem
    exact post.other_nodes p hpa
  · subst he1
    have hne := hdiff fp f hfind hfile
    refine ⟨hb, ?_, fun _ _ => rfl⟩
    show (s.fileHeap.set fp _)[fq]? = _
    rw [List.getElem?_set_ne (Ne.symm hne)]; exact hg
  · subst he1
    rw [hop] at hfind
    have habs := hinv.absent_of_find_none hfind
    refine ⟨?_, ?_, ?_⟩
    · show (s.files.insert op.target (some s.fileHeap.length)).1.find b = _
      rw [hop, hinv.map_wf.find_insert]
      rw [if_neg (fun h => hab h.2.symm)]
      exact hb
    · show (s.fileHeap ++ _)[fq]? = _
      rw [List.getElem?_append_left hfq]; exact hg
    · intro p hp
      show (s.nodeHeap ++ _)[p]? = _
      rw [List.getElem?_append_left (hgi.ptr_lt hp)]

theorem other_file_untouched_witness :
    exSix.files.table.length = 8 ∧
    (createState exSix "g" 13 14).files.table.length = 16 ∧
    (createState exSix "g" 13 14).files.find "a" = some 0 ∧
    (createState exSix "g" 13 14).fileHeap[0]? = some (File.mk 0 0 [0] 1 "a" 2) ∧
    (∀ p, p ∈ ([0] : List Nat) →
      (createState exSix "g" 13 14).nodeHeap[p]? = exSix.nodeHeap[p]?) :=
  ⟨by decide, by decide,
    other_file_untouched exSix "g" "a" 0 (File.mk 0 0 [0] 1 "a" 2) (.create "g" 13 14)
      (createState exSix "g" 13 14) (System.msgCreated "g") reachable_exSix (by decide)
      (by decide) (by decide) rfl (by decide)⟩

/-! ## Output of the command loop -/

/-- C16 (counterexample). On the store `exForked` the line `ROLLBACK a.txt 0`, whose
keyword is `ROLLBACK` with an integer version id, makes `main` write two lines and not
one: the status line of `System::rollback` and then its own `Rolling back file:` line.
With an id that is rejected the error line is followed by the same extra line. -/
theorem targeted_rollback_prints_two_lines :
    (Main.readWord "ROLLBACK a.txt 0".data).1 = "ROLLBACK" ∧
    Main.processLine exForked "ROLLBACK a.txt 0" 9 10 =
      some ({ files := exForked.files, fileHeap := [File.mk 0 0 [0, 1] 2 "a.txt" 8],
              nodeHeap := exForked.nodeHeap },
        "Rolled back to version 0\nRolling back file: a.txt to version: 0\n") ∧
    Main.lineCount "Rolled back to version 0\nRolling back file: a.txt to version: 0\n" ≠ 1 ∧
    Main.processLine exForked "ROLLBACK a.txt 7" 9 10 =
      some (exForked, "Error: Invalid version ID.\nRolling back file: a.txt to version: 7\n") ∧
    Main.lineCount "Error: Invalid version ID.\nRolling back file: a.txt to version: 7\n" ≠ 1 := by
  refine ⟨by decide, by decide, by decide, by decide, by decide⟩

/-! ## What each operation prints -/

theorem create_output (s : System) (filename : String) (tNode tFile : Int) (s1 : System)
    (out : String) (h : s.create filename tNode tFile = some (s1, out)) :
    out = System.msgExists filename ∨ out = System.msgCreated filename := by
  cases hfind : s.files.find filename with
  | some fp =>
    rw [create_exists_eq s filename tNode tFile fp hfind] at h
    cases h; exact Or.inl rfl
  | none =>
    rw [create_new_eq s filename tNode tFile hfind] at h
    cases h; exact Or.inr rfl

theorem read_output (s : System) (filename : String) (s1 : System) (out : String)
    (h : s.read filename = some (s1, out)) :
    out = System.msgNotFound filename ∨
      ∃ fp f a, s.files.find filename = some fp ∧ s.fileHeap[fp]? = some f ∧
        s.nodeHeap[f.active_version]? = some a ∧ out = a.content ++ "\n" := by
  cases hfind : s.files.find filename with
  | none => rw [(not_found_eq s filename hfind).1] at h; cases h; exact Or.inl rfl
  | some fp =>
    cases hfile : s.fileHeap[fp]? with
    | none => simp [System.read, hfind, hfile] at h
    | some f =>
      cases hact : s.nodeHeap[f.active_version]? with
      | none => simp [System.read, hfind, hfile, hact] at h
      | some a =>
        rw [read_eq s filename fp f a hfind hfile hact] at h
        cases h
        exact Or.inr ⟨fp, f, a, rfl, hfile, hact, rfl⟩

theorem insert_output (s : System) (filename content : String) (tNode tMod : Int)
    (s1 : System) (out : String) (h : s.insert filename content tNode tMod = some (s1, out)) :
    out = System.msgNotFound filename ∨ out = System.msgInserted := by
  cases hfind : s.files.find filename with
  | none => rw [(not_found_eq s filename hfind).2.1] at h; cases h; exact Or.inl rfl
  | some fp =>
    cases hfile : s.fileHeap[fp]? with
    | none => simp [System.insert, hfind, hfile] at h
    | some f =>
      cases hact : s.nodeHeap[f.active_version]? with
      | none => simp [System.insert, hfind, hfile, hact] at h
      | some a =>
        cases hsnap : a.is_snapshot with
        | true =>
          rw [insert_fork_eq s filename content tNode tMod fp f a hfind hfile hact hsnap] at h
          cases h; exact Or.inr rfl
        | false =>
          rw [insert_mut_eq s filename content tNode tMod fp f a hfind hfile hact hsnap] at h
          cases h; exact Or.inr rfl

theorem update_output (s : System) (filename content : String) (tNode tMod : Int)
    (s1 : System) (out : String) (h : s.update filename content tNode tMod = some (s1, out)) :
    out = System.msgNotFound filename ∨ out = System.msgUpdated := by
  cases hfind : s.files.find filename with
  | none => rw [(not_found_eq s filename hfind).2.2.1] at h; cases h; exact Or.inl rfl
  | some fp =>
    cases hfile : s.fileHeap[fp]? with
    | none => simp [System.update, hfind, hfile] at h
    | some f =>
      cases hact : s.nodeHeap[f.active_version]? with
      | none => simp [System.update, hfind, hfile, hact] at h
      | some a =>
        cases hsnap : a.is_snapshot with
        | true =>
          rw [update_fork_eq s filename content tNode tMod fp f a hfind hfile hact hsnap] at h
          cases h; exact Or.inr rfl
        | false =>
          rw [update_mut_eq s filename content tNode tMod fp f a hfind hfile hact hsnap] at h
          cases h; exact Or.inr rfl

theorem snapshot_output (s : System) (filename message : String) (tSnap tMod : Int)
    (s1 : System) (out : String)
    (h : s.snapshot filename message tSnap tMod = some (s1, out)) :
    out = System.msgNotFound filename ∨ out = System.msgAlreadySnapshot ∨
      out = System.msgSnapshot message := by
  cases hfind : s.files.find filename with
  | none => rw [(not_found_eq s filename hfind).2.2.2.1] at h; cases h; exact Or.inl rfl
  | some fp =>
    cases hfile : s.fileHeap[fp]? with
    | none => simp [System.snapshot, hfind, hfile] at h
    | some f =>
      cases hact : s.nodeHeap[f.active_version]? with
      | none => simp [System.snapshot, hfind, hfile, hact] at h
      | some a =>
        cases hsnap : a.is_snapshot with
        | true =>
          rw [snapshot_already_eq s filename message tSnap tMod fp f a hfind hfile hact
            hsnap] at h
          cases h; exact Or.inr (Or.inl rfl)
        | false =>
          rw [snapshot_mut_eq s filename message tSnap tMod fp f a hfind hfile hact hsnap] at h
          cases h; exact Or.inr (Or.inr rfl)

theorem rollback_output (s : System) (filename : String) (version_id : Int)
    (s1 : System) (out : String) (h : s.rollback filename version_id = some (s1, out)) :
    out = System.msgNotFound filename ∨ out = System.msgNoParent ∨
      out = System.msgRolledParent ∨ out = System.msgInvalidId ∨
      (version_id ≠ -1 ∧ (out = System.msgVersionNotFound version_id ∨
        out = System.msgRolledTo version_id)) := by
  cases hfind : s.files.find filename with
  | none => rw [(not_found_eq s filename hfind).2.2.2.2.1] at h; cases h; exact Or.inl rfl
  | some fp =>
    cases hfile : s.fileHeap[fp]? with
    | none => simp [System.rollback, hfind, hfile] at h
    | some f =>
      by_cases hv : version_id = -1
      · subst hv
        cases hact : s.nodeHeap[f.active_version]? with
        | none => simp [System.rollback, hfind, hfile, hact] at h
        | some a =>
          cases hpar : a.parent with
          | none =>
            rw [rollback_root_eq s filename fp f a hfind hfile hact hpar] at h
            cases h; exact Or.inr (Or.inl rfl)
          | some p =>
            rw [rollback_parent_eq s filename fp f a p hfind hfile hact hpar] at h
            cases h; exact Or.inr (Or.inr (Or.inl rfl))
      · by_cases hout : version_id < 0 ∨ version_id ≥ f.total_versions
        · rw [rollback_invalid_eq s filename version_id fp f hfind hfile hv hout] at h
          cases h; exact Or.inr (Or.inr (Or.inr (Or.inl rfl)))
        · cases hscan : System.scanVersion s.nodeHeap version_id f.version_map with
          | none => simp [System.rollback, hfind, hfile, hv, hout, hscan] at h
          | some r =>
            cases r with
            | none =>
              simp only [System.rollback, hfind, hfile, hv, if_false, hout, hscan,
                Option.some.injEq, Prod.mk.injEq] at h
              exact Or.inr (Or.inr (Or.inr (Or.inr ⟨hv, Or.inl h.2.symm⟩)))
            | some target =>
              rw [rollback_target_eq s filename version_id fp f target hfind hfile
                (by omega) (by omega) hscan] at h
              cases h
              exact Or.inr (Or.inr (Or.inr (Or.inr ⟨hv, Or.inr rfl⟩)))

namespace Main

theorem lineCount_append (a b : String) : lineCount (a ++ b) = lineCount a + lineCount b := by
  simp [lineCount, List.count_append]

theorem lineCount_endl (a : String) : lineCount (a ++ "\n") = lineCount a + 1 := by
  rw [lineCount_append]; rfl

theorem lineCount_mk (cs : List Char) (h : ∀ c ∈ cs, c.toNat ≠ 10) :
    lineCount (String.mk cs) = 0 := by
  show cs.count (Char.ofNat 10) = 0
  rw [List.count_eq_zero]
  intro hmem
  exact h _ hmem rfl

theorem readWord_lineCount (cs : List Char) : lineCount (readWord cs).1 = 0 := by
  apply lineCount_mk
  intro c hc e
  have := List.mem_takeWhile_imp hc
  simp [isSpace, e] at this

theorem readTail_lineCount (cs : List Char) : lineCount (readTail cs) = 0 := by
  have hall : ∀ c ∈ cs.takeWhile (fun c => c.toNat != 10), c.toNat ≠ 10 := by
    intro c hc
    simpa using List.mem_takeWhile_imp hc
  unfold readTail
  cases hts : cs.takeWhile (fun c => c.toNat != 10) with
  | nil => rfl
  | cons c rest =>
    rw [hts] at hall
    simp only []
    split
    · exact lineCount_mk rest (fun d hd => hall d (List.mem_cons_of_mem _ hd))
    · exact lineCount_mk (c :: rest) hall

theorem lineCount_msgNotFound (fn : String) :
    lineCount (System.msgNotFound fn) = lineCount fn + 1 := by
  simp only [System.msgNotFound, lineCount_append]
  have h1 : lineCount "Error: File '" = 0 := by decide
  have h2 : lineCount "' not found.\n" = 1 := by decide
  omega

theorem lineCount_msgExists (fn : String) :
    lineCount (System.msgExists fn) = lineCount fn + 1 := by
  simp only [System.msgExists, lineCount_append]
  have h1 : lineCount "Error: File '" = 0 := by decide
  have h2 : lineCount "' already exists.\n" = 1 := by decide
  omega

theorem lineCount_msgCreated (fn : String) :
    lineCount (System.msgCreated fn) = lineCount fn + 1 := by
  simp only [System.msgCreated, lineCount_append]
  have h1 : lineCount "File '" = 0 := by decide
  have h2 : lineCount "' created successfully.\n" = 1 := by decide
  omega

theorem lineCount_msgSnapshot (msg : String) :
    lineCount (System.msgSnapshot msg) = lineCount msg + 1 := by
  simp only [System.msgSnapshot, lineCount_append]
  have h1 : lineCount "Snapshot created with message: '" = 0 := by decide
  have h2 : lineCount "'\n" = 1 := by decide
  omega

theorem digitChar_ne_newline : ∀ d, d < 10 → (Nat.digitChar d).toNat ≠ 10 := by decide

theorem toDigitsCore_no_newline : ∀ (fuel n : Nat) (ds : List Char),
    (∀ c ∈ ds, c.toNat ≠ 10) → ∀ c ∈ Nat.toDigitsCore 10 fuel n ds, c.toNat ≠ 10 := by
  intro fuel
  induction fuel with
  | zero => intro n ds h c hc; exact h c (by simpa [Nat.toDigitsCore] using hc)
  | succ k ih =>
    intro n ds h c hc
    have hd : ∀ c ∈ Nat.digitChar (n % 10) :: ds, c.toNat ≠ 10 := by
      intro c hc
      rcases List.mem_cons.mp hc with e | e
      · rw [e]; exact digitChar_ne_newline _ (Nat.mod_lt _ (by decide))
      · exact h c e
    simp only [Nat.toDigitsCore] at hc
    split at hc
    · exact hd c hc
    · exact ih _ _ hd c hc

theorem lineCount_natRepr (n : Nat) : lineCount (Nat.repr n) = 0 := by
  apply lineCount_mk
  exact toDigitsCore_no_newline _ _ [] (fun c hc => by cases hc)

theorem lineCount_toString_int (v : Int) : lineCount (toString v) = 0 := by
  cases v with
  | ofNat m => exact lineCount_natRepr m
  | negSucc m =>
    show lineCount ("-" ++ Nat.repr (m + 1)) = 0
    rw [lineCount_append, lineCount_natRepr]
    rfl
theorem lineCount_msgRollingBack (fn : String) (v : Int) :
    lineCount (msgRollingBack fn v) = lineCount fn + 1 := by
  simp only [msgRollingBack, lineCount_append, lineCount_toString_int]
  have h1 : lineCount "Rolling back file: " = 0 := by decide
  have h2 : lineCount " to version: " = 0 := by decide
  have h3 : lineCount "\n" = 1 := by decide
  omega

theorem rollback_lineCount (s : System) (filename : String) (version_id : Int)
    (s1 : System) (out : String) (h : s.rollback filename version_id = some (s1, out))
    (hfn : lineCount filename = 0) : lineCount out = 1 := by
  rcases rollback_output s filename version_id s1 out h with
    e | e | e | e | ⟨_, e | e⟩
  · rw [e, lineCount_msgNotFound, hfn]
  · rw [e]; decide
  · rw [e]; decide
  · rw [e]; decide
  · rw [e]
    simp only [System.msgVersionNotFound, lineCount_append, lineCount_toString_int]
    have h1 : lineCount "Error: Version " = 0 := by decide
    have h2 : lineCount " not found.\n" = 1 := by decide
    omega
  · rw [e]
    simp only [System.msgRolledTo, lineCount_append, lineCount_toString_int]
    have h1 : lineCount "Rolled back to version " = 0 := by decide
    have h2 : lineCount "\n" = 1 := by decide
    omega

/-- C16 (amended). In a reachable store, a non-blank line whose keyword is `CREATE`,
`READ` (of a file whose active content has no newline), `INSERT`, `UPDATE`, `SNAPSHOT`
or `ROLLBACK` makes the loop of `main` write exactly one line, except a `ROLLBACK` line
that carries a readable integer version id: there `main` writes its own
`Rolling back file:` line after the status or error line of `System::rollback`, two
lines in all. -/
theorem command_line_count (H : System) (line : String) (t1 t2 : Int)
    (hreach : Reachable H)
    (hcmd : (readWord line.data).1 ∈
      ["CREATE", "READ", "INSERT", "UPDATE", "SNAPSHOT", "ROLLBACK"])
    (hread : (readWord line.data).1 = "READ" → ∀ (fp : Nat) (f : File) (a : TreeNode),
      H.files.find (readWord (readWord line.data).2).1 = some fp → H.fileHeap[fp]? = some f →
      H.nodeHeap[f.active_version]? = some a → lineCount a.content = 0) :
    ∃ (H1 : System) (out : String), processLine H line t1 t2 = some (H1, out) ∧
      (∀ v, (readWord line.data).1 = "ROLLBACK" →
        readInt (readWord (readWord line.data).2).2 = some v →
        lineCount out = 2 ∧
        ∃ r, H.rollback (readWord (readWord line.data).2).1 v = some r ∧
          out = r.2 ++ msgRollingBack (readWord (readWord line.data).2).1 v) ∧
      (¬ ((readWord line.data).1 = "ROLLBACK" ∧
          (readInt (readWord (readWord line.data).2).2).isSome) → lineCount out = 1) := by
  have hinv := hreach.inv
  have hne : line.data.isEmpty = false := by
    cases hl : line.data with
    | nil =>
      rw [hl] at hcmd
      revert hcmd
      decide
    | cons c cs => rfl
  have hfn := readWord_lineCount (readWord line.data).2
  have hdef : processLine H line t1 t2 =
      if (readWord line.data).1 = "CREATE" then
        H.create (readWord (readWord line.data).2).1 t1 t2
      else if (readWord line.data).1 = "READ" then H.read (readWord (readWord line.data).2).1
      else if (readWord line.data).1 = "INSERT" then
        H.insert (readWord (readWord line.data).2).1
          (readTail (readWord (readWord line.data).2).2) t1 t2
      else if (readWord line.data).1 = "UPDATE" then
        H.update (readWord (readWord line.data).2).1
          (readTail (readWord (readWord line.data).2).2) t1 t2
      else if (readWord line.data).1 = "SNAPSHOT" then
        H.snapshot (readWord (readWord line.data).2).1
          (readTail (readWord (readWord line.data).2).2) t1 t2
      else if (readWord line.data).1 = "ROLLBACK" then
        match readInt (readWord (readWord line.data).2).2 with
        | some version_id =>
          match H.rollback (readWord (readWord line.data).2).1 version_id with
          | none => none
          | some r =>
            some (r.1, r.2 ++ msgRollingBack (readWord (readWord line.data).2).1 version_id)
        | none => H.rollback (readWord (readWord line.data).2).1 System.noVersion
      else some (H, "Unknown command: " ++ (readWord line.data).1 ++ "\n") := by
    unfold processLine
    rw [hne]
    simp only [Bool.false_eq_true, if_false]
  rw [hdef]
  by_cases c1 : (readWord line.data).1 = "CREATE"
  · rw [if_pos c1]
    rcases hinv.exec (.create (readWord (readWord line.data).2).1 t1 t2) with ⟨H1, out, he, _⟩
    refine ⟨H1, out, he, fun v hh _ => (by rw [c1] at hh; exact absurd hh (by decide)),
      fun _ => ?_⟩
    rcases create_output _ _ _ _ _ _ he with e | e
    · rw [e, lineCount_msgExists, hfn]
    · rw [e, lineCount_msgCreated, hfn]
  rw [if_neg c1]
  by_cases c2 : (readWord line.data).1 = "READ"
  · rw [if_pos c2]
    rcases hinv.exec (.read (readWord (readWord line.data).2).1) with ⟨H1, out, he, _⟩
    refine ⟨H1, out, he, fun v hh _ => (by rw [c2] at hh; exact absurd hh (by decide)),
      fun _ => ?_⟩
    rcases read_output _ _ _ _ he with e | ⟨fp, f, a, hfind, hfile, hact, e⟩
    · rw [e, lineCount_msgNotFound, hfn]
    · rw [e, lineCount_endl, hread c2 fp f a hfind hfile hact]
  rw [if_neg c2]
  by_cases c3 : (readWord line.data).1 = "INSERT"
  · rw [if_pos c3]
    rcases hinv.exec (.insert (readWord (readWord line.data).2).1
      (readTail (readWord (readWord line.data).2).2) t1 t2) with ⟨H1, out, he, _⟩
    refine ⟨H1, out, he, fun v hh _ => (by rw [c3] at hh; exact absurd hh (by decide)),
      fun _ => ?_⟩
    rcases insert_output _ _ _ _ _ _ _ he with e | e
    · rw [e, lineCount_msgNotFound, hfn]
    · rw [e]; decide
  rw [if_neg c3]
  by_cases c4 : (readWord line.data).1 = "UPDATE"
  · rw [if_pos c4]
    rcases hinv.exec (.update (readWord (readWord line.data).2).1
      (readTail (readWord (readWord line.data).2).2) t1 t2) with ⟨H1, out, he, _⟩
    refine ⟨H1, out, he, fun v hh _ => (by rw [c4] at hh; exact absurd hh (by decide)),
      fun _ => ?_⟩
    rcases update_output _ _ _ _ _ _ _ he with e | e
    · rw [e, lineCount_msgNotFound, hfn]
    · rw [e]; decide
  rw [if_neg c4]
  by_cases c5 : (readWord line.data).1 = "SNAPSHOT"
  · rw [if_pos c5]
    rcases hinv.exec (.snapshot (readWord (readWord line.data).2).1
      (readTail (readWord (readWord line.data).2).2) t1 t2) with ⟨H1, out, he, _⟩
    refine ⟨H1, out, he, fun v hh _ => (by rw [c5] at hh; exact absurd hh (by decide)),
      fun _ => ?_⟩
    rcases snapshot_output _ _ _ _ _ _ _ he with e | e | e
    · rw [e, lineCount_msgNotFound, hfn]
    · rw [e]; decide
    · rw [e, lineCount_msgSnapshot, readTail_lineCount]
  rw [if_neg c5]
  by_cases c6 : (readWord line.data).1 = "ROLLBACK"
  · rw [if_pos c6]
    cases hint : readInt (readWord (readWord line.data).2).2 with
    | none =>
      simp only []
      rcases hinv.exec (.rollback (readWord (readWord line.data).2).1 System.noVersion) with
        ⟨H1, out, he, _⟩
      refine ⟨H1, out, he, fun v _ hv => (by cases hv), fun _ => ?_⟩
      exact rollback_lineCount H _ _ H1 out he hfn
    | some v =>
      simp only []
      rcases hinv.exec (.rollback (readWord (readWord line.data).2).1 v) with ⟨H1, out, he, _⟩
      have he2 : H.rollback (readWord (readWord line.data).2).1 v = some (H1, out) := he
      rw [he2]
      refine ⟨H1, out ++ msgRollingBack (readWord (readWord line.data).2).1 v, rfl, ?_,
        fun hh => absurd ⟨c6, rfl⟩ hh⟩
      intro w _ hw
      cases hw
      refine ⟨?_, (H1, out), he2, rfl⟩
      rw [lineCount_append, rollback_lineCount H _ v H1 out he2 hfn, lineCount_msgRollingBack,
        hfn]
  · exfalso
    simp only [List.mem_cons, List.mem_singleton, List.not_mem_nil, or_false] at hcmd
    rcases hcmd with e | e | e | e | e | e
    · exact c1 e
    · exact c2 e
    · exact c3 e
    · exact c4 e
    · exact c5 e
    · exact c6 e

theorem command_line_count_witness :
    (∃ (H1 : System) (out : String),
      processLine exForked "INSERT a.txt  again" 9 10 = some (H1, out) ∧
      lineCount out = 1) ∧
    (∃ (H1 : System) (out : String),
      processLine exForked "ROLLBACK a.txt 0" 9 10 = some (H1, out) ∧
      lineCount out = 2) :=
  ⟨(command_line_count exForked "INSERT a.txt  again" 9 10 reachable_exForked (by decide)
      (fun h => absurd h (by decide))).imp fun _ hH =>
        hH.imp fun _ hout => ⟨hout.1, hout.2.2 (by decide)⟩,
   (command_line_count exForked "ROLLBACK a.txt 0" 9 10 reachable_exForked (by decide)
      (fun h => absurd h (by decide))).imp fun _ hH =>
        hH.imp fun _ hout => ⟨hout.1, (hout.2.1 0 (by decide) (by decide)).1⟩⟩

end Main

end Vfs
